import Mathlib

/-!
Shallow embedding of the cretonne `DataFlowGraph` (`src/lib/cretonne/src/ir/dfg.rs`).

Entity maps and value lists are represented as plain Lean lists; `EntityMap`
indexing that would abort on an out-of-range key is modelled with `List.getElem?`
and an `Except` error result.  The packed `Value` reference is modelled in its
expanded form (`Direct`/`Table`).  Result and argument numbers are stored in
16 bits in the source (`as u16` casts), modelled as `% 65536`.  Every fatal
abort (a failed `assert!` or an explicit fatal branch) is an `Except.error`.
-/

namespace Cret

/-- Value types. `0` encodes `VOID`, which is also the default type
(`Type::default()`), and `1` encodes the boolean type `b1`. -/
abbrev Ty := Nat

/-- An SSA value reference in expanded form (`ExpandedValue` in the source):
either the first result of an instruction (`direct`), or an index into the
extended value table (`table`). -/
inductive Value where
  | direct (inst : Nat)
  | table (idx : Nat)
deriving DecidableEq

/-- Modelled from the spec: a representative opcode set.  The opcode
constraint tables are generated code outside the given sources; the spec
describes them as a pure function from opcode to arities and result types. -/
inductive Opcode where
  | Iconst
  | Trap
  | Copy
  | Spill
  | Fill
  | IaddCout
  | Icmp
  | CallDir
  | CallInd
deriving DecidableEq

/-- Modelled from the spec: `constraints().fixed_results()` for each opcode.
`iadd_cout` has two fixed results, calls have none, `trap` has none. -/
def Opcode.fixed_results : Opcode → Nat
  | .Trap => 0
  | .CallDir => 0
  | .CallInd => 0
  | .IaddCout => 2
  | _ => 1

/-- Modelled from the spec: `constraints().result_type(i, ctrl_typevar)`.
Polymorphic results take the controlling type variable; the second result of
`iadd_cout` is the boolean carry type `b1`. -/
def Opcode.result_type (op : Opcode) (i : Nat) (ctrl : Ty) : Ty :=
  if op = .IaddCout ∧ i = 1 then 1 else ctrl

/-- Instruction payload (`InstructionData`): opcode, first-result type and
operands.  Call payloads carry a function reference or signature reference. -/
inductive InstructionData where
  | Nullary (opcode : Opcode) (ty : Ty)
  | Unary (opcode : Opcode) (ty : Ty) (arg : Value)
  | Binary (opcode : Opcode) (ty : Ty) (arg0 arg1 : Value)
  | CallData (opcode : Opcode) (ty : Ty) (func_ref : Nat) (args : List Value)
  | CallIndirectData (opcode : Opcode) (ty : Ty) (sig_ref : Nat) (args : List Value)
deriving DecidableEq

/-- The opcode of an instruction payload. -/
def InstructionData.opcode : InstructionData → Opcode
  | .Nullary op _ => op
  | .Unary op _ _ => op
  | .Binary op _ _ _ => op
  | .CallData op _ _ _ => op
  | .CallIndirectData op _ _ _ => op

/-- The first-result type stored in the payload (`first_type()`). -/
def InstructionData.first_type : InstructionData → Ty
  | .Nullary _ ty => ty
  | .Unary _ ty _ => ty
  | .Binary _ ty _ _ => ty
  | .CallData _ ty _ _ => ty
  | .CallIndirectData _ ty _ _ => ty

/-- Overwrite the first-result type (`*first_type_mut() = ty`). -/
def InstructionData.set_first_type : InstructionData → Ty → InstructionData
  | .Nullary op _, ty => .Nullary op ty
  | .Unary op _ a, ty => .Unary op ty a
  | .Binary op _ a b, ty => .Binary op ty a b
  | .CallData op _ f args, ty => .CallData op ty f args
  | .CallIndirectData op _ s args, ty => .CallIndirectData op ty s args

/-- Call classification returned by `analyze_call`. -/
inductive CallInfo where
  | NotACall
  | DirectCall (func_ref : Nat)
  | IndirectCall (sig_ref : Nat)
deriving DecidableEq

/-- `InstructionData::analyze_call`: classify the payload. -/
def InstructionData.analyze_call : InstructionData → CallInfo
  | .CallData _ _ f _ => .DirectCall f
  | .CallIndirectData _ _ s _ => .IndirectCall s
  | _ => .NotACall

/-- Extended value table entry (`ValueData`): a secondary instruction result,
an EBB argument, or an alias.  `next` is the `PackedOption<Value>` link to the
following secondary result. -/
inductive ValueData where
  | Inst (ty : Ty) (num : Nat) (inst : Nat) (next : Option Value)
  | Arg (ty : Ty) (num : Nat) (ebb : Nat)
  | Alias (ty : Ty) (original : Value)
deriving DecidableEq

/-- The data flow graph: instruction payloads, per-instruction result lists,
EBB argument lists, the extended value table, and the signature and external
function tables.  A `Signature` is modelled by its list of return types
(the only part the DFG consults). -/
structure DataFlowGraph where
  insts : List InstructionData
  results : List (List Value)
  ebbs : List (List Value)
  extended_values : List ValueData
  signatures : List (List Ty)
  ext_funcs : List Nat
deriving DecidableEq

/-- `DataFlowGraph::new()`: the empty graph. -/
def DataFlowGraph.new : DataFlowGraph := ⟨[], [], [], [], [], []⟩

/-- The distinct fatal aborts of the module.  Each `assert!`, `panic!`-style
fatal branch or out-of-range entity-map access maps to one constructor. -/
inductive Err where
  | oob
  | aliasLoop
  | copyLoop
  | dangling
  | danglingArg
  | notSecondary
  | notLast
  | notInstResult
  | tooMany
  | notEbbArg
  | wrongEbb
  | typeMismatch
  | selfAlias
  | directAlias
  | noResults
deriving DecidableEq

/-- Where did a value come from (`ValueDef`)? -/
inductive ValueDef where
  | Res (inst : Nat) (num : Nat)
  | Arg (ebb : Nat) (num : Nat)
deriving DecidableEq

/-- `value_is_valid`: a direct value is valid iff its instruction is in range,
a table value iff its index is in range. -/
def DataFlowGraph.value_is_valid (d : DataFlowGraph) (v : Value) : Bool :=
  match v with
  | .direct i => i < d.insts.length
  | .table k => k < d.extended_values.length

/-- `value_type`: the type of a value (first-result type for direct values,
the `ty` field of the table slot otherwise). -/
def DataFlowGraph.value_type (d : DataFlowGraph) (v : Value) : Except Err Ty :=
  match v with
  | .direct i =>
    match d.insts[i]? with
    | some idata => .ok idata.first_type
    | none => .error .oob
  | .table k =>
    match d.extended_values[k]? with
    | some (.Inst ty _ _ _) => .ok ty
    | some (.Arg ty _ _) => .ok ty
    | some (.Alias ty _) => .ok ty
    | none => .error .oob

/-- The loop body of `resolve_aliases`, with explicit fuel.  Fuel exhaustion
is the fatal `Value alias loop detected` branch. -/
def DataFlowGraph.raLoop (d : DataFlowGraph) : Nat → Value → Except Err Value
  | 0, _ => .error .aliasLoop
  | fuel + 1, v =>
    match v with
    | .table idx =>
      match d.extended_values[idx]? with
      | some (.Alias _ original) => d.raLoop fuel original
      | some _ => .ok v
      | none => .error .oob
    | .direct _ => .ok v

/-- `resolve_aliases`: walk alias links for at most `1 + |extended_values|`
steps. -/
def DataFlowGraph.resolve_aliases (d : DataFlowGraph) (v : Value) : Except Err Value :=
  d.raLoop (1 + d.extended_values.length) v

/-- Is an opcode one of `Copy | Spill | Fill`? -/
def copylike : Opcode → Bool
  | .Copy => true
  | .Spill => true
  | .Fill => true
  | _ => false

/-- The loop body of `resolve_copies`, with explicit fuel.  Fuel exhaustion is
the fatal `Copy loop detected` branch. -/
def DataFlowGraph.rcLoop (d : DataFlowGraph) : Nat → Value → Except Err Value
  | 0, _ => .error .copyLoop
  | fuel + 1, v =>
    match d.resolve_aliases v with
    | .error e => .error e
    | .ok v1 =>
      match v1 with
      | .direct i =>
        match d.insts[i]? with
        | some (.Unary op _ arg) =>
          if copylike op then d.rcLoop fuel arg else .ok v1
        | some _ => .ok v1
        | none => .error .oob
      | .table _ => .ok v1

/-- `resolve_copies`: resolve aliases and step through `copy`/`spill`/`fill`
instructions, bounded by the instruction count. -/
def DataFlowGraph.resolve_copies (d : DataFlowGraph) (v : Value) : Except Err Value :=
  d.rcLoop d.insts.length v

/-- The recursion of `value_def`, with fuel.  The source recurses at most one
level through an alias slot (the resolved value is never an alias), so fuel 2
makes this extensionally equal to the source. -/
def DataFlowGraph.valueDefGo (d : DataFlowGraph) : Nat → Value → Except Err ValueDef
  | 0, _ => .error .aliasLoop
  | fuel + 1, v =>
    match v with
    | .direct inst => .ok (.Res inst 0)
    | .table idx =>
      match d.extended_values[idx]? with
      | some (.Inst _ num inst _) =>
        match d.results[inst]? with
        | none => .error .oob
        | some list =>
          if list[num]? = some v then .ok (.Res inst num) else .error .dangling
      | some (.Arg _ num ebb) =>
        match d.ebbs[ebb]? with
        | none => .error .oob
        | some args =>
          if args[num]? = some v then .ok (.Arg ebb num) else .error .danglingArg
      | some (.Alias _ original) =>
        match d.resolve_aliases original with
        | .error e => .error e
        | .ok w => d.valueDefGo fuel w
      | none => .error .oob

/-- `value_def`: the definition of a value, with the dangling-value
consistency assertions of the source. -/
def DataFlowGraph.value_def (d : DataFlowGraph) (v : Value) : Except Err ValueDef :=
  d.valueDefGo 2 v

/-- `make_value`: allocate an extended value table entry; the new reference
indexes the entry just pushed. -/
def DataFlowGraph.make_value (d : DataFlowGraph) (data : ValueData) :
    DataFlowGraph × Value :=
  ({ d with extended_values := d.extended_values ++ [data] },
   Value.table d.extended_values.length)

/-- `change_to_alias(dest, src)`: rewrite `dest`'s table slot into an alias of
`resolve_aliases(src)`, after the loop, type and direct-value checks. -/
def DataFlowGraph.change_to_alias (d : DataFlowGraph) (dest src : Value) :
    Except Err DataFlowGraph :=
  match d.resolve_aliases src with
  | .error e => .error e
  | .ok original =>
    if dest = original then .error .selfAlias
    else
      match d.value_type original with
      | .error e => .error e
      | .ok ty =>
        match d.value_type dest with
        | .error e => .error e
        | .ok dty =>
          if dty ≠ ty then .error .typeMismatch
          else
            match dest with
            | .table idx =>
              .ok { d with extended_values :=
                      d.extended_values.set idx (.Alias ty original) }
            | .direct _ => .error .directAlias

/-- `make_value_alias(src)`: allocate a fresh alias slot for `src`. -/
def DataFlowGraph.make_value_alias (d : DataFlowGraph) (src : Value) :
    Except Err (DataFlowGraph × Value) :=
  match d.value_type src with
  | .error e => .error e
  | .ok ty => .ok (d.make_value (.Alias ty src))

/-- `Vec::resize` for the result-list map: truncate or pad with empty lists to
length `n`. -/
def resizeLists (l : List (List Value)) (n : Nat) : List (List Value) :=
  l.take n ++ List.replicate (n - l.length) []

/-- `make_inst(data)`: resize the result map to `num_insts() + 1`, then push
the payload; returns the new instruction reference. -/
def DataFlowGraph.make_inst (d : DataFlowGraph) (data : InstructionData) :
    DataFlowGraph × Nat :=
  ({ d with results := resizeLists d.results (d.insts.length + 1),
            insts := d.insts ++ [data] },
   d.insts.length)

/-- `call_signature(inst)`: the signature of a direct or indirect call, `none`
for non-call instructions. -/
def DataFlowGraph.call_signature (d : DataFlowGraph) (inst : Nat) :
    Except Err (Option Nat) :=
  match d.insts[inst]? with
  | none => .error .oob
  | some idata =>
    match idata.analyze_call with
    | .NotACall => .ok none
    | .DirectCall f =>
      match d.ext_funcs[f]? with
      | some s => .ok (some s)
      | none => .error .oob
    | .IndirectCall s => .ok (some s)

/-- The mutable state threaded through the result-materialization loops of
`make_inst_results`: the list head, the pending first type, `rev_num`, the
extended value table being extended, and the result values pushed so far. -/
structure MirState where
  head : Option Value
  pending : Option Ty
  rev_num : Nat
  evs : List ValueData
  res : List Value
deriving DecidableEq

/-- One iteration of the result-materialization loops: if a type is pending,
allocate a table slot for it (numbered `total - rev_num`, as a 16-bit value,
linked to the previous head) and push the new value; then make `tyNext`
pending. -/
def mirBody (inst total : Nat) (tyNext : Ty) (st : MirState) : MirState :=
  match st.pending with
  | some ty =>
    { head := some (Value.table st.evs.length)
      pending := some tyNext
      rev_num := st.rev_num + 1
      evs := st.evs ++ [.Inst ty ((total - st.rev_num) % 65536) inst st.head]
      res := st.res ++ [Value.table st.evs.length] }
  | none => { st with pending := some tyNext }

/-- A `for res_idx in (0..k).rev()` loop of `make_inst_results`: iterate
`mirBody` over descending indices, taking the type at each index from `tyf`. -/
def mirLoop (inst total : Nat) (tyf : Nat → Ty) : Nat → MirState → MirState
  | 0, st => st
  | k + 1, st => mirLoop inst total tyf k (mirBody inst total (tyf k) st)

/-- The tail of `make_inst_results` after the variable-results loop: run the
fixed-results loop, store the first type, push the direct first result if any,
and reverse the result list. -/
def DataFlowGraph.mirFinish (d : DataFlowGraph) (inst : Nat)
    (idata : InstructionData) (ctrl : Ty) (fixed total : Nat) (st : MirState) :
    DataFlowGraph × Nat :=
  let st2 := mirLoop inst total (fun i => idata.opcode.result_type i ctrl) fixed st
  let ft := st2.pending.getD 0
  let rlist := (st2.res ++ (if st2.pending.isSome then [Value.direct inst] else [])).reverse
  ({ d with insts := d.insts.set inst (idata.set_first_type ft)
          , extended_values := st2.evs
          , results := d.results.set inst rlist }, total)

/-- `make_inst_results(inst, ctrl_typevar)`: clear the result list, materialize
the call results (if a call) and the fixed results backwards, set the first
type and finish with the direct first result; returns the total result count. -/
def DataFlowGraph.make_inst_results (d : DataFlowGraph) (inst : Nat) (ctrl : Ty) :
    Except Err (DataFlowGraph × Nat) :=
  match d.insts[inst]? with
  | none => .error .oob
  | some idata =>
    match d.results[inst]? with
    | none => .error .oob
    | some _ =>
      match d.call_signature inst with
      | .error e => .error e
      | .ok osig =>
        let st0 : MirState := ⟨none, none, 1, d.extended_values, []⟩
        match osig with
        | some sig =>
          match d.signatures[sig]? with
          | none => .error .oob
          | some rts =>
            let total := idata.opcode.fixed_results + rts.length
            let st1 := mirLoop inst total (fun i => rts.getD i 0) rts.length st0
            .ok (d.mirFinish inst idata ctrl idata.opcode.fixed_results total st1)
        | none =>
          .ok (d.mirFinish inst idata ctrl idata.opcode.fixed_results
                idata.opcode.fixed_results st0)

/-- `detach_secondary_results(inst)`: drop every result past the first and
return the second result (head of the detached chain).  The first result stays
attached iff the first-result type is non-void. -/
def DataFlowGraph.detach_secondary_results (d : DataFlowGraph) (inst : Nat) :
    Except Err (DataFlowGraph × Option Value) :=
  match d.results[inst]? with
  | none => .error .oob
  | some list =>
    if list.isEmpty then .ok (d, none)
    else
      match d.insts[inst]? with
      | none => .error .oob
      | some idata =>
        let nlist := if idata.first_type ≠ 0 then [Value.direct inst] else []
        .ok ({ d with results := d.results.set inst nlist }, list[1]?)

/-- `next_secondary_result(value)`: the `next` link of a secondary result. -/
def DataFlowGraph.next_secondary_result (d : DataFlowGraph) (v : Value) :
    Except Err (Option Value) :=
  match v with
  | .table idx =>
    match d.extended_values[idx]? with
    | some (.Inst _ _ _ next) => .ok next
    | some _ => .error .notSecondary
    | none => .error .oob
  | .direct _ => .error .notSecondary

/-- `attach_secondary_result(last_res, res)`: find the owning instruction from
`last_res` (linking `last_res.next` to `res` when `last_res` is a table slot,
after the last-result assertion), push `res` on the result list, check the
16-bit capacity, and rewrite `res`'s slot with the new number and owner. -/
def DataFlowGraph.attach_secondary_result (d : DataFlowGraph) (last_res res : Value) :
    Except Err DataFlowGraph :=
  match (match last_res with
         | .direct i => .ok (d, i)
         | .table idx =>
           match d.extended_values[idx]? with
           | some (.Inst ty num inst next) =>
             if next.isSome then .error .notLast
             else .ok ({ d with extended_values :=
                           d.extended_values.set idx (.Inst ty num inst (some res)) },
                       inst)
           | some _ => .error .notInstResult
           | none => .error .oob
         : Except Err (DataFlowGraph × Nat)) with
  | .error e => .error e
  | .ok (d1, res_inst) =>
    match d1.results[res_inst]? with
    | none => .error .oob
    | some list =>
      let res_num := list.length
      let d2 := { d1 with results := d1.results.set res_inst (list ++ [res]) }
      if res_num > 65535 then .error .tooMany
      else
        match res with
        | .table ridx =>
          match (d2.extended_values[ridx]? : Option ValueData) with
          | some (.Inst rty _ _ _) =>
            let slot : ValueData := .Inst rty (res_num % 65536) res_inst none
            .ok { d2 with extended_values := d2.extended_values.set ridx slot }
          | some _ => .error .notInstResult
          | none => .error .oob
        | .direct _ => .error .notInstResult

/-- `append_secondary_result(last_res, ty)`: allocate a placeholder secondary
result slot and attach it after `last_res`. -/
def DataFlowGraph.append_secondary_result (d : DataFlowGraph) (last_res : Value)
    (ty : Ty) : Except Err (DataFlowGraph × Value) :=
  let p := d.make_value (.Inst ty 0 0 none)
  match p.1.attach_secondary_result last_res p.2 with
  | .error e => .error e
  | .ok d2 => .ok (d2, p.2)

/-- `first_result(inst)`: the first result; fatal when there is none. -/
def DataFlowGraph.first_result (d : DataFlowGraph) (inst : Nat) : Except Err Value :=
  match d.results[inst]? with
  | none => .error .oob
  | some list =>
    match list.head? with
    | some v => .ok v
    | none => .error .noResults

/-- `inst_results(inst)`: the result list as a slice. -/
def DataFlowGraph.inst_results (d : DataFlowGraph) (inst : Nat) : List Value :=
  (d.results[inst]?).getD []

/-- `has_results(inst)`. -/
def DataFlowGraph.has_results (d : DataFlowGraph) (inst : Nat) : Bool :=
  !(d.inst_results inst).isEmpty

/-- `make_ebb()`: append an EBB with an empty argument list. -/
def DataFlowGraph.make_ebb (d : DataFlowGraph) : DataFlowGraph × Nat :=
  ({ d with ebbs := d.ebbs ++ [[]] }, d.ebbs.length)

/-- `ebb_args(ebb)`. -/
def DataFlowGraph.ebb_args (d : DataFlowGraph) (ebb : Nat) : List Value :=
  (d.ebbs[ebb]?).getD []

/-- `attach_ebb_arg(ebb, arg)`: push `arg` on the argument list, check the
16-bit capacity, and back-patch the slot's number after checking that the slot
is an EBB argument of this very EBB. -/
def DataFlowGraph.attach_ebb_arg (d : DataFlowGraph) (ebb : Nat) (arg : Value) :
    Except Err DataFlowGraph :=
  match d.ebbs[ebb]? with
  | none => .error .oob
  | some args =>
    let arg_num := args.length
    let d1 := { d with ebbs := d.ebbs.set ebb (args ++ [arg]) }
    if arg_num > 65535 then .error .tooMany
    else
      match arg with
      | .table idx =>
        match (d1.extended_values[idx]? : Option ValueData) with
        | some (.Arg ty _ aebb) =>
          if ebb = aebb then
            let slot : ValueData := .Arg ty (arg_num % 65536) aebb
            .ok { d1 with extended_values := d1.extended_values.set idx slot }
          else .error .wrongEbb
        | some _ => .error .notEbbArg
        | none => .error .oob
      | .direct _ => .error .notEbbArg

/-- `append_ebb_arg(ebb, ty)`: allocate an argument slot with a placeholder
number and attach it. -/
def DataFlowGraph.append_ebb_arg (d : DataFlowGraph) (ebb : Nat) (ty : Ty) :
    Except Err (DataFlowGraph × Value) :=
  let p := d.make_value (.Arg ty 0 ebb)
  match p.1.attach_ebb_arg ebb p.2 with
  | .error e => .error e
  | .ok d2 => .ok (d2, p.2)

/-- `detach_ebb_args(ebb)`: take the whole argument list, leaving it empty. -/
def DataFlowGraph.detach_ebb_args (d : DataFlowGraph) (ebb : Nat) :
    Except Err (DataFlowGraph × List Value) :=
  match d.ebbs[ebb]? with
  | none => .error .oob
  | some args => .ok ({ d with ebbs := d.ebbs.set ebb [] }, args)

/-- `replace_ebb_arg(old_arg, new_type)`: clone `old_arg`'s slot with a new
type and put the fresh value at the same position of the argument list. -/
def DataFlowGraph.replace_ebb_arg (d : DataFlowGraph) (old_arg : Value)
    (new_type : Ty) : Except Err (DataFlowGraph × Value) :=
  match old_arg with
  | .direct _ => .error .notEbbArg
  | .table idx =>
    match d.extended_values[idx]? with
    | none => .error .oob
    | some (.Arg _ num ebb) =>
      let p := d.make_value (.Arg new_type num ebb)
      match p.1.ebbs[ebb]? with
      | none => .error .oob
      | some args =>
        if num < args.length then
          .ok ({ p.1 with ebbs := p.1.ebbs.set ebb (args.set num p.2) }, p.2)
        else .error .oob
    | some _ => .error .notEbbArg

/-- Modelled from the spec: `dfg.replace(inst).copy(arg)`.  The
`ReplaceBuilder` lives in the builder module, outside the given sources; per
spec §4.7 it overwrites the payload with `Copy(arg)` and rebuilds the result
values (the controlling type variable of a `copy` is its operand's type). -/
def DataFlowGraph.replace_copy (d : DataFlowGraph) (inst : Nat) (arg : Value) :
    Except Err DataFlowGraph :=
  match d.value_type arg with
  | .error e => .error e
  | .ok ty =>
    match d.insts[inst]? with
    | none => .error .oob
    | some _ =>
      let d1 := { d with insts := d.insts.set inst (.Unary .Copy ty arg) }
      match d1.make_inst_results inst ty with
      | .error e => .error e
      | .ok (d2, _) => .ok d2

/-- `redefine_first_value(pos)`, with the cursor replaced by the instruction
it points at (the layout is outside the DFG).  Clone the payload, take the
result list, detach secondaries (a no-op after the take), move the list to a
new instruction with slot 0 rewritten to the new direct value, and replace the
original instruction with a copy of the new first result. -/
def DataFlowGraph.redefine_first_value (d : DataFlowGraph) (orig : Nat) :
    Except Err (DataFlowGraph × Nat) :=
  match d.insts[orig]? with
  | none => .error .oob
  | some data =>
    match d.results[orig]? with
    | none => .error .oob
    | some origResults =>
      let d1 := { d with results := d.results.set orig [] }
      match d1.detach_secondary_results orig with
      | .error e => .error e
      | .ok (d2, _) =>
        let p := d2.make_inst data
        match origResults with
        | [] => .error .oob
        | _ :: tail =>
          let d3 := { p.1 with results := p.1.results.set p.2 (Value.direct p.2 :: tail) }
          match d3.first_result p.2 with
          | .error e => .error e
          | .ok new_value =>
            match d3.replace_copy orig new_value with
            | .error e => .error e
            | .ok d4 => .ok (d4, p.2)

/-- Occurrences of a value across all result lists and all EBB argument
lists: the number of attached positions holding `v`. -/
def occCount (d : DataFlowGraph) (v : Value) : Nat :=
  (d.results.flatten).count v + (d.ebbs.flatten).count v

/-- One public DFG operation, as a step relation on graphs.  A fatal abort
produces no step.  When `g` is `true`, the two reattach operations are only
taken on detached values (values occurring in no list), the documented
precondition of those operations. -/
inductive Step (g : Bool) : DataFlowGraph → DataFlowGraph → Prop where
  | make_inst (d : DataFlowGraph) (data : InstructionData) :
      Step g d (d.make_inst data).1
  | make_inst_results (d d' : DataFlowGraph) (inst : Nat) (ctrl : Ty) (n : Nat) :
      d.make_inst_results inst ctrl = .ok (d', n) → Step g d d'
  | detach_secondary_results (d d' : DataFlowGraph) (inst : Nat) (ov : Option Value) :
      d.detach_secondary_results inst = .ok (d', ov) → Step g d d'
  | attach_secondary_result (d d' : DataFlowGraph) (last_res res : Value) :
      (g = true → occCount d res = 0) →
      d.attach_secondary_result last_res res = .ok d' → Step g d d'
  | append_secondary_result (d d' : DataFlowGraph) (last_res : Value) (ty : Ty) (v : Value) :
      d.append_secondary_result last_res ty = .ok (d', v) → Step g d d'
  | change_to_alias (d d' : DataFlowGraph) (dest src : Value) :
      d.change_to_alias dest src = .ok d' → Step g d d'
  | make_value_alias (d d' : DataFlowGraph) (src v : Value) :
      d.make_value_alias src = .ok (d', v) → Step g d d'
  | make_ebb (d : DataFlowGraph) : Step g d d.make_ebb.1
  | append_ebb_arg (d d' : DataFlowGraph) (ebb : Nat) (ty : Ty) (v : Value) :
      d.append_ebb_arg ebb ty = .ok (d', v) → Step g d d'
  | attach_ebb_arg (d d' : DataFlowGraph) (ebb : Nat) (arg : Value) :
      (g = true → occCount d arg = 0) →
      d.attach_ebb_arg ebb arg = .ok d' → Step g d d'
  | detach_ebb_args (d d' : DataFlowGraph) (ebb : Nat) (args : List Value) :
      d.detach_ebb_args ebb = .ok (d', args) → Step g d d'
  | replace_ebb_arg (d d' : DataFlowGraph) (old_arg : Value) (ty : Ty) (v : Value) :
      d.replace_ebb_arg old_arg ty = .ok (d', v) → Step g d d'
  | replace_copy (d d' : DataFlowGraph) (inst : Nat) (arg : Value) :
      d.replace_copy inst arg = .ok d' → Step g d d'
  | redefine_first_value (d d' : DataFlowGraph) (orig new : Nat) :
      d.redefine_first_value orig = .ok (d', new) → Step g d d'

/-- States reachable from the empty graph by public DFG operations. -/
inductive Reachable (g : Bool) : DataFlowGraph → Prop where
  | base : Reachable g DataFlowGraph.new
  | step {d d' : DataFlowGraph} : Reachable g d → Step g d d' → Reachable g d'

/-- The return-type list governing the variable results of `inst`: empty for
non-call instructions, the signature's return types for calls. -/
def DataFlowGraph.callReturnTypes (d : DataFlowGraph) (inst : Nat) :
    Except Err (List Ty) :=
  match d.call_signature inst with
  | .error e => .error e
  | .ok none => .ok []
  | .ok (some s) =>
    match d.signatures[s]? with
    | none => .error .oob
    | some rts => .ok rts

/-- The sequence of result types `make_inst_results` materializes: the fixed
result types from the opcode constraints followed by the call return types. -/
def resultTypes (op : Opcode) (ctrl : Ty) (rts : List Ty) : List Ty :=
  (List.range op.fixed_results).map (fun i => op.result_type i ctrl) ++ rts

theorem resultTypes_length (op : Opcode) (ctrl : Ty) (rts : List Ty) :
    (resultTypes op ctrl rts).length = op.fixed_results + rts.length := by
  simp [resultTypes]

/-- Setting a list entry to the value it already holds is the identity. -/
theorem List.set_self {α : Type} (l : List α) (i : Nat) (a : α)
    (h : l[i]? = some a) : l.set i a = l := by
  apply List.ext_getElem?
  intro j
  rcases eq_or_ne i j with rfl | hne
  · rw [List.getElem?_set_self (by exact (List.getElem?_eq_some.mp h).1), h]
  · rw [List.getElem?_set_ne hne]

/-- The result-materialization loop, rephrased over the list of types it
consumes (the per-index loops of the source feed it the types in descending
index order). -/
def chainLoop (inst total : Nat) : List Ty → MirState → MirState
  | [], st => st
  | t :: ts, st => chainLoop inst total ts (mirBody inst total t st)

theorem mirLoop_eq_chainLoop (inst total : Nat) (tyf : Nat → Ty) :
    ∀ (k : Nat) (st : MirState),
    mirLoop inst total tyf k st =
      chainLoop inst total (((List.range k).reverse).map tyf) st := by
  intro k
  induction k with
  | zero => intro st; simp [mirLoop, List.range, chainLoop]
  | succ m ih =>
    intro st
    have hr : ((List.range (m + 1)).reverse).map tyf =
        tyf m :: ((List.range m).reverse).map tyf := by
      rw [List.range_succ, List.reverse_append]
      simp
    rw [hr]
    simp only [mirLoop, chainLoop]
    exact ih _

theorem chainLoop_append (inst total : Nat) (a b : List Ty) (st : MirState) :
    chainLoop inst total (a ++ b) st = chainLoop inst total b (chainLoop inst total a st) := by
  induction a generalizing st with
  | nil => simp [chainLoop]
  | cons t ts ih => simp only [List.cons_append, chainLoop]; exact ih _

/-- Indexing a list by `getD` over its range is the identity. -/
theorem rangeMapGetD (l : List Ty) :
    (List.range l.length).map (fun i => l.getD i 0) = l := by
  induction l with
  | nil => simp
  | cons a t ih =>
    rw [List.length_cons, List.range_succ_eq_map, List.map_cons, List.map_map]
    have h0 : (a :: t).getD 0 0 = a := rfl
    have h1 : ((fun i => (a :: t).getD i 0) ∘ Nat.succ) = (fun i => t.getD i 0) := by
      funext j
      simp [List.getD_cons_succ]
    rw [h0, h1, ih]

/-- Descending-index traversal of a list by `getD` is its reverse. -/
theorem rangeRevGetD (l : List Ty) :
    ((List.range l.length).reverse).map (fun i => l.getD i 0) = l.reverse := by
  rw [List.map_reverse, rangeMapGetD]

/-- Closed form of the materialization loop when a type is already pending:
each consumed type queues a fresh table slot for the previously pending type,
numbered downwards from `total - r`, and linked to the previous head. -/
theorem chainLoop_run (inst total : Nat) :
    ∀ (ts : List Ty) (t : Ty) (head : Option Value) (r : Nat) (evs : List ValueData)
      (res : List Value),
    chainLoop inst total ts ⟨head, some t, r, evs, res⟩ =
      ⟨ (if ts.length = 0 then head else some (.table (evs.length + (ts.length - 1)))),
        some (ts.getLastD t),
        r + ts.length,
        evs ++ (List.range ts.length).map (fun j =>
          ValueData.Inst ((t :: ts).getD j 0) ((total - (r + j)) % 65536) inst
            (if j = 0 then head else some (.table (evs.length + (j - 1))))),
        res ++ (List.range ts.length).map (fun j => Value.table (evs.length + j)) ⟩ := by
  intro ts
  induction ts with
  | nil => intro t head r evs res; simp [chainLoop]
  | cons u us ih =>
    intro t head r evs res
    simp only [chainLoop, mirBody]
    rw [ih]
    simp only [MirState.mk.injEq, List.length_cons, List.length_append, List.length_nil]
    refine ⟨?_, ?_, ?_, ?_, ?_⟩
    · rcases Nat.eq_zero_or_pos us.length with h | h
      · rw [if_pos h, if_neg (by omega)]
        have : evs.length + (us.length + 1 - 1) = evs.length := by omega
        rw [this]
      · rw [if_neg (by omega), if_neg (by omega)]
        have : evs.length + 1 + (us.length - 1) = evs.length + (us.length + 1 - 1) := by omega
        rw [this]
    · rw [List.getLastD_cons]
    · omega
    · rw [List.append_assoc]
      congr 1
      rw [List.range_succ_eq_map, List.map_cons, List.singleton_append, List.map_map]
      simp only [List.cons.injEq]
      refine ⟨by simp, ?_⟩
      apply List.map_congr_left
      intro a _
      simp only [Function.comp_apply]
      rcases a with _ | a'
      · simp
      · rw [if_neg (Nat.succ_ne_zero _), if_neg (Nat.succ_ne_zero _)]
        have e1 : r + 1 + Nat.succ a' = r + Nat.succ (Nat.succ a') := by omega
        have e2 : evs.length + 1 + (Nat.succ a' - 1) =
            evs.length + (Nat.succ (Nat.succ a') - 1) := by omega
        rw [e1, e2]
        simp [List.getD_cons_succ]
    · rw [List.append_assoc]
      congr 1
      rw [List.range_succ_eq_map, List.map_cons, List.singleton_append, List.map_map]
      simp only [List.cons.injEq]
      refine ⟨by simp, ?_⟩
      apply List.map_congr_left
      intro a _
      simp only [Function.comp_apply, Value.table.injEq]
      omega

/-- The extended-value entries `make_inst_results` appends, in creation
order: the `j`-th created slot belongs to result `n - 1 - j`, carries that
result's type and 16-bit number, and links to the slot created before it. -/
def mirSlots (inst n E : Nat) (T : List Ty) : List ValueData :=
  (List.range (n - 1)).map (fun j =>
    ValueData.Inst (T.getD (n - 1 - j) 0) ((n - 1 - j) % 65536) inst
      (if j = 0 then none else some (.table (E + (j - 1)))))

/-- The result list `make_inst_results` installs: the direct first result
followed by the created table values in result order. -/
def mirResults (inst E n : Nat) : List Value :=
  if n = 0 then [] else
    Value.direct inst :: ((List.range (n - 1)).map (fun j => Value.table (E + j))).reverse

/-- Reading a reversed list by `getD` mirrors the original list. -/
theorem getD_reverse (T : List Ty) (j : Nat) (hj : j < T.length) :
    T.reverse.getD j 0 = T.getD (T.length - 1 - j) 0 := by
  rw [List.getD_eq_getElem?_getD, List.getD_eq_getElem?_getD,
    List.getElem?_reverse (by simpa using hj)]

/-- The last element of a reversed list is the head. -/
theorem getLastD_reverse (T : List Ty) : T.reverse.getLastD 0 = T.getD 0 0 := by
  rw [List.getLastD_eq_getLast?, List.getLast?_reverse, List.head?_eq_getElem?,
    List.getD_eq_getElem?_getD]

/-- Closed form of `mirFinish` applied to the state left by the
variable-results loop: the final state of `make_inst_results`. -/
theorem mirFinish_run (d : DataFlowGraph) (inst : Nat) (idata : InstructionData)
    (ctrl : Ty) (rts : List Ty) :
    d.mirFinish inst idata ctrl idata.opcode.fixed_results
        (idata.opcode.fixed_results + rts.length)
        (mirLoop inst (idata.opcode.fixed_results + rts.length)
          (fun i => rts.getD i 0) rts.length ⟨none, none, 1, d.extended_values, []⟩) =
      ({ d with
          insts := d.insts.set inst
            (idata.set_first_type ((resultTypes idata.opcode ctrl rts).getD 0 0)),
          results := d.results.set inst
            (mirResults inst d.extended_values.length
              (resultTypes idata.opcode ctrl rts).length),
          extended_values := d.extended_values ++
            mirSlots inst (resultTypes idata.opcode ctrl rts).length
              d.extended_values.length (resultTypes idata.opcode ctrl rts) },
       idata.opcode.fixed_results + rts.length) := by
  set T := resultTypes idata.opcode ctrl rts with hT
  have hlen : T.length = idata.opcode.fixed_results + rts.length := resultTypes_length _ _ _
  simp only [DataFlowGraph.mirFinish, mirLoop_eq_chainLoop, ← chainLoop_append]
  have hL : (((List.range rts.length).reverse).map fun i => rts.getD i 0) ++
      ((List.range idata.opcode.fixed_results).reverse).map
        (fun i => idata.opcode.result_type i ctrl) = T.reverse := by
    rw [rangeRevGetD, List.map_reverse, hT, resultTypes, List.reverse_append]
  rw [hL]
  rcases hrev : T.reverse with _ | ⟨t, ts⟩
  · have hTnil : T = [] := by
      have := congrArg List.reverse hrev
      simpa using this
    have hn : T.length = 0 := by rw [hTnil]; rfl
    have hresu : mirResults inst d.extended_values.length T.length = [] := by
      rw [hn, mirResults]
      simp
    have hslots : mirSlots inst T.length d.extended_values.length T = [] := by
      rw [hn, mirSlots]
      simp
    have hft : T.getD 0 0 = 0 := by rw [hTnil]; rfl
    simp only [chainLoop]
    rw [hresu, hslots, hft, List.append_nil]
    rfl
  · have hm : T.length = ts.length + 1 := by
      have := congrArg List.length hrev
      simpa using this
    have hft : ts.getLastD t = T.getD 0 0 := by
      rw [← getLastD_reverse, hrev, List.getLastD_cons]
    have hresu : mirResults inst d.extended_values.length T.length =
        (((List.range ts.length).map (fun j => Value.table (d.extended_values.length + j)))
          ++ [Value.direct inst]).reverse := by
      rw [mirResults, if_neg (by omega)]
      have hts : T.length - 1 = ts.length := by omega
      rw [hts, List.reverse_append]
      simp
    have hslots : mirSlots inst T.length d.extended_values.length T =
        (List.range ts.length).map (fun j =>
          ValueData.Inst ((t :: ts).getD j 0)
            ((idata.opcode.fixed_results + rts.length - (1 + j)) % 65536) inst
            (if j = 0 then none else some (.table (d.extended_values.length + (j - 1))))) := by
      rw [mirSlots]
      have hts : T.length - 1 = ts.length := by omega
      rw [hts]
      apply List.map_congr_left
      intro j hj
      have hjlt : j < ts.length := List.mem_range.mp hj
      have hty : (t :: ts).getD j 0 = T.getD (T.length - 1 - j) 0 := by
        rw [← hrev, getD_reverse T j (by omega)]
      rw [hty]
      have hnum : idata.opcode.fixed_results + rts.length - (1 + j) =
          T.length - 1 - j := by omega
      have hnum2 : ts.length - j = T.length - 1 - j := by omega
      rw [hnum, hnum2]
    simp only [chainLoop, mirBody]
    simp only [chainLoop_run]
    rw [hresu, hslots]
    simp only [Option.getD_some, Option.isSome_some, List.nil_append, if_true]
    rw [hft]

/-- Full characterization of a successful `make_inst_results`: the materialized
state and the returned count, for any instruction whose call classification
resolves to the return-type list `rts`. -/
theorem make_inst_results_run (d : DataFlowGraph) (inst : Nat) (ctrl : Ty)
    (idata : InstructionData) (rts : List Ty)
    (h1 : d.insts[inst]? = some idata)
    (h2 : inst < d.results.length)
    (h3 : d.callReturnTypes inst = .ok rts) :
    d.make_inst_results inst ctrl = .ok
      ({ d with
          insts := d.insts.set inst
            (idata.set_first_type ((resultTypes idata.opcode ctrl rts).getD 0 0)),
          results := d.results.set inst
            (mirResults inst d.extended_values.length
              (resultTypes idata.opcode ctrl rts).length),
          extended_values := d.extended_values ++
            mirSlots inst (resultTypes idata.opcode ctrl rts).length
              d.extended_values.length (resultTypes idata.opcode ctrl rts) },
       idata.opcode.fixed_results + rts.length) := by
  have hres : d.results[inst]? = some d.results[inst] := List.getElem?_eq_getElem h2
  rw [DataFlowGraph.make_inst_results, h1, hres]
  rw [DataFlowGraph.callReturnTypes] at h3
  rcases hcs : d.call_signature inst with e | osig
  · rw [hcs] at h3
    simp at h3
  · rw [hcs] at h3
    rcases osig with _ | s
    · simp at h3
      subst h3
      have h := mirFinish_run d inst idata ctrl []
      simp only [List.length_nil, Nat.add_zero, mirLoop] at h
      simp only [List.length_nil, Nat.add_zero, h]
    · simp only [] at h3
      rcases hsig : d.signatures[s]? with _ | rts'
      · rw [hsig] at h3
        simp at h3
      · rw [hsig] at h3
        simp at h3
        subst h3
        have h := mirFinish_run d inst idata ctrl rts'
        simp only [hsig, h]

theorem mirResults_length (inst E n : Nat) : (mirResults inst E n).length = n := by
  rw [mirResults]
  rcases Nat.eq_zero_or_pos n with h | h
  · simp [h]
  · rw [if_neg (by omega)]
    simp
    omega

theorem mirResults_zero (inst E n : Nat) (h : 0 < n) :
    (mirResults inst E n)[0]? = some (.direct inst) := by
  rw [mirResults, if_neg (by omega), List.getElem?_cons_zero]

theorem mirResults_getElem (inst E n k : Nat) (hk1 : 1 ≤ k) (hk : k < n) :
    (mirResults inst E n)[k]? = some (Value.table (E + (n - 1 - k))) := by
  rw [mirResults, if_neg (by omega)]
  obtain ⟨k', rfl⟩ : ∃ k', k = k' + 1 := ⟨k - 1, by omega⟩
  rw [List.getElem?_cons_succ]
  have hk' : k' < ((List.range (n - 1)).map (fun j => Value.table (E + j))).length := by
    simp
    omega
  rw [List.getElem?_reverse (by simpa using hk')]
  simp only [List.length_map, List.length_range, List.getElem?_map]
  rw [List.getElem?_range (by omega)]
  simp only [Option.map_some']
  congr 2
  omega

theorem mirSlots_getElem (inst n E : Nat) (T : List Ty) (j : Nat) (hj : j < n - 1) :
    (mirSlots inst n E T)[j]? = some (.Inst (T.getD (n - 1 - j) 0) ((n - 1 - j) % 65536)
      inst (if j = 0 then none else some (.table (E + (j - 1))))) := by
  rw [mirSlots]
  simp only [List.getElem?_map]
  rw [List.getElem?_range hj]
  rfl

theorem mirSlots_length (inst n E : Nat) (T : List Ty) :
    (mirSlots inst n E T).length = n - 1 := by
  simp [mirSlots]

/-- The postcondition the spec states for `make_inst_results`, parameterized
by the stored result number `numAt k` of the `k`-th secondary result (the
claim says `k`; the code stores `k` as a 16-bit value). -/
def C1Post (numAt : Nat → Nat) (d : DataFlowGraph) (inst : Nat) (ctrl : Ty)
    (idata : InstructionData) (rts : List Ty) (d' : DataFlowGraph) (n : Nat) : Prop :=
  n = idata.opcode.fixed_results + rts.length ∧
  (n = 0 → d'.inst_results inst = [] ∧
    (d'.insts[inst]?).map (·.first_type) = some 0) ∧
  (0 < n →
    (d'.inst_results inst).length = n ∧
    (d'.inst_results inst)[0]? = some (Value.direct inst) ∧
    (d'.insts[inst]?).map (·.first_type) =
      some ((resultTypes idata.opcode ctrl rts).getD 0 0) ∧
    ∀ k, 1 ≤ k → k < n → ∃ idx,
      (d'.inst_results inst)[k]? = some (Value.table idx) ∧
      d'.extended_values[idx]? = some (.Inst
        ((resultTypes idata.opcode ctrl rts).getD k 0)
        (numAt k) inst
        (if k + 1 < n then (d'.inst_results inst)[k + 1]? else none)))

/-- The spec's claim about `make_inst_results`, with the stored result number
given by `numAt`. -/
def ClaimC1With (numAt : Nat → Nat) : Prop :=
  ∀ (d : DataFlowGraph) (inst : Nat) (ctrl : Ty) (idata : InstructionData)
    (rts : List Ty) (d' : DataFlowGraph) (n : Nat),
    d.insts[inst]? = some idata →
    inst < d.results.length →
    d.callReturnTypes inst = .ok rts →
    d.make_inst_results inst ctrl = .ok (d', n) →
    C1Post numAt d inst ctrl idata rts d' n

theorem C1Post_of_run (d : DataFlowGraph) (inst : Nat) (ctrl : Ty)
    (idata : InstructionData) (rts : List Ty) (d' : DataFlowGraph) (n : Nat)
    (h1 : d.insts[inst]? = some idata)
    (h2 : inst < d.results.length)
    (h3 : d.callReturnTypes inst = .ok rts)
    (h4 : d.make_inst_results inst ctrl = .ok (d', n)) :
    C1Post (fun k => k % 65536) d inst ctrl idata rts d' n := by
  have hrun := make_inst_results_run d inst ctrl idata rts h1 h2 h3
  rw [h4] at hrun
  have hinj := Except.ok.inj hrun
  have hd' := congrArg Prod.fst hinj
  have hn := congrArg Prod.snd hinj
  simp only at hd' hn
  set T := resultTypes idata.opcode ctrl rts with hT
  have hTlen : T.length = n := by rw [hT, resultTypes_length]; omega
  set E := d.extended_values.length with hE
  have hilt : inst < d.insts.length := (List.getElem?_eq_some.mp h1).1
  have hres : d'.inst_results inst = mirResults inst E T.length := by
    rw [hd']
    simp only [DataFlowGraph.inst_results]
    rw [List.getElem?_set_self (by omega)]
    rfl
  have hft : (d'.insts[inst]?).map (·.first_type) = some (T.getD 0 0) := by
    rw [hd']
    rw [List.getElem?_set_self (by omega)]
    simp only [Option.map_some', Option.some.injEq]
    cases idata <;> rfl
  refine ⟨by omega, ?_, ?_⟩
  · intro hn0
    subst hn0
    constructor
    · rw [hres, hTlen, mirResults]
      simp
    · rw [hft]
      have : T = [] := List.length_eq_zero.mp (by omega)
      rw [this]
      rfl
  · intro hpos
    refine ⟨by rw [hres, mirResults_length, hTlen], ?_, ?_, ?_⟩
    · rw [hres, hTlen, mirResults_zero _ _ _ hpos]
    · exact hft
    · intro k hk1 hkn
      refine ⟨E + (n - 1 - k), ?_, ?_⟩
      · rw [hres, hTlen, mirResults_getElem _ _ _ _ hk1 hkn]
      · have hev : d'.extended_values = d.extended_values ++ mirSlots inst T.length E T := by
          rw [hd']
        rw [hev, hTlen]
        rw [List.getElem?_append_right (by omega)]
        have hoff : E + (n - 1 - k) - d.extended_values.length = n - 1 - k := by
          rw [← hE]; omega
        rw [hoff, mirSlots_getElem inst n E T (n - 1 - k) (by omega)]
        have hkk : n - 1 - (n - 1 - k) = k := by omega
        rw [hkk]
        rcases Nat.lt_or_ge (k + 1) n with hlt | hge
        · rw [if_pos hlt, if_neg (show ¬(n - 1 - k = 0) by omega)]
          rw [hres, hTlen, mirResults_getElem _ _ _ _ (by omega) hlt]
          have harith : E + (n - 1 - k - 1) = E + (n - 1 - (k + 1)) := by omega
          rw [harith]
        · rw [if_neg (show ¬(k + 1 < n) by omega), if_pos (show n - 1 - k = 0 by omega)]

/-- Claim C1 (amended): `make_inst_results(inst, ctrl_typevar)` returns
`n = fixed_results` plus the number of call-signature return types (zero for
non-call instructions); afterwards, if `n > 0`, the result list of `inst` is
`[Direct(inst), s_1, ..., s_(n-1)]` in order, where each `s_k` is a table
value whose slot is `InstResult` with `result_index = k mod 2^16` (the number
is stored as 16 bits), `inst` field `inst`, type equal to the `k`-th result
type, and `next` link pointing to `s_(k+1)` (empty for the last);
`first_type` is set to the type of result 0.  If `n = 0`, the result list is
empty and `first_type` is void. -/
theorem C1_make_inst_results : ClaimC1With (fun k => k % 65536) := by
  intro d inst ctrl idata rts d' n h1 h2 h3 h4
  exact C1Post_of_run d inst ctrl idata rts d' n h1 h2 h3 h4

/-- A call instruction whose signature has `2^16 + 1` return types. -/
def idataBig : InstructionData := .CallIndirectData .CallInd 0 0 []

/-- A graph holding one such call instruction. -/
def dBig : DataFlowGraph := ⟨[idataBig], [[]], [], [], [List.replicate 65537 7], []⟩

/-- Claim C1 as stated is false: with a call signature of `2^16 + 1` return
types, the secondary result `s_65536` is stored with `result_index`
`65536 mod 2^16 = 0`, not `65536` — the 16-bit cast wraps. -/
theorem C1_counterexample : ¬ ClaimC1With (fun k => k) := by
  intro h
  have h1 : dBig.insts[0]? = some idataBig := rfl
  have h2 : 0 < dBig.results.length := by decide
  have hrts : dBig.callReturnTypes 0 = .ok (List.replicate 65537 7) := rfl
  have hn65 : idataBig.opcode.fixed_results + (List.replicate 65537 (7 : Ty)).length =
      65537 := by
    rw [List.length_replicate]
    rfl
  have hrun := make_inst_results_run dBig 0 0 idataBig (List.replicate 65537 7) h1 h2 hrts
  have hC := h dBig 0 0 idataBig (List.replicate 65537 7) _ _ h1 h2 hrts hrun
  have hC' := C1Post_of_run dBig 0 0 idataBig (List.replicate 65537 7) _ _ h1 h2 hrts hrun
  obtain ⟨-, -, hpos⟩ := hC
  obtain ⟨-, -, -, hk⟩ := hpos (by omega)
  obtain ⟨-, -, hpos'⟩ := hC'
  obtain ⟨-, -, -, hk'⟩ := hpos' (by omega)
  obtain ⟨idx, hlist, hslot⟩ := hk 65536 (by omega) (by omega)
  obtain ⟨idx', hlist', hslot'⟩ := hk' 65536 (by omega) (by omega)
  rw [hlist] at hlist'
  have hidx : idx = idx' := by
    have := Option.some.inj hlist'
    exact Value.table.inj this
  subst hidx
  rw [hslot] at hslot'
  have hinj := Option.some.inj hslot'
  injection hinj with he1 he2 he3 he4
  have hnum : (65536 : Nat) = 65536 % 65536 := he2
  omega

/-- A two-result instruction for the witness. -/
def idataW : InstructionData := .Binary .IaddCout 0 (.direct 0) (.direct 0)

/-- A graph holding it, before result materialization. -/
def dW : DataFlowGraph := ⟨[idataW], [[]], [], [], [], []⟩

/-- The graph after `make_inst_results 0 I32` (with `I32` encoded as 3). -/
def dW' : DataFlowGraph :=
  ⟨[.Binary .IaddCout 3 (.direct 0) (.direct 0)], [[Value.direct 0, Value.table 0]],
   [], [.Inst 1 1 0 none], [], []⟩

/-- Witness for claim C1 at a concrete two-result instruction. -/
theorem C1_witness :
    (dW.insts[0]? = some idataW ∧ 0 < dW.results.length ∧
     dW.callReturnTypes 0 = .ok [] ∧ dW.make_inst_results 0 3 = .ok (dW', 2)) ∧
    C1Post (fun k => k % 65536) dW 0 3 idataW [] dW' 2 :=
  ⟨⟨rfl, by decide, rfl, rfl⟩,
   C1_make_inst_results dW 0 3 idataW [] dW' 2 rfl (by decide) rfl rfl⟩

/-- One alias-following step: defined exactly when the value is a table
reference to an `Alias` slot. -/
def aliasSucc (d : DataFlowGraph) (v : Value) : Option Value :=
  match v with
  | .table idx =>
    match d.extended_values[idx]? with
    | some (.Alias _ original) => some original
    | _ => none
  | .direct _ => none

/-- Follow exactly `n` alias steps. -/
def iterAlias (d : DataFlowGraph) : Nat → Value → Option Value
  | 0, v => some v
  | n + 1, v => (aliasSucc d v).bind (iterAlias d n)

/-- The alias links are acyclic: no chain of alias steps returns to its
start. -/
def Acyclic (d : DataFlowGraph) : Prop := ∀ v k, iterAlias d (k + 1) v ≠ some v

/-- Every alias slot's original is a valid value of the graph. -/
def AliasTargetsValid (d : DataFlowGraph) : Prop :=
  ∀ (k : Nat) (ty : Ty) (o : Value),
    d.extended_values[k]? = some (ValueData.Alias ty o) → d.value_is_valid o = true

/-- A cycle of alias links is reachable from `v` by alias steps. -/
def CycleFrom (d : DataFlowGraph) (v : Value) : Prop :=
  ∃ j w k, iterAlias d j v = some w ∧ iterAlias d (k + 1) w = some w

/-- Is a table slot an alias? -/
def isAliasData : ValueData → Bool
  | .Alias _ _ => true
  | _ => false

/-- A value on which `resolve_aliases` stops: direct, or a table value whose
slot exists and is not an alias. -/
def stopValue (d : DataFlowGraph) (v : Value) : Prop :=
  match v with
  | .direct _ => True
  | .table idx => ∃ vd, d.extended_values[idx]? = some vd ∧ isAliasData vd = false

theorem resolve_aliases_fuel (d : DataFlowGraph) (v : Value) :
    d.resolve_aliases v = d.raLoop (d.extended_values.length + 1) v := by
  rw [DataFlowGraph.resolve_aliases, Nat.add_comm]

theorem resolve_aliases_of_stop (d : DataFlowGraph) (v : Value) (h : stopValue d v) :
    d.resolve_aliases v = .ok v := by
  rw [resolve_aliases_fuel]
  match v with
  | .direct i => rfl
  | .table idx =>
    obtain ⟨vd, hvd, hna⟩ := h
    rw [DataFlowGraph.raLoop, hvd]
    cases vd with
    | Alias ty o => exact absurd hna (by simp [isAliasData])
    | Inst ty num inst next => rfl
    | Arg ty num ebb => rfl

theorem iterAlias_add (d : DataFlowGraph) (a b : Nat) :
    ∀ v, iterAlias d (a + b) v = (iterAlias d a v).bind (iterAlias d b) := by
  induction a with
  | zero => intro v; simp [iterAlias]
  | succ m ih =>
    intro v
    have hsa : m + 1 + b = (m + b) + 1 := by omega
    rw [hsa]
    simp only [iterAlias]
    cases aliasSucc d v with
    | none => rfl
    | some w => exact ih w

theorem iterAlias_one (d : DataFlowGraph) (v : Value) :
    iterAlias d 1 v = aliasSucc d v := by
  simp only [iterAlias]
  cases aliasSucc d v <;> rfl

theorem iterAlias_prefix (d : DataFlowGraph) (a b : Nat) (v : Value)
    (hab : b ≤ a) (h : (iterAlias d a v).isSome) : (iterAlias d b v).isSome := by
  have : a = b + (a - b) := by omega
  rw [this, iterAlias_add] at h
  cases hb : iterAlias d b v with
  | none => rw [hb] at h; simp at h
  | some w => simp

/-- A successful `raLoop` run stops at a non-alias value reached within
`fuel` steps. -/
theorem raLoop_ok (d : DataFlowGraph) :
    ∀ (fuel : Nat) (v w : Value), d.raLoop fuel v = .ok w →
      stopValue d w ∧ ∃ k, k < fuel ∧ iterAlias d k v = some w := by
  intro fuel
  induction fuel with
  | zero => intro v w h; exact absurd h (by simp [DataFlowGraph.raLoop])
  | succ m ih =>
    intro v w h
    match v with
    | .direct i =>
      have hw : w = .direct i := by
        rw [DataFlowGraph.raLoop] at h
        exact (Except.ok.inj h).symm
      subst hw
      exact ⟨trivial, 0, by omega, rfl⟩
    | .table idx =>
      rw [DataFlowGraph.raLoop] at h
      rcases hvd : d.extended_values[idx]? with _ | vd
      · rw [hvd] at h
        exact absurd h (by simp)
      · rw [hvd] at h
        cases vd with
        | Alias ty o =>
          obtain ⟨hstop, k, hk, hit⟩ := ih o w h
          refine ⟨hstop, k + 1, by omega, ?_⟩
          simp only [iterAlias, aliasSucc, hvd, Option.some_bind]
          exact hit
        | Inst ty num inst next =>
          have hw : w = .table idx := (Except.ok.inj h).symm
          subst hw
          exact ⟨⟨_, hvd, rfl⟩, 0, by omega, rfl⟩
        | Arg ty num ebb =>
          have hw : w = .table idx := (Except.ok.inj h).symm
          subst hw
          exact ⟨⟨_, hvd, rfl⟩, 0, by omega, rfl⟩

/-- With valid alias targets and a valid start, `raLoop` never hits an
out-of-range index. -/
theorem raLoop_no_oob (d : DataFlowGraph) (hw : AliasTargetsValid d) :
    ∀ (fuel : Nat) (v : Value), d.value_is_valid v = true →
      d.raLoop fuel v ≠ .error .oob := by
  intro fuel
  induction fuel with
  | zero => intro v _; simp [DataFlowGraph.raLoop]
  | succ m ih =>
    intro v hv
    match v with
    | .direct i => simp [DataFlowGraph.raLoop]
    | .table idx =>
      have hlt : idx < d.extended_values.length := by
        simpa [DataFlowGraph.value_is_valid] using hv
      have hvd : d.extended_values[idx]? = some d.extended_values[idx] :=
        List.getElem?_eq_getElem hlt
      rw [DataFlowGraph.raLoop, hvd]
      cases hval : d.extended_values[idx] with
      | Alias ty o =>
        have ho : d.value_is_valid o = true := hw idx ty o (by rw [hvd, hval])
        exact ih o ho
      | Inst ty num inst next => simp
      | Arg ty num ebb => simp

/-- If `raLoop` exhausts its fuel, that many alias steps are possible. -/
theorem raLoop_exhaust (d : DataFlowGraph) :
    ∀ (fuel : Nat) (v : Value), d.raLoop fuel v = .error .aliasLoop →
      (iterAlias d fuel v).isSome := by
  intro fuel
  induction fuel with
  | zero => intro v _; simp [iterAlias]
  | succ m ih =>
    intro v h
    match v with
    | .direct i => exact absurd h (by simp [DataFlowGraph.raLoop])
    | .table idx =>
      rw [DataFlowGraph.raLoop] at h
      rcases hvd : d.extended_values[idx]? with _ | vd
      · rw [hvd] at h; exact absurd h (by simp)
      · rw [hvd] at h
        cases vd with
        | Alias ty o =>
          have := ih o h
          simp only [iterAlias, aliasSucc, hvd, Option.some_bind]
          exact this
        | Inst ty num inst next => exact absurd h (by simp)
        | Arg ty num ebb => exact absurd h (by simp)

/-- Pigeonhole: `|extended_values| + 1` successive alias steps force an alias
cycle. -/
theorem cycle_of_long_walk (d : DataFlowGraph) (v : Value)
    (h : (iterAlias d (d.extended_values.length + 1) v).isSome) :
    ∃ (w : Value) (k : Nat), iterAlias d (k + 1) w = some w := by
  classical
  set L := d.extended_values.length with hL
  have hstep : ∀ i : Nat, i ≤ L → ∃ k : Nat,
      iterAlias d i v = some (Value.table k) ∧ k < L := by
    intro i hi
    have hs : (iterAlias d (i + 1) v).isSome := iterAlias_prefix d (L + 1) (i + 1) v (by omega) h
    have hrw : iterAlias d (i + 1) v = (iterAlias d i v).bind (iterAlias d 1) := by
      rw [← iterAlias_add]
    rw [hrw] at hs
    rcases hvi : iterAlias d i v with _ | w
    · rw [hvi] at hs; simp at hs
    · rw [hvi] at hs
      simp only [Option.some_bind] at hs
      rw [iterAlias_one] at hs
      match w, hs with
      | .table k, hs =>
        refine ⟨k, rfl, ?_⟩
        simp only [aliasSucc] at hs
        rcases hvd : d.extended_values[k]? with _ | vd
        · rw [hvd] at hs; simp at hs
        · exact (List.getElem?_eq_some.mp hvd).1
      | .direct i', hs => simp [aliasSucc] at hs
  rcases Nat.eq_zero_or_pos L with hL0 | hLpos
  · obtain ⟨k, _, hk⟩ := hstep 0 (by omega)
    omega
  · have hcard : Fintype.card (Fin L) < Fintype.card (Fin (L + 1)) := by
      simp
    let f : Fin (L + 1) → Fin L := fun i =>
      ⟨(hstep i.1 (by omega)).choose, (hstep i.1 (by omega)).choose_spec.2⟩
    obtain ⟨a, b, hne, hfab⟩ := Fintype.exists_ne_map_eq_of_card_lt f hcard
    have hva : iterAlias d a.1 v = some (Value.table (f a).1) :=
      (hstep a.1 (by omega)).choose_spec.1
    have hvb : iterAlias d b.1 v = some (Value.table (f b).1) :=
      (hstep b.1 (by omega)).choose_spec.1
    have hvals : (Value.table (f a).1) = (Value.table (f b).1) := by rw [hfab]
    rcases Nat.lt_or_ge a.1 b.1 with hab | hab
    · refine ⟨Value.table (f a).1, b.1 - a.1 - 1, ?_⟩
      have hsplit : iterAlias d b.1 v =
          (iterAlias d a.1 v).bind (iterAlias d (b.1 - a.1)) := by
        rw [← iterAlias_add]
        congr 1
        omega
      rw [hva, Option.some_bind] at hsplit
      have : iterAlias d (b.1 - a.1) (Value.table (f a).1) = some (Value.table (f b).1) :=
        hsplit.symm.trans hvb
      have harith : b.1 - a.1 - 1 + 1 = b.1 - a.1 := by omega
      rw [harith, this, hvals]
    · have hba : b.1 < a.1 := by
        rcases Nat.lt_or_ge b.1 a.1 with h' | h'
        · exact h'
        · exact absurd (Fin.ext (by omega)) hne
      refine ⟨Value.table (f b).1, a.1 - b.1 - 1, ?_⟩
      have hsplit : iterAlias d a.1 v =
          (iterAlias d b.1 v).bind (iterAlias d (a.1 - b.1)) := by
        rw [← iterAlias_add]
        congr 1
        omega
      rw [hvb, Option.some_bind] at hsplit
      have : iterAlias d (a.1 - b.1) (Value.table (f b).1) = some (Value.table (f a).1) :=
        hsplit.symm.trans hva
      have harith : a.1 - b.1 - 1 + 1 = a.1 - b.1 := by omega
      rw [harith, this, ← hvals]

/-- Alias steps from a cycle member stay defined forever. -/
theorem cycle_total (d : DataFlowGraph) (w : Value) (k : Nat)
    (hc : iterAlias d (k + 1) w = some w) :
    ∀ r, (iterAlias d r w).isSome := by
  intro r
  induction r using Nat.strong_induction_on with
  | _ r ih =>
    rcases Nat.lt_or_ge r (k + 2) with hr | hr
    · exact iterAlias_prefix d (k + 1) r w (by omega) (by rw [hc]; simp)
    · have hsplit : iterAlias d r w =
          (iterAlias d (k + 1) w).bind (iterAlias d (r - (k + 1))) := by
        rw [← iterAlias_add]
        congr 1
        omega
      rw [hc, Option.some_bind] at hsplit
      rw [hsplit]
      exact ih (r - (k + 1)) (by omega)

/-- With every alias step defined, `raLoop` always exhausts its fuel. -/
theorem raLoop_of_total (d : DataFlowGraph) :
    ∀ (fuel : Nat) (v : Value), (∀ n, (iterAlias d n v).isSome) →
      d.raLoop fuel v = .error .aliasLoop := by
  intro fuel
  induction fuel with
  | zero => intro v _; rfl
  | succ m ih =>
    intro v h
    have h1 := h 1
    rw [iterAlias_one] at h1
    match v, h1 with
    | .table idx, h1 =>
      simp only [aliasSucc] at h1
      rcases hvd : d.extended_values[idx]? with _ | vd
      · rw [hvd] at h1; simp at h1
      · rw [hvd] at h1
        cases vd with
        | Alias ty o =>
          rw [DataFlowGraph.raLoop, hvd]
          apply ih
          intro n
          have hn := h (n + 1)
          simp only [iterAlias, aliasSucc, hvd, Option.some_bind] at hn
          exact hn
        | Inst ty num inst next => simp at h1
        | Arg ty num ebb => simp at h1
    | .direct i, h1 => simp [aliasSucc] at h1

/-- The only fatal errors of `raLoop` are the alias-loop abort and an
out-of-range index. -/
theorem raLoop_errors (d : DataFlowGraph) :
    ∀ (fuel : Nat) (v : Value) (e : Err), d.raLoop fuel v = .error e →
      e = .aliasLoop ∨ e = .oob := by
  intro fuel
  induction fuel with
  | zero =>
    intro v e h
    rw [DataFlowGraph.raLoop] at h
    exact Or.inl (Except.error.inj h).symm
  | succ m ih =>
    intro v e h
    match v with
    | .direct i => exact absurd h (by simp [DataFlowGraph.raLoop])
    | .table idx =>
      rw [DataFlowGraph.raLoop] at h
      rcases hvd : d.extended_values[idx]? with _ | vd
      · rw [hvd] at h
        exact Or.inr (Except.error.inj h).symm
      · rw [hvd] at h
        cases vd with
        | Alias ty o => exact ih o e h
        | Inst ty num inst next => exact absurd h (by simp)
        | Arg ty num ebb => exact absurd h (by simp)

/-- Claim C6: for every valid value `v` in a state whose alias links are
acyclic (and point at valid values), `resolve_aliases(v)` reaches a non-alias
value in at most `1 + |extended_values|` alias-following steps and the fatal
alias-loop branch is unreachable; a direct value is returned immediately.  In
a state containing an alias cycle reachable from `v`, `resolve_aliases(v)`
aborts with the fatal alias-loop error. -/
theorem C6_resolve_aliases_termination : ∀ (d : DataFlowGraph) (v : Value),
    (Acyclic d → AliasTargetsValid d → d.value_is_valid v = true →
      ∃ (w : Value) (k : Nat), k ≤ d.extended_values.length ∧
        iterAlias d k v = some w ∧ stopValue d w ∧ d.resolve_aliases v = .ok w) ∧
    (CycleFrom d v → d.resolve_aliases v = .error .aliasLoop) := by
  intro d v
  constructor
  · intro hac hval hv
    rcases hres : d.resolve_aliases v with e | w
    · exfalso
      rw [resolve_aliases_fuel] at hres
      rcases raLoop_errors d _ v e hres with rfl | rfl
      · have hsome := raLoop_exhaust d _ v hres
        obtain ⟨w, k, hcyc⟩ := cycle_of_long_walk d v hsome
        exact hac w k hcyc
      · exact raLoop_no_oob d hval _ v hv hres
    · rw [resolve_aliases_fuel] at hres
      obtain ⟨hstop, k, hk, hit⟩ := raLoop_ok d _ v w hres
      exact ⟨w, k, by omega, hit, hstop, rfl⟩
  · intro hcyc
    obtain ⟨j, w, k, hjw, hcy⟩ := hcyc
    rw [resolve_aliases_fuel]
    apply raLoop_of_total
    intro n
    rcases Nat.lt_or_ge n j with hn | hn
    · exact iterAlias_prefix d j n v (by omega) (by rw [hjw]; simp)
    · have hsplit : iterAlias d n v = (iterAlias d j v).bind (iterAlias d (n - j)) := by
        rw [← iterAlias_add]
        congr 1
        omega
      rw [hsplit, hjw, Option.some_bind]
      exact cycle_total d w k hcy (n - j)

instance {ε α : Type} [DecidableEq ε] [DecidableEq α] : DecidableEq (Except ε α) :=
  fun a b =>
    match a, b with
    | .ok x, .ok y =>
      if h : x = y then isTrue (by rw [h])
      else isFalse (fun hc => h (Except.ok.inj hc))
    | .error e, .error f =>
      if h : e = f then isTrue (by rw [h])
      else isFalse (fun hc => h (Except.error.inj hc))
    | .ok _, .error _ => isFalse (fun hc => Except.noConfusion hc)
    | .error _, .ok _ => isFalse (fun hc => Except.noConfusion hc)

/-- A graph with one alias slot pointing at a direct value. -/
def dAl : DataFlowGraph :=
  ⟨[.Nullary .Iconst 3], [[Value.direct 0]], [], [.Alias 3 (.direct 0)], [], []⟩

theorem dAl_acyclic : Acyclic dAl := by
  intro v k h
  match v with
  | .direct i => simp [iterAlias, aliasSucc] at h
  | .table idx =>
    match idx with
    | 0 =>
      cases k with
      | zero => exact absurd h (by decide)
      | succ m =>
        have hnone : iterAlias dAl (m + 1 + 1) (.table 0) = none := rfl
        rw [hnone] at h
        exact Option.noConfusion h
    | j + 1 => simp [iterAlias, aliasSucc, dAl] at h

theorem dAl_targets : AliasTargetsValid dAl := by
  intro k ty o hk
  match k with
  | 0 =>
    have h1 := Option.some.inj hk
    injection h1 with hty ho
    rw [← ho]
    decide
  | j + 1 => simp [dAl] at hk

/-- A graph whose two alias slots form a cycle. -/
def dCyc : DataFlowGraph :=
  ⟨[], [], [], [.Alias 3 (.table 1), .Alias 3 (.table 0)], [], []⟩

/-- Witness for claim C6: the acyclic half at a one-alias graph, the cycle
half at a two-slot alias cycle. -/
theorem C6_witness :
    (∃ (w : Value) (k : Nat), k ≤ dAl.extended_values.length ∧
       iterAlias dAl k (.table 0) = some w ∧ stopValue dAl w ∧
       dAl.resolve_aliases (.table 0) = .ok w) ∧
    dCyc.resolve_aliases (.table 0) = .error .aliasLoop :=
  ⟨(C6_resolve_aliases_termination dAl (.table 0)).1 dAl_acyclic dAl_targets (by decide),
   (C6_resolve_aliases_termination dCyc (.table 0)).2 ⟨0, .table 0, 1, rfl, by decide⟩⟩

/-- Does an instruction payload forward its result to its operand under
`resolve_copies` (a unary `copy`, `spill` or `fill`)? -/
def isCopyUnary : InstructionData → Bool
  | .Unary op _ _ => copylike op
  | _ => false

/-- A value on which `resolve_copies` stops: a table value, or a direct value
of an existing instruction that is not a copy-like unary. -/
def rcStop (d : DataFlowGraph) (v : Value) : Prop :=
  match v with
  | .table _ => True
  | .direct i => ∃ data, d.insts[i]? = some data ∧ isCopyUnary data = false

/-- A successful `rcLoop` run stops at an alias-resolved, non-copy value. -/
theorem rcLoop_ok (d : DataFlowGraph) :
    ∀ (fuel : Nat) (v w : Value), d.rcLoop fuel v = .ok w →
      d.resolve_aliases w = .ok w ∧ rcStop d w := by
  intro fuel
  induction fuel with
  | zero => intro v w h; exact absurd h (by simp [DataFlowGraph.rcLoop])
  | succ m ih =>
    intro v w h
    rw [DataFlowGraph.rcLoop] at h
    rcases hra : d.resolve_aliases v with e | v1
    · rw [hra] at h; exact absurd h (by simp)
    · rw [hra] at h
      have hidem : d.resolve_aliases v1 = .ok v1 := by
        rw [resolve_aliases_fuel] at hra
        exact resolve_aliases_of_stop d v1 (raLoop_ok d _ v v1 hra).1
      match v1, h with
      | .table k, h =>
        have hw : w = .table k := (Except.ok.inj h).symm
        subst hw
        exact ⟨hidem, trivial⟩
      | .direct i, h =>
        simp only [] at h
        rcases hins : d.insts[i]? with _ | data
        · rw [hins] at h; exact absurd h (by simp)
        · rw [hins] at h
          match data, h with
          | .Unary op ty arg, h =>
            simp only [] at h
            cases hcl : copylike op with
            | true =>
              rw [hcl] at h
              simp only [if_true] at h
              exact ih arg w h
            | false =>
              rw [hcl] at h
              simp only [Bool.false_eq_true, if_false] at h
              have hw : w = .direct i := (Except.ok.inj h).symm
              subst hw
              exact ⟨hidem, ⟨.Unary op ty arg, hins, by simp [isCopyUnary, hcl]⟩⟩
          | .Nullary op ty, h =>
            have hw : w = .direct i := (Except.ok.inj h).symm
            subst hw
            exact ⟨hidem, ⟨_, hins, rfl⟩⟩
          | .Binary op ty a b, h =>
            have hw : w = .direct i := (Except.ok.inj h).symm
            subst hw
            exact ⟨hidem, ⟨_, hins, rfl⟩⟩
          | .CallData op ty f args, h =>
            have hw : w = .direct i := (Except.ok.inj h).symm
            subst hw
            exact ⟨hidem, ⟨_, hins, rfl⟩⟩
          | .CallIndirectData op ty s args, h =>
            have hw : w = .direct i := (Except.ok.inj h).symm
            subst hw
            exact ⟨hidem, ⟨_, hins, rfl⟩⟩

/-- Claim C7: `resolve_aliases` and `resolve_copies` are idempotent: whenever
they return a value `w` (no fatal loop error), running them again on `w`
returns `w`.  (They are pure by construction: the embedding gives them no way
to change the graph, mirroring the `&self` receiver of the source.) -/
theorem C7_resolve_idempotent : ∀ (d : DataFlowGraph) (v w : Value),
    (d.resolve_aliases v = .ok w → d.resolve_aliases w = .ok w) ∧
    (d.resolve_copies v = .ok w → d.resolve_copies w = .ok w) := by
  intro d v w
  constructor
  · intro h
    rw [resolve_aliases_fuel] at h
    exact resolve_aliases_of_stop d w (raLoop_ok d _ v w h).1
  · intro h
    rw [DataFlowGraph.resolve_copies] at h ⊢
    obtain ⟨hra, hstop⟩ := rcLoop_ok d _ v w h
    rcases hlen : d.insts.length with _ | m
    · rw [hlen] at h
      exact Except.noConfusion h
    · rw [DataFlowGraph.rcLoop, hra]
      match w, hstop with
      | .table k, _ => rfl
      | .direct i, ⟨data, hins, hnc⟩ =>
        simp only []
        rw [hins]
        match data, hnc with
        | .Unary op ty arg, hnc =>
          have hcl : copylike op = false := by simpa [isCopyUnary] using hnc
          simp only []
          rw [hcl]
          simp
        | .Nullary op ty, _ => rfl
        | .Binary op ty a b, _ => rfl
        | .CallData op ty f args, _ => rfl
        | .CallIndirectData op ty s args, _ => rfl

/-- A graph with a copy instruction and an alias, for the C7 witness. -/
def dC7 : DataFlowGraph :=
  ⟨[.Unary .Copy 3 (.direct 1), .Nullary .Iconst 3], [[], []], [],
   [.Alias 3 (.direct 0)], [], []⟩

/-- Witness for claim C7 at a concrete alias and a concrete copy chain. -/
theorem C7_witness :
    (dC7.resolve_aliases (.table 0) = .ok (.direct 0) ∧
     dC7.resolve_aliases (.direct 0) = .ok (.direct 0)) ∧
    (dC7.resolve_copies (.direct 0) = .ok (.direct 1) ∧
     dC7.resolve_copies (.direct 1) = .ok (.direct 1)) :=
  ⟨⟨by decide, (C7_resolve_idempotent dC7 (.table 0) (.direct 0)).1 (by decide)⟩,
   ⟨by decide, (C7_resolve_idempotent dC7 (.direct 0) (.direct 1)).2 (by decide)⟩⟩

/-- Computation of a successful `attach_secondary_result` with a direct
`last_res`: no last-result check is performed in that branch. -/
theorem attach_direct_eq (d : DataFlowGraph) (i : Nat) (list : List Value)
    (ridx : Nat) (rty : Ty) (rnum rinst : Nat) (rnx : Option Value)
    (hres : d.results[i]? = some list) (hlen : list.length ≤ 65535)
    (hslot : d.extended_values[ridx]? = some (.Inst rty rnum rinst rnx)) :
    d.attach_secondary_result (.direct i) (.table ridx) = .ok
      { d with results := d.results.set i (list ++ [.table ridx]),
               extended_values := d.extended_values.set ridx
                 (.Inst rty (list.length % 65536) i none) } := by
  rw [DataFlowGraph.attach_secondary_result]
  simp only [hres]
  rw [if_neg (by omega)]
  simp only [hslot]

/-- Computation of a successful `attach_secondary_result` with a table
`last_res` whose `next` is empty, attaching a distinct secondary slot. -/
theorem attach_table_eq (d : DataFlowGraph) (idx ridx : Nat) (ty : Ty)
    (num inst : Nat) (list : List Value) (rty : Ty) (rnum rinst : Nat)
    (rnx : Option Value)
    (hlast : d.extended_values[idx]? = some (.Inst ty num inst none))
    (hres : d.results[inst]? = some list) (hlen : list.length ≤ 65535)
    (hne : idx ≠ ridx)
    (hslot : d.extended_values[ridx]? = some (.Inst rty rnum rinst rnx)) :
    d.attach_secondary_result (.table idx) (.table ridx) = .ok
      { d with
          results := d.results.set inst (list ++ [.table ridx]),
          extended_values :=
            (d.extended_values.set idx (.Inst ty num inst (some (.table ridx)))).set
              ridx (.Inst rty (list.length % 65536) inst none) } := by
  rw [DataFlowGraph.attach_secondary_result]
  simp only [hlast, Option.isSome_none, Bool.false_eq_true, if_false]
  simp only [hres]
  rw [if_neg (by omega)]
  rw [List.getElem?_set_ne hne]
  simp only [hslot]

/-- Computation of a successful `attach_ebb_arg`. -/
theorem attach_ebb_eq (d : DataFlowGraph) (e idx : Nat) (args : List Value)
    (ty : Ty) (num : Nat)
    (hargs : d.ebbs[e]? = some args) (hlen : args.length ≤ 65535)
    (hslot : d.extended_values[idx]? = some (.Arg ty num e)) :
    d.attach_ebb_arg e (.table idx) = .ok
      { d with ebbs := d.ebbs.set e (args ++ [.table idx]),
               extended_values := d.extended_values.set idx
                 (.Arg ty (args.length % 65536) e) } := by
  rw [DataFlowGraph.attach_ebb_arg, hargs]
  simp only []
  rw [if_neg (by omega)]
  simp only [hslot]
  rw [if_pos trivial]

/-- Claim C5 (amended): `attach_secondary_result(last_res, res)` aborts with
the not-last assertion when `last_res` is a table value whose slot's `next`
link is non-empty; but when `last_res` is a direct value no last-result check
is performed: the attach succeeds however many results the owning instruction
currently has (given an existing result list of at most `2^16 - 1` entries
and a `res` with an `InstResult` slot). -/
theorem C5_attach_last_check : ∀ (d : DataFlowGraph) (res : Value),
    (∀ (idx : Nat) (ty : Ty) (num inst : Nat) (nx : Value),
      d.extended_values[idx]? = some (.Inst ty num inst (some nx)) →
      d.attach_secondary_result (.table idx) res = .error .notLast) ∧
    (∀ (i : Nat) (list : List Value) (ridx : Nat) (rty : Ty) (rnum rinst : Nat)
       (rnx : Option Value),
      d.results[i]? = some list → list.length ≤ 65535 →
      res = .table ridx →
      d.extended_values[ridx]? = some (.Inst rty rnum rinst rnx) →
      ∃ d', d.attach_secondary_result (.direct i) res = .ok d') := by
  intro d res
  constructor
  · intro idx ty num inst nx h
    rw [DataFlowGraph.attach_secondary_result]
    simp [h]
  · intro i list ridx rty rnum rinst rnx hres hlen hr hslot
    subst hr
    exact ⟨_, attach_direct_eq d i list ridx rty rnum rinst rnx hres hlen hslot⟩

/-- The spec's claim C5 as stated: a successful attach implies `last_res` was
truly the last result — `next` empty for a table value, exactly one result on
the owning instruction for a direct value. -/
def ClaimC5 : Prop :=
  ∀ (d : DataFlowGraph) (last_res res : Value) (d' : DataFlowGraph),
    d.attach_secondary_result last_res res = .ok d' →
    (match last_res with
     | .table idx => ∃ (ty : Ty) (num inst : Nat),
         d.extended_values[idx]? = some (.Inst ty num inst none)
     | .direct i => ((d.results[i]?).getD []).length = 1)

/-- A graph whose instruction 0 has two attached results, plus a detached
`InstResult` slot to attach. -/
def dC5 : DataFlowGraph :=
  ⟨[.Binary .IaddCout 3 (.direct 0) (.direct 0)], [[.direct 0, .table 0]], [],
   [.Inst 1 1 0 none, .Inst 1 0 0 none], [], []⟩

/-- Claim C5 as stated is false: attaching after the direct value `Direct(0)`
succeeds even though instruction 0 currently has two results — the direct
branch of `attach_secondary_result` performs no last-result check. -/
theorem C5_counterexample : ¬ ClaimC5 := by
  intro h
  have happ := attach_direct_eq dC5 0 [.direct 0, .table 0] 1 1 0 0 none rfl
    (by decide) rfl
  have hc := h dC5 (.direct 0) (.table 1) _ happ
  exact absurd hc (by decide)

/-- A graph whose instruction 0 has a three-entry result list with chained
secondary slots. -/
def dC5b : DataFlowGraph :=
  ⟨[.Binary .IaddCout 3 (.direct 0) (.direct 0)],
   [[.direct 0, .table 0, .table 1]], [],
   [.Inst 1 1 0 (some (.table 1)), .Inst 1 2 0 none], [], []⟩

/-- Witness for claim C5: the table half aborts on a non-empty `next`, the
direct half succeeds with two results already attached. -/
theorem C5_witness :
    dC5b.attach_secondary_result (.table 0) (.table 1) = .error .notLast ∧
    (∃ d', dC5.attach_secondary_result (.direct 0) (.table 1) = .ok d') := by
  constructor
  · exact (C5_attach_last_check dC5b (.table 1)).1 0 1 1 0 (.table 1) (by decide)
  · exact (C5_attach_last_check dC5 (.table 1)).2 0 [.direct 0, .table 0] 1 1 0 0 none
      rfl (by decide) rfl rfl

/-- Claim C9 (amended): the capacity aborts fire when the NEW element's index
would exceed `2^16 - 1` — that is, when the list already holds `2^16`
entries; at or below `2^16` entries the operations succeed. -/
theorem C9_capacity : ∀ (d : DataFlowGraph),
    (∀ (i : Nat) (list : List Value) (res : Value),
      d.results[i]? = some list → list.length > 65535 →
      d.attach_secondary_result (.direct i) res = .error .tooMany) ∧
    (∀ (i : Nat) (list : List Value) (ridx : Nat) (rty : Ty) (rnum rinst : Nat)
       (rnx : Option Value),
      d.results[i]? = some list → list.length ≤ 65535 →
      d.extended_values[ridx]? = some (.Inst rty rnum rinst rnx) →
      ∃ d', d.attach_secondary_result (.direct i) (.table ridx) = .ok d') ∧
    (∀ (e : Nat) (args : List Value) (arg : Value),
      d.ebbs[e]? = some args → args.length > 65535 →
      d.attach_ebb_arg e arg = .error .tooMany) ∧
    (∀ (e : Nat) (args : List Value) (idx : Nat) (ty : Ty) (num : Nat),
      d.ebbs[e]? = some args → args.length ≤ 65535 →
      d.extended_values[idx]? = some (.Arg ty num e) →
      ∃ d', d.attach_ebb_arg e (.table idx) = .ok d') := by
  intro d
  refine ⟨?_, ?_, ?_, ?_⟩
  · intro i list res hres hlen
    rw [DataFlowGraph.attach_secondary_result]
    simp only [hres]
    rw [if_pos (by omega)]
  · intro i list ridx rty rnum rinst rnx hres hlen hslot
    exact ⟨_, attach_direct_eq d i list ridx rty rnum rinst rnx hres hlen hslot⟩
  · intro e args arg hargs hlen
    rw [DataFlowGraph.attach_ebb_arg, hargs]
    simp only []
    rw [if_pos (by omega)]
  · intro e args idx ty num hargs hlen hslot
    exact ⟨_, attach_ebb_eq d e idx args ty num hargs hlen hslot⟩

/-- The spec's claim C9 as stated: a successful attach implies the resulting
count is at most `2^16 - 1` results per instruction (respectively arguments
per EBB). -/
def ClaimC9 : Prop :=
  (∀ (d : DataFlowGraph) (i : Nat) (res : Value) (d' : DataFlowGraph),
    d.attach_secondary_result (.direct i) res = .ok d' →
    ((d.results[i]?).getD []).length + 1 ≤ 65535) ∧
  (∀ (d : DataFlowGraph) (e : Nat) (arg : Value) (d' : DataFlowGraph),
    d.attach_ebb_arg e arg = .ok d' →
    ((d.ebbs[e]?).getD []).length + 1 ≤ 65535)

/-- A graph whose instruction 0 already has `2^16 - 1` results attached. -/
def dC9 : DataFlowGraph :=
  ⟨[.Nullary .Iconst 3], [List.replicate 65535 (Value.direct 0)], [],
   [.Inst 1 0 0 none], [], []⟩

/-- Claim C9 as stated is false: the 65536th result attaches successfully —
the assert compares the new element's INDEX (65535) against `u16::MAX`, so
only growing past `2^16` elements aborts. -/
theorem C9_counterexample : ¬ ClaimC9 := by
  intro h
  have happ := attach_direct_eq dC9 0 (List.replicate 65535 (Value.direct 0)) 0 1 0 0
    none rfl (by rw [List.length_replicate]) rfl
  have hc := h.1 dC9 0 (.table 0) _ happ
  have hlen : ((dC9.results[0]?).getD []).length = 65535 := by
    have hx : (dC9.results[0]?).getD [] = List.replicate 65535 (Value.direct 0) := rfl
    rw [hx, List.length_replicate]
  omega

/-- Witness for claim C9: the abort at `2^16` existing results, and a success
with room left. -/
theorem C9_witness :
    ({ dC9 with results := [List.replicate 65536 (Value.direct 0)] }
      : DataFlowGraph).attach_secondary_result (.direct 0) (.table 0) =
        .error .tooMany ∧
    (∃ d', dC9.attach_secondary_result (.direct 0) (.table 0) = .ok d') := by
  constructor
  · exact (C9_capacity _).1 0 (List.replicate 65536 (Value.direct 0)) (.table 0) rfl
      (by rw [List.length_replicate]; omega)
  · exact (C9_capacity dC9).2.1 0 (List.replicate 65535 (Value.direct 0)) 0 1 0 0 none
      rfl (by rw [List.length_replicate]) rfl

/-- The secondary results `ss` of `inst` form a well-linked chain starting at
position `p`: each is a table value whose `InstResult` slot records `inst`,
its position, and a `next` link to the following chain member. -/
def ChainedFrom (d : DataFlowGraph) (inst : Nat) : Nat → List Value → Prop
  | _, [] => True
  | p, v :: vs => ∃ (k : Nat) (ty : Ty), v = Value.table k ∧
      d.extended_values[k]? = some (.Inst ty p inst vs.head?) ∧
      ChainedFrom d inst (p + 1) vs

theorem chained_get (d : DataFlowGraph) (inst : Nat) :
    ∀ (ss : List Value) (p j : Nat), ChainedFrom d inst p ss → j < ss.length →
      ∃ (k : Nat) (ty : Ty), ss[j]? = some (Value.table k) ∧
        d.extended_values[k]? = some (.Inst ty (p + j) inst ss[j + 1]?) := by
  intro ss
  induction ss with
  | nil => intro p j _ hj; simp at hj
  | cons v vs ih =>
    intro p j hch hj
    obtain ⟨k, ty, hv, hslot, hrest⟩ := hch
    match j with
    | 0 =>
      refine ⟨k, ty, by rw [List.getElem?_cons_zero, hv], ?_⟩
      rw [List.getElem?_cons_succ]
      rw [← List.head?_eq_getElem?]
      simpa using hslot
    | j' + 1 =>
      obtain ⟨k', ty', hv', hslot'⟩ := ih (p + 1) j' hrest (by simpa using hj)
      refine ⟨k', ty', by rw [List.getElem?_cons_succ]; exact hv', ?_⟩
      rw [List.getElem?_cons_succ]
      have : p + 1 + j' = p + (j' + 1) := by omega
      rw [← this]
      exact hslot'

/-- Computation of a successful `detach_secondary_results` on a non-empty
result list. -/
theorem detach_eq (d : DataFlowGraph) (inst : Nat) (idata : InstructionData)
    (x : Value) (rest : List Value) (nlist : List Value)
    (h1 : d.insts[inst]? = some idata)
    (hres : d.results[inst]? = some (x :: rest))
    (hnl : nlist = if idata.first_type ≠ 0 then [Value.direct inst] else []) :
    d.detach_secondary_results inst =
      .ok ({ d with results := d.results.set inst nlist }, rest.head?) := by
  subst hnl
  rw [DataFlowGraph.detach_secondary_results, hres]
  simp only [List.isEmpty_cons, Bool.false_eq_true, if_false, h1]
  rw [List.getElem?_cons_succ, ← List.head?_eq_getElem?]

/-- `value_def` on a table value whose slot is an `InstResult`: the
consistency assertion compares the recorded position with the result list. -/
theorem value_def_inst (d : DataFlowGraph) (k : Nat) (ty : Ty) (num inst : Nat)
    (nx : Option Value)
    (hslot : d.extended_values[k]? = some (.Inst ty num inst nx)) :
    d.value_def (.table k) =
      (match d.results[inst]? with
       | none => .error .oob
       | some list =>
         if list[num]? = some (Value.table k) then .ok (.Res inst num)
         else .error .dangling) := by
  rw [DataFlowGraph.value_def]
  show DataFlowGraph.valueDefGo d (Nat.succ 1) (.table k) = _
  rw [DataFlowGraph.valueDefGo]
  simp only [hslot]

/-- The post-detach result list holds nothing past position 0. -/
theorem nlist_getElem_none (inst : Nat) (c : Prop) [Decidable c] (j : Nat) :
    (if c then [Value.direct inst] else ([] : List Value))[j + 1]? = none := by
  by_cases hc : c
  · rw [if_pos hc, List.getElem?_cons_succ, List.getElem?_nil]
  · rw [if_neg hc, List.getElem?_nil]

/-- Claim C10: every secondary result value detached by
`detach_secondary_results(inst)` (the returned chain) and not reattached
makes `value_def` abort with the dangling-result assertion: its slot still
records `inst` and a result index at which the shortened result list no
longer holds it. -/
theorem C10_detached_value_def :
    ∀ (d : DataFlowGraph) (inst : Nat) (idata : InstructionData) (ss : List Value)
      (d1 : DataFlowGraph) (ov : Option Value) (v : Value),
      d.insts[inst]? = some idata →
      d.results[inst]? = some (Value.direct inst :: ss) →
      ChainedFrom d inst 1 ss →
      d.detach_secondary_results inst = .ok (d1, ov) →
      v ∈ ss →
      d1.value_def v = .error .dangling := by
  intro d inst idata ss d1 ov v h1 hres hch hdet hv
  have hinstlt : inst < d.results.length := (List.getElem?_eq_some.mp hres).1
  rw [detach_eq d inst idata _ ss _ h1 hres rfl] at hdet
  injection Except.ok.inj hdet with hd1 hov
  subst hd1
  obtain ⟨j, hj⟩ := List.mem_iff_getElem?.mp hv
  have hjlt : j < ss.length := (List.getElem?_eq_some.mp hj).1
  obtain ⟨k, ty, hvk, hslot⟩ := chained_get d inst ss 1 j hch hjlt
  rw [hj] at hvk
  have hveq : v = Value.table k := Option.some.inj hvk
  subst hveq
  rw [value_def_inst ({ d with results := d.results.set inst (if idata.first_type ≠ 0 then [Value.direct inst] else []) }) k ty (1 + j) inst ss[j + 1]? hslot]
  simp only []
  rw [List.getElem?_set_self hinstlt]
  simp only []
  have h11 : 1 + j = j + 1 := by omega
  rw [h11, nlist_getElem_none]
  rw [if_neg (by simp)]

/-- Detaching from an instruction whose result list is empty is the
identity. -/
theorem detach_empty (d : DataFlowGraph) (inst : Nat)
    (h : d.results[inst]? = some []) :
    d.detach_secondary_results inst = .ok (d, none) := by
  rw [DataFlowGraph.detach_secondary_results, h]
  rfl

/-- The head of a non-empty result list is the first result. -/
theorem first_result_cons (d : DataFlowGraph) (inst : Nat) (v : Value)
    (rest : List Value) (h : d.results[inst]? = some (v :: rest)) :
    d.first_result inst = .ok v := by
  rw [DataFlowGraph.first_result, h]
  rfl

/-- The type of a direct value is its instruction's first-result type. -/
theorem value_type_direct (d : DataFlowGraph) (i : Nat) (idata : InstructionData)
    (h : d.insts[i]? = some idata) :
    d.value_type (.direct i) = .ok idata.first_type := by
  rw [DataFlowGraph.value_type]
  simp only [h]

/-- A non-call instruction contributes no variable return types. -/
theorem callReturnTypes_notacall (d : DataFlowGraph) (inst : Nat)
    (idata : InstructionData) (h : d.insts[inst]? = some idata)
    (hnc : idata.analyze_call = .NotACall) :
    d.callReturnTypes inst = .ok [] := by
  rw [DataFlowGraph.callReturnTypes, DataFlowGraph.call_signature, h]
  simp only [hnc]

/-- Resizing produces a list of exactly the requested length. -/
theorem resizeLists_length (l : List (List Value)) (n : Nat) :
    (resizeLists l n).length = n := by
  rw [resizeLists, List.length_append, List.length_take, List.length_replicate]
  omega

/-- Computation of a successful `replace_copy`: the payload becomes a unary
copy and its single result is rematerialized; the extended value table is
untouched. -/
theorem replace_copy_run (d : DataFlowGraph) (inst : Nat) (arg : Value) (ty : Ty)
    (odata2 : InstructionData)
    (hvt : d.value_type arg = .ok ty)
    (hs : d.insts[inst]? = some odata2)
    (hlt : inst < d.results.length)
    (hcrt : ({ d with insts := d.insts.set inst (.Unary .Copy ty arg) } : DataFlowGraph).callReturnTypes inst = .ok []) :
    d.replace_copy inst arg = .ok { d with insts := d.insts.set inst (.Unary .Copy ty arg), results := d.results.set inst [Value.direct inst] } := by
  have hilt : inst < d.insts.length := (List.getElem?_eq_some.mp hs).1
  rw [DataFlowGraph.replace_copy, hvt, hs]
  simp only []
  have hrun := make_inst_results_run { d with insts := d.insts.set inst (InstructionData.Unary Opcode.Copy ty arg) } inst ty (InstructionData.Unary Opcode.Copy ty arg) [] (List.getElem?_set_self hilt) hlt hcrt
  have hrun2 : ({ d with insts := d.insts.set inst (InstructionData.Unary Opcode.Copy ty arg) } : DataFlowGraph).make_inst_results inst ty = .ok ({ d with insts := (d.insts.set inst (InstructionData.Unary Opcode.Copy ty arg)).set inst (InstructionData.Unary Opcode.Copy ty arg), results := d.results.set inst [Value.direct inst], extended_values := d.extended_values ++ ([] : List ValueData) }, 1) := hrun
  rw [List.set_set, List.append_nil] at hrun2
  rw [hrun2]

/-- Reattach a detached chain in order: each element is attached after the
previous one via `attach_secondary_result` with the current last result. -/
def reattachAll : DataFlowGraph → Value → List Value → Except Err DataFlowGraph
  | d, _, [] => .ok d
  | d, last, v :: vs =>
    match d.attach_secondary_result last v with
    | .error e => .error e
    | .ok d' => reattachAll d' v vs

/-- Collect the chain reachable from an optional head by following
`next_secondary_result` links, with explicit fuel. -/
def collectChain : DataFlowGraph → Nat → Option Value → List Value
  | _, 0, _ => []
  | _, _ + 1, none => []
  | d, fuel + 1, some v =>
    v :: (match d.next_secondary_result v with
          | .ok nx => collectChain d fuel nx
          | .error _ => [])

/-- Chain linkage only reads the extended value table. -/
theorem chainedFrom_ev (d d' : DataFlowGraph) (inst : Nat)
    (hev : d'.extended_values = d.extended_values) :
    ∀ (p : Nat) (ss : List Value), ChainedFrom d inst p ss →
      ChainedFrom d' inst p ss := by
  intro p ss
  induction ss generalizing p with
  | nil => intro h; exact h
  | cons v vs ih =>
    intro h
    obtain ⟨k, ty, hv, hslot, hrest⟩ := h
    exact ⟨k, ty, hv, by rw [hev]; exact hslot, ih (p + 1) hrest⟩

/-- Following `next_secondary_result` links along a well-linked chain
collects exactly the chain. -/
theorem collectChain_of_chained (d : DataFlowGraph) (inst : Nat) :
    ∀ (ss : List Value) (p : Nat), ChainedFrom d inst p ss →
      collectChain d ss.length ss.head? = ss := by
  intro ss
  induction ss with
  | nil => intro p hch; rfl
  | cons v vs ih =>
    intro p hch
    obtain ⟨k, ty, hv, hslot, hrest⟩ := hch
    subst hv
    have hnx : d.next_secondary_result (Value.table k) = .ok vs.head? := by
      rw [DataFlowGraph.next_secondary_result]
      simp only [hslot]
    rw [List.length_cons, List.head?_cons]
    simp only [collectChain]
    rw [hnx]
    simp only []
    rw [ih (p + 1) hrest]

/-- Reattachment from a table last result: having just attached the chain
element at position `done.length + 1`, attaching the remaining chain
restores the original graph. -/
theorem reattach_table (d : DataFlowGraph) (inst : Nat) :
    ∀ (vs done : List Value) (kl : Nat) (tyl : Ty),
      d.results[inst]? = some (Value.direct inst :: (done ++ (Value.table kl :: vs))) →
      (done ++ (Value.table kl :: vs)).length ≤ 65535 →
      d.extended_values[kl]? = some (.Inst tyl (done.length + 1) inst vs.head?) →
      ChainedFrom d inst (done.length + 2) vs →
      reattachAll { d with results := d.results.set inst (Value.direct inst :: (done ++ [Value.table kl])), extended_values := d.extended_values.set kl (.Inst tyl (done.length + 1) inst none) } (Value.table kl) vs = .ok d := by
  intro vs
  induction vs with
  | nil =>
    intro done kl tyl hres hlen hkl hch
    rw [List.head?_nil] at hkl
    simp only [reattachAll]
    have h1 : d.results.set inst (Value.direct inst :: (done ++ [Value.table kl])) = d.results := List.set_self _ _ _ hres
    have h2 : d.extended_values.set kl (ValueData.Inst tyl (done.length + 1) inst none) = d.extended_values := List.set_self _ _ _ hkl
    rw [h1, h2]
  | cons v vs ih =>
    intro done kl tyl hres hlen hkl hch
    obtain ⟨k, ty, hv, hslot, hrest⟩ := hch
    subst hv
    rw [List.head?_cons] at hkl
    have hinstlt : inst < d.results.length := (List.getElem?_eq_some.mp hres).1
    have hkllt : kl < d.extended_values.length := (List.getElem?_eq_some.mp hkl).1
    have hne : kl ≠ k := by
      intro he
      rw [he, hslot] at hkl
      injection Option.some.inj hkl with ha hb hcq hdq
      omega
    have hdl : done.length + 2 ≤ 65535 := by
      rw [List.length_append, List.length_cons, List.length_cons] at hlen
      omega
    have h1 : (d.extended_values.set kl (ValueData.Inst tyl (done.length + 1) inst none))[kl]? = some (ValueData.Inst tyl (done.length + 1) inst none) := List.getElem?_set_self hkllt
    have h2 : (d.results.set inst (Value.direct inst :: (done ++ [Value.table kl])))[inst]? = some (Value.direct inst :: (done ++ [Value.table kl])) := List.getElem?_set_self hinstlt
    have h3 : (Value.direct inst :: (done ++ [Value.table kl])).length ≤ 65535 := by
      rw [List.length_cons, List.length_append, List.length_cons, List.length_nil]
      omega
    have h4 : (d.extended_values.set kl (ValueData.Inst tyl (done.length + 1) inst none))[k]? = some (ValueData.Inst ty (done.length + 2) inst vs.head?) := by
      rw [List.getElem?_set_ne hne]
      exact hslot
    have hatt := attach_table_eq { d with results := d.results.set inst (Value.direct inst :: (done ++ [Value.table kl])), extended_values := d.extended_values.set kl (ValueData.Inst tyl (done.length + 1) inst none) } kl k tyl (done.length + 1) inst (Value.direct inst :: (done ++ [Value.table kl])) ty (done.length + 2) inst vs.head? h1 h2 h3 hne h4
    have hatt2 : ({ d with results := d.results.set inst (Value.direct inst :: (done ++ [Value.table kl])), extended_values := d.extended_values.set kl (ValueData.Inst tyl (done.length + 1) inst none) } : DataFlowGraph).attach_secondary_result (Value.table kl) (Value.table k) = .ok { d with results := (d.results.set inst (Value.direct inst :: (done ++ [Value.table kl]))).set inst ((Value.direct inst :: (done ++ [Value.table kl])) ++ [Value.table k]), extended_values := ((d.extended_values.set kl (ValueData.Inst tyl (done.length + 1) inst none)).set kl (ValueData.Inst tyl (done.length + 1) inst (some (Value.table k)))).set k (ValueData.Inst ty ((Value.direct inst :: (done ++ [Value.table kl])).length % 65536) inst none) } := hatt
    rw [List.set_set, List.set_set] at hatt2
    rw [List.set_self d.extended_values kl (ValueData.Inst tyl (done.length + 1) inst (some (Value.table k))) hkl] at hatt2
    have hmod : (Value.direct inst :: (done ++ [Value.table kl])).length % 65536 = done.length + 2 := by
      rw [List.length_cons, List.length_append, List.length_cons, List.length_nil]
      omega
    rw [hmod] at hatt2
    simp only [reattachAll]
    rw [hatt2]
    simp only []
    rw [List.append_cons] at hres hlen
    have hlen2 : (done ++ [Value.table kl]).length + 1 = done.length + 2 := by
      rw [List.length_append, List.length_cons, List.length_nil]
    have hk2 : d.extended_values[k]? = some (ValueData.Inst ty ((done ++ [Value.table kl]).length + 1) inst vs.head?) := by
      rw [hlen2]
      exact hslot
    have hch2 : ChainedFrom d inst ((done ++ [Value.table kl]).length + 2) vs := by
      have hlen3 : (done ++ [Value.table kl]).length + 2 = done.length + 2 + 1 := by
        rw [List.length_append, List.length_cons, List.length_nil]
      rw [hlen3]
      exact hrest
    have hfin := ih (done ++ [Value.table kl]) k ty hres hlen hk2 hch2
    rw [← List.cons_append] at hfin
    rw [hlen2] at hfin
    exact hfin

/-- Claim C4 (amended): for an instruction whose result list is its direct
value followed by a well-linked secondary chain `ss` of at most `2^16 - 1`
entries (and a non-void `first_type`), `detach_secondary_results` returns
the head of `ss`, following `next_secondary_result` links collects exactly
`ss`, and sequentially reattaching `ss` with `attach_secondary_result`
restores the original graph exactly. -/
theorem C4_detach_reattach : ∀ (d : DataFlowGraph) (inst : Nat)
    (idata : InstructionData) (ss : List Value) (d1 : DataFlowGraph)
    (ov : Option Value),
    d.insts[inst]? = some idata →
    idata.first_type ≠ 0 →
    d.results[inst]? = some (Value.direct inst :: ss) →
    ChainedFrom d inst 1 ss →
    ss.length ≤ 65535 →
    d.detach_secondary_results inst = .ok (d1, ov) →
    ov = ss.head? ∧ collectChain d1 ss.length ov = ss ∧
      reattachAll d1 (Value.direct inst) ss = .ok d := by
  intro d inst idata ss d1 ov hinst hft hres hch hlen hdet
  have hinstlt : inst < d.results.length := (List.getElem?_eq_some.mp hres).1
  rw [detach_eq d inst idata _ ss _ hinst hres rfl] at hdet
  rw [if_pos hft] at hdet
  injection Except.ok.inj hdet with hd1 hov
  subst hd1
  subst hov
  refine ⟨rfl, ?_, ?_⟩
  · have hch1 : ChainedFrom { d with results := d.results.set inst [Value.direct inst] } inst 1 ss := chainedFrom_ev d { d with results := d.results.set inst [Value.direct inst] } inst rfl 1 ss hch
    exact collectChain_of_chained _ inst ss 1 hch1
  · cases ss with
    | nil =>
      simp only [reattachAll]
      have h1 : d.results.set inst [Value.direct inst] = d.results := List.set_self _ _ _ hres
      rw [h1]
    | cons v vs =>
      obtain ⟨k, ty, hv, hslot, hrest⟩ := hch
      subst hv
      have h2 : (d.results.set inst [Value.direct inst])[inst]? = some [Value.direct inst] := List.getElem?_set_self hinstlt
      have hatt := attach_direct_eq { d with results := d.results.set inst [Value.direct inst] } inst [Value.direct inst] k ty 1 inst vs.head? h2 (by rw [List.length_cons, List.length_nil]; omega) hslot
      have hatt2 : ({ d with results := d.results.set inst [Value.direct inst] } : DataFlowGraph).attach_secondary_result (Value.direct inst) (Value.table k) = .ok { d with results := (d.results.set inst [Value.direct inst]).set inst ([Value.direct inst] ++ [Value.table k]), extended_values := d.extended_values.set k (ValueData.Inst ty 1 inst none) } := hatt
      rw [List.set_set] at hatt2
      simp only [reattachAll]
      rw [hatt2]
      simp only []
      exact reattach_table d inst vs [] k ty hres hlen hslot hrest

/-- The spec's claim C4 as stated: for every instruction with attached
results, detaching and then sequentially reattaching the chain the detach
returned (collected by following `next_secondary_result` links) restores
the pre-detach graph. -/
def ClaimC4 : Prop :=
  ∀ (d : DataFlowGraph) (inst : Nat) (list : List Value) (d1 : DataFlowGraph)
    (ov : Option Value),
    d.results[inst]? = some list → list ≠ [] →
    d.detach_secondary_results inst = .ok (d1, ov) →
    reattachAll d1 (Value.direct inst) (collectChain d1 d1.extended_values.length ov) = .ok d

/-- A trap instruction (no fixed results, void `first_type`) with one
secondary result attached through `append_secondary_result`: its result
list is `[Table(0)]`. -/
def dT : DataFlowGraph :=
  ⟨[.Nullary .Trap 0], [[.table 0]], [], [.Inst 5 0 0 none], [], []⟩

/-- Claim C4 as stated is false: detaching the trap's results drops
`Table(0)` entirely — the returned chain starts at the second list entry
and the kept head requires a non-void `first_type` — so reattaching the
returned (empty) chain cannot restore the result list. -/
theorem C4_counterexample : ¬ ClaimC4 := by
  intro h
  have hc := h dT 0 [Value.table 0] { dT with results := [[]] } none rfl (by decide) rfl
  have hc2 : reattachAll { dT with results := [[]] } (Value.direct 0) ([] : List Value) = Except.ok dT := hc
  have hc3 : Except.ok ({ dT with results := [[]] } : DataFlowGraph) = Except.ok dT := hc2
  exact absurd (Except.ok.inj hc3) (by decide)

/-- Witness for claim C4: a concrete detach/reattach roundtrip on the
materialized `iadd_cout` instruction. -/
theorem C4_witness :
    (dW'.insts[0]? = some (.Binary .IaddCout 3 (.direct 0) (.direct 0)) ∧
     dW'.detach_secondary_results 0 = .ok ({ dW' with results := [[Value.direct 0]] }, some (Value.table 0))) ∧
    (some (Value.table 0) = [Value.table 0].head? ∧
     collectChain { dW' with results := [[Value.direct 0]] } 1 (some (Value.table 0)) = [Value.table 0] ∧
     reattachAll { dW' with results := [[Value.direct 0]] } (Value.direct 0) [Value.table 0] = .ok dW') :=
  ⟨⟨rfl, rfl⟩,
   C4_detach_reattach dW' 0 (.Binary .IaddCout 3 (.direct 0) (.direct 0))
     [Value.table 0] ({ dW' with results := [[Value.direct 0]] }) (some (Value.table 0))
     rfl (by decide) rfl ⟨0, 1, rfl, rfl, trivial⟩ (by decide) rfl⟩

/-- Stepping through a single unary copy: `resolve_copies` of the copy's
direct value reaches the copied value and stops there when its instruction
is not itself a copylike unary. -/
theorem resolve_copies_copy (g : DataFlowGraph) (orig j : Nat) (ty : Ty)
    (odata : InstructionData)
    (ho : g.insts[orig]? = some (.Unary .Copy ty (.direct j)))
    (hj : g.insts[j]? = some odata)
    (hnc : isCopyUnary odata = false)
    (hf : 2 ≤ g.insts.length) :
    g.resolve_copies (.direct orig) = .ok (.direct j) := by
  obtain ⟨M, hM⟩ : ∃ M, g.insts.length = M + 1 + 1 := ⟨g.insts.length - 2, by omega⟩
  rw [DataFlowGraph.resolve_copies, hM]
  rw [DataFlowGraph.rcLoop]
  rw [resolve_aliases_of_stop g (.direct orig) trivial]
  simp only [ho]
  rw [if_pos (by decide : copylike Opcode.Copy = true)]
  rw [DataFlowGraph.rcLoop]
  rw [resolve_aliases_of_stop g (.direct j) trivial]
  simp only [hj]
  cases odata with
  | Unary op t a =>
    rw [isCopyUnary] at hnc
    simp only []
    rw [hnc]
    simp only [Bool.false_eq_true, if_false]
  | Nullary op t => rfl
  | Binary op t a b => rfl
  | CallData op t f as => rfl
  | CallIndirectData op t s as => rfl

/-- Computation of `redefine_first_value` on an instruction with a non-empty
result list: it always succeeds, moving the tail to a fresh instruction and
leaving the extended value table untouched. -/
theorem redefine_run (d : DataFlowGraph) (orig : Nat) (odata : InstructionData)
    (r0 : Value) (rest : List Value)
    (horig : d.insts[orig]? = some odata)
    (hres : d.results[orig]? = some (r0 :: rest)) :
    d.redefine_first_value orig = .ok ({ d with insts := (d.insts ++ [odata]).set orig (InstructionData.Unary Opcode.Copy odata.first_type (Value.direct d.insts.length)), results := ((resizeLists (d.results.set orig []) (d.insts.length + 1)).set d.insts.length (Value.direct d.insts.length :: rest)).set orig [Value.direct orig] }, d.insts.length) := by
  have horiglt : orig < d.insts.length := (List.getElem?_eq_some.mp horig).1
  have hreslt : orig < d.results.length := (List.getElem?_eq_some.mp hres).1
  have hL3 : d.insts.length < (resizeLists (d.results.set orig []) (d.insts.length + 1)).length := by
    rw [resizeLists_length]
    omega
  have hlt3 : orig < ((resizeLists (d.results.set orig []) (d.insts.length + 1)).set d.insts.length (Value.direct d.insts.length :: rest)).length := by
    rw [List.length_set, resizeLists_length]
    omega
  have hins3 : orig < (d.insts ++ [odata]).length := by
    rw [List.length_append]
    omega
  have hfr : ({ d with insts := d.insts ++ [odata], results := (resizeLists (d.results.set orig []) (d.insts.length + 1)).set d.insts.length (Value.direct d.insts.length :: rest) } : DataFlowGraph).first_result d.insts.length = .ok (Value.direct d.insts.length) :=
    first_result_cons _ _ _ rest (List.getElem?_set_self hL3)
  have hvt : ({ d with insts := d.insts ++ [odata], results := (resizeLists (d.results.set orig []) (d.insts.length + 1)).set d.insts.length (Value.direct d.insts.length :: rest) } : DataFlowGraph).value_type (Value.direct d.insts.length) = .ok odata.first_type :=
    value_type_direct _ _ odata (List.getElem?_concat_length d.insts odata)
  have hs3 : (d.insts ++ [odata])[orig]? = some odata := by
    rw [List.getElem?_append_left horiglt]
    exact horig
  have hcrt3 : ({ d with insts := (d.insts ++ [odata]).set orig (InstructionData.Unary Opcode.Copy odata.first_type (Value.direct d.insts.length)), results := (resizeLists (d.results.set orig []) (d.insts.length + 1)).set d.insts.length (Value.direct d.insts.length :: rest) } : DataFlowGraph).callReturnTypes orig = .ok [] :=
    callReturnTypes_notacall _ orig (InstructionData.Unary Opcode.Copy odata.first_type (Value.direct d.insts.length)) (List.getElem?_set_self hins3) rfl
  have hrc := replace_copy_run { d with insts := d.insts ++ [odata], results := (resizeLists (d.results.set orig []) (d.insts.length + 1)).set d.insts.length (Value.direct d.insts.length :: rest) } orig (Value.direct d.insts.length) odata.first_type odata hvt hs3 hlt3 hcrt3
  rw [DataFlowGraph.redefine_first_value, horig, hres]
  simp only []
  rw [detach_empty { d with results := d.results.set orig [] } orig (List.getElem?_set_self hreslt)]
  simp only [DataFlowGraph.make_inst]
  rw [hfr]
  simp only []
  rw [hrc]

/-- Claim C3 (amended): after a successful `redefine_first_value(orig)`
returning `new`, for an original payload that is not itself copy-like
(`isCopyUnary odata = false`; a copy-like original makes `resolve_copies`
walk past `Direct(new)` to the original's own operand), the original
instruction's payload is a unary copy of `Direct(new)`, `orig` keeps only
its direct value, the result list of `new` is the former list of `orig`
with position 0 rewritten to `Direct(new)`, and
`resolve_copies(first_result(orig))` yields `first_result(new)` — but the
extended value table is untouched, so every former secondary slot's `inst`
field still names `orig`, not `new`. -/
theorem C3_redefine : ∀ (d : DataFlowGraph) (orig : Nat) (odata : InstructionData)
    (r0 : Value) (rest : List Value) (d' : DataFlowGraph) (new : Nat),
    d.insts[orig]? = some odata →
    d.results[orig]? = some (r0 :: rest) →
    d.results.length = d.insts.length →
    isCopyUnary odata = false →
    d.redefine_first_value orig = .ok (d', new) →
    new = d.insts.length ∧
    d'.insts[orig]? = some (.Unary .Copy odata.first_type (.direct new)) ∧
    d'.results[orig]? = some [Value.direct orig] ∧
    d'.results[new]? = some (Value.direct new :: rest) ∧
    d'.extended_values = d.extended_values ∧
    d'.first_result new = .ok (.direct new) ∧
    d'.resolve_copies (.direct orig) = .ok (.direct new) := by
  intro d orig odata r0 rest d' new horig hres hlock hnc hrd
  have horiglt : orig < d.insts.length := (List.getElem?_eq_some.mp horig).1
  have hreslt : orig < d.results.length := (List.getElem?_eq_some.mp hres).1
  have hL3 : d.insts.length < (resizeLists (d.results.set orig []) (d.insts.length + 1)).length := by
    rw [resizeLists_length]
    omega
  have hlt3 : orig < ((resizeLists (d.results.set orig []) (d.insts.length + 1)).set d.insts.length (Value.direct d.insts.length :: rest)).length := by
    rw [List.length_set, resizeLists_length]
    omega
  have hins3 : orig < (d.insts ++ [odata]).length := by
    rw [List.length_append]
    omega
  have hrdrun := redefine_run d orig odata r0 rest horig hres
  rw [hrdrun] at hrd
  injection Except.ok.inj hrd with hfin hnew
  subst hfin
  subst hnew
  have hrn : (((resizeLists (d.results.set orig []) (d.insts.length + 1)).set d.insts.length (Value.direct d.insts.length :: rest)).set orig [Value.direct orig])[d.insts.length]? = some (Value.direct d.insts.length :: rest) := by
    rw [List.getElem?_set_ne (by omega)]
    exact List.getElem?_set_self hL3
  have hio2 : ((d.insts ++ [odata]).set orig (InstructionData.Unary Opcode.Copy odata.first_type (Value.direct d.insts.length)))[d.insts.length]? = some odata := by
    rw [List.getElem?_set_ne (by omega)]
    exact List.getElem?_concat_length d.insts odata
  have hf3 : 2 ≤ ((d.insts ++ [odata]).set orig (InstructionData.Unary Opcode.Copy odata.first_type (Value.direct d.insts.length))).length := by
    rw [List.length_set, List.length_append, List.length_singleton]
    omega
  exact ⟨rfl, List.getElem?_set_self hins3, List.getElem?_set_self hlt3, hrn, rfl,
    first_result_cons _ _ _ rest hrn,
    resolve_copies_copy _ orig d.insts.length odata.first_type odata
      (List.getElem?_set_self hins3) hio2 hnc hf3⟩

/-- The spec's claim C3 as stated (ownership transfer): after
`redefine_first_value(orig)` returns `new`, every former secondary result's
`InstResult.inst` field points at the new instruction. -/
def ClaimC3 : Prop :=
  ∀ (d : DataFlowGraph) (orig : Nat) (d' : DataFlowGraph) (new : Nat),
    d.redefine_first_value orig = .ok (d', new) →
    ∀ (k : Nat) (ty : Ty) (num i : Nat) (nx : Option Value),
      Value.table k ∈ d.inst_results orig →
      d'.extended_values[k]? = some (.Inst ty num i nx) →
      i = new

/-- The graph `redefine_first_value 0` produces from the materialized
`iadd_cout`: instruction 0 becomes a copy of the relocated first result,
but the secondary slot still records instruction 0 as its owner. -/
def dC3 : DataFlowGraph :=
  ⟨[.Unary .Copy 3 (.direct 1), .Binary .IaddCout 3 (.direct 0) (.direct 0)],
   [[.direct 0], [.direct 1, .table 0]], [], [.Inst 1 1 0 none], [], []⟩

/-- Claim C3 as stated is false: `redefine_first_value` never touches the
extended value table, so the former secondary result's slot keeps `inst = 0`
while the call returns `new = 1`. -/
theorem C3_counterexample : ¬ ClaimC3 := by
  intro h
  have hc := h dW' 0 dC3 1 rfl 0 1 1 0 none (by decide) rfl
  exact absurd hc (by decide)

/-- Witness for claim C3: the concrete redefinition of the materialized
`iadd_cout` instruction. -/
theorem C3_witness :
    (dW'.insts[0]? = some (.Binary .IaddCout 3 (.direct 0) (.direct 0)) ∧
     dW'.redefine_first_value 0 = .ok (dC3, 1)) ∧
    (1 = dW'.insts.length ∧
     dC3.insts[0]? = some (.Unary .Copy 3 (.direct 1)) ∧
     dC3.results[0]? = some [Value.direct 0] ∧
     dC3.results[1]? = some (Value.direct 1 :: [Value.table 0]) ∧
     dC3.extended_values = dW'.extended_values ∧
     dC3.first_result 1 = .ok (.direct 1) ∧
     dC3.resolve_copies (.direct 0) = .ok (.direct 1)) :=
  ⟨⟨rfl, by rfl⟩,
   C3_redefine dW' 0 (.Binary .IaddCout 3 (.direct 0) (.direct 0)) (.direct 0)
     [Value.table 0] dC3 1 rfl rfl rfl rfl (by rfl)⟩

/-- A successful `make_inst_results` implies the instruction has a result
list entry. -/
theorem make_inst_results_reslt (d : DataFlowGraph) (inst : Nat) (ctrl : Ty)
    (p : DataFlowGraph × Nat) (h : d.make_inst_results inst ctrl = .ok p) :
    inst < d.results.length := by
  rcases h2 : d.results[inst]? with _ | rl
  · rcases h1 : d.insts[inst]? with _ | idata
    · rw [DataFlowGraph.make_inst_results, h1] at h
      exact Except.noConfusion h
    · rw [DataFlowGraph.make_inst_results, h1, h2] at h
      exact Except.noConfusion h
  · exact (List.getElem?_eq_some.mp h2).1

/-- Inversion of a successful `make_inst_results` in a state with no
signatures: the instruction exists, the call classification is empty, and
the final state is the materialized closed form with no variable results. -/
theorem make_inst_results_inv (d d' : DataFlowGraph) (inst : Nat) (ctrl : Ty)
    (n : Nat) (hsig : d.signatures = [])
    (h : d.make_inst_results inst ctrl = .ok (d', n)) :
    ∃ idata, d.insts[inst]? = some idata ∧ inst < d.results.length ∧
      n = idata.opcode.fixed_results ∧
      d' = { d with
          insts := d.insts.set inst (idata.set_first_type ((resultTypes idata.opcode ctrl []).getD 0 0)),
          results := d.results.set inst (mirResults inst d.extended_values.length (resultTypes idata.opcode ctrl []).length),
          extended_values := d.extended_values ++ mirSlots inst (resultTypes idata.opcode ctrl []).length d.extended_values.length (resultTypes idata.opcode ctrl []) } := by
  rcases h1 : d.insts[inst]? with _ | idata
  · rw [DataFlowGraph.make_inst_results, h1] at h
    exact Except.noConfusion h
  rcases h2 : d.results[inst]? with _ | rl
  · rw [DataFlowGraph.make_inst_results, h1, h2] at h
    exact Except.noConfusion h
  rcases h3 : d.call_signature inst with e | osig
  · rw [DataFlowGraph.make_inst_results, h1, h2, h3] at h
    exact Except.noConfusion h
  rcases osig with _ | sig
  · have hlt : inst < d.results.length := (List.getElem?_eq_some.mp h2).1
    have h3' : d.callReturnTypes inst = .ok [] := by
      rw [DataFlowGraph.callReturnTypes, h3]
    have hrun := make_inst_results_run d inst ctrl idata [] h1 hlt h3'
    rw [hrun] at h
    injection Except.ok.inj h with hd hn
    simp only [List.length_nil, Nat.add_zero] at hn
    exact ⟨idata, rfl, hlt, hn.symm, hd.symm⟩
  · have h4 : d.signatures[sig]? = none := by
      rw [hsig]
      exact List.getElem?_nil
    rw [DataFlowGraph.make_inst_results, h1, h2, h3] at h
    simp only [] at h
    rw [h4] at h
    exact Except.noConfusion h

/-- Inversion of a successful `detach_secondary_results`: either the list
was already empty and nothing changes, or the list shrinks to at most its
direct head; the extended value table is untouched in both cases. -/
theorem detach_inv (d d' : DataFlowGraph) (inst : Nat) (ov : Option Value)
    (h : d.detach_secondary_results inst = .ok (d', ov)) :
    d' = d ∨ ∃ (x : Value) (rest : List Value) (nlist : List Value),
      d.results[inst]? = some (x :: rest) ∧
      (nlist = [Value.direct inst] ∨ nlist = []) ∧
      d' = { d with results := d.results.set inst nlist } := by
  rcases h2 : d.results[inst]? with _ | list
  · rw [DataFlowGraph.detach_secondary_results, h2] at h
    exact Except.noConfusion h
  rcases list with _ | ⟨x, rest⟩
  · rw [detach_empty d inst h2] at h
    injection Except.ok.inj h with hd ho
    exact Or.inl hd.symm
  · rcases h1 : d.insts[inst]? with _ | idata
    · rw [DataFlowGraph.detach_secondary_results, h2, h1] at h
      exact Except.noConfusion h
    · rw [detach_eq d inst idata x rest _ h1 h2 rfl] at h
      injection Except.ok.inj h with hd ho
      refine Or.inr ⟨x, rest, _, rfl, ?_, hd.symm⟩
      by_cases hft : idata.first_type ≠ 0
      · exact Or.inl (if_pos hft)
      · exact Or.inr (if_neg hft)

/-- Inversion of a successful `attach_secondary_result`: `res` is a table
value with an `InstResult` slot; the owning instruction's list gets `res`
appended and `res`'s slot is rewritten with the new number and owner; a
table `last_res`'s slot only gains a `next` link (same type, number and
owner). -/
theorem attach_inv (d d' : DataFlowGraph) (last res : Value)
    (h : d.attach_secondary_result last res = .ok d') :
    ∃ (i : Nat) (list : List Value) (ridx : Nat) (rty : Ty) (rnum rinst : Nat)
      (rnx : Option Value) (ev1 : List ValueData),
      res = .table ridx ∧
      d.results[i]? = some list ∧ list.length ≤ 65535 ∧
      ev1[ridx]? = some (.Inst rty rnum rinst rnx) ∧
      d' = { d with results := d.results.set i (list ++ [res]), extended_values := ev1.set ridx (.Inst rty (list.length % 65536) i none) } ∧
      ((last = .direct i ∧ ev1 = d.extended_values) ∨
       (∃ (idx : Nat) (lty : Ty) (lnum : Nat), last = .table idx ∧
          d.extended_values[idx]? = some (.Inst lty lnum i none) ∧
          ev1 = d.extended_values.set idx (.Inst lty lnum i (some res)))) := by
  rcases last with i | idx
  · rw [DataFlowGraph.attach_secondary_result] at h
    simp only [] at h
    rcases h2 : d.results[i]? with _ | list
    · rw [h2] at h
      exact Except.noConfusion h
    rw [h2] at h
    simp only [] at h
    by_cases hlen : list.length > 65535
    · rw [if_pos hlen] at h
      exact Except.noConfusion h
    rw [if_neg hlen] at h
    rcases res with j | ridx
    · exact Except.noConfusion h
    simp only [] at h
    rcases h3 : d.extended_values[ridx]? with _ | vd
    · rw [h3] at h
      exact Except.noConfusion h
    rw [h3] at h
    rcases vd with ⟨rty, rn, ri, rx⟩ | ⟨aty, an, ae⟩ | ⟨alty, aorg⟩
    · simp only [] at h
      exact ⟨i, list, ridx, rty, rn, ri, rx, d.extended_values, rfl, h2, by omega,
        h3, (Except.ok.inj h).symm, Or.inl ⟨rfl, rfl⟩⟩
    · exact Except.noConfusion h
    · exact Except.noConfusion h
  · rw [DataFlowGraph.attach_secondary_result] at h
    simp only [] at h
    rcases h0 : d.extended_values[idx]? with _ | vd0
    · rw [h0] at h
      exact Except.noConfusion h
    rw [h0] at h
    rcases vd0 with ⟨lty, lnum, li, lnx⟩ | ⟨aty, an, ae⟩ | ⟨alty, aorg⟩
    · rcases lnx with _ | nxv
      · simp only [Option.isSome_none, Bool.false_eq_true, if_false] at h
        rcases h2 : d.results[li]? with _ | list
        · rw [h2] at h
          exact Except.noConfusion h
        rw [h2] at h
        simp only [] at h
        by_cases hlen : list.length > 65535
        · rw [if_pos hlen] at h
          exact Except.noConfusion h
        rw [if_neg hlen] at h
        rcases res with j | ridx
        · exact Except.noConfusion h
        simp only [] at h
        rcases h3 : (d.extended_values.set idx (ValueData.Inst lty lnum li (some (Value.table ridx))))[ridx]? with _ | vd
        · rw [h3] at h
          exact Except.noConfusion h
        rw [h3] at h
        rcases vd with ⟨rty, rn, ri, rx⟩ | _ | _
        · simp only [] at h
          exact ⟨li, list, ridx, rty, rn, ri, rx,
            d.extended_values.set idx (ValueData.Inst lty lnum li (some (Value.table ridx))),
            rfl, h2, by omega, h3, (Except.ok.inj h).symm,
            Or.inr ⟨idx, lty, lnum, rfl, h0, rfl⟩⟩
        · exact Except.noConfusion h
        · exact Except.noConfusion h
      · exact Except.noConfusion h
    · exact Except.noConfusion h
    · exact Except.noConfusion h

/-- Inversion of a successful `append_secondary_result`: the fresh value is
the next table index, and the operation is exactly an attach on the graph
extended with the placeholder slot. -/
theorem append_secondary_inv (d d' : DataFlowGraph) (last : Value) (ty : Ty)
    (v : Value) (h : d.append_secondary_result last ty = .ok (d', v)) :
    v = .table d.extended_values.length ∧
    ({ d with extended_values := d.extended_values ++ [.Inst ty 0 0 none] } : DataFlowGraph).attach_secondary_result last (.table d.extended_values.length) = .ok d' := by
  rw [DataFlowGraph.append_secondary_result] at h
  simp only [DataFlowGraph.make_value] at h
  rcases ha : ({ d with extended_values := d.extended_values ++ [.Inst ty 0 0 none] } : DataFlowGraph).attach_secondary_result last (.table d.extended_values.length) with e | d2
  · rw [ha] at h
    exact Except.noConfusion h
  · rw [ha] at h
    injection Except.ok.inj h with hd hv
    exact ⟨hv.symm, congrArg Except.ok hd⟩

/-- Inversion of a successful `change_to_alias`: only one extended value
slot is rewritten (to an alias); lists and instructions are untouched. -/
theorem change_to_alias_inv (d d' : DataFlowGraph) (dest src : Value)
    (h : d.change_to_alias dest src = .ok d') :
    ∃ (idx : Nat) (ty : Ty) (org : Value),
      d' = { d with extended_values := d.extended_values.set idx (.Alias ty org) } := by
  rw [DataFlowGraph.change_to_alias] at h
  split at h
  · exact Except.noConfusion h
  · split at h
    · exact Except.noConfusion h
    · split at h
      · exact Except.noConfusion h
      · split at h
        · exact Except.noConfusion h
        · split at h
          · exact Except.noConfusion h
          · split at h
            · exact ⟨_, _, _, (Except.ok.inj h).symm⟩
            · exact Except.noConfusion h

/-- Inversion of a successful `make_value_alias`: one alias slot is
appended; lists and instructions are untouched. -/
theorem make_value_alias_inv (d d' : DataFlowGraph) (src v : Value)
    (h : d.make_value_alias src = .ok (d', v)) :
    ∃ ty, d' = { d with extended_values := d.extended_values ++ [.Alias ty src] } := by
  rcases hvt : d.value_type src with e | ty
  · rw [DataFlowGraph.make_value_alias, hvt] at h
    exact Except.noConfusion h
  rw [DataFlowGraph.make_value_alias, hvt] at h
  simp only [DataFlowGraph.make_value] at h
  injection Except.ok.inj h with hd hv
  exact ⟨ty, hd.symm⟩

/-- Inversion of a successful `attach_ebb_arg`: the argument is a table
value with an `Arg` slot of this very EBB; it is appended and its slot's
number is back-patched. -/
theorem attach_ebb_arg_inv (d d' : DataFlowGraph) (e2 : Nat) (arg : Value)
    (h : d.attach_ebb_arg e2 arg = .ok d') :
    ∃ (args : List Value) (idx : Nat) (ty : Ty) (num : Nat),
      d.ebbs[e2]? = some args ∧ args.length ≤ 65535 ∧ arg = .table idx ∧
      d.extended_values[idx]? = some (.Arg ty num e2) ∧
      d' = { d with ebbs := d.ebbs.set e2 (args ++ [arg]), extended_values := d.extended_values.set idx (.Arg ty (args.length % 65536) e2) } := by
  rcases h1 : d.ebbs[e2]? with _ | args
  · rw [DataFlowGraph.attach_ebb_arg, h1] at h
    exact Except.noConfusion h
  rw [DataFlowGraph.attach_ebb_arg, h1] at h
  simp only [] at h
  by_cases hlen : args.length > 65535
  · rw [if_pos hlen] at h
    exact Except.noConfusion h
  rw [if_neg hlen] at h
  rcases arg with i | idx
  · exact Except.noConfusion h
  simp only [] at h
  rcases h2 : d.extended_values[idx]? with _ | vd
  · rw [h2] at h
    exact Except.noConfusion h
  rw [h2] at h
  rcases vd with _ | ⟨ty, num, aebb⟩ | _
  · exact Except.noConfusion h
  · simp only [] at h
    by_cases heq : e2 = aebb
    · rw [if_pos heq] at h
      subst heq
      exact ⟨args, idx, ty, num, rfl, by omega, rfl, h2, (Except.ok.inj h).symm⟩
    · rw [if_neg heq] at h
      exact Except.noConfusion h
  · exact Except.noConfusion h

/-- Inversion of a successful `append_ebb_arg`: the fresh value is the next
table index, and the operation is exactly an attach on the graph extended
with the placeholder argument slot. -/
theorem append_ebb_arg_inv (d d' : DataFlowGraph) (e2 : Nat) (ty : Ty)
    (v : Value) (h : d.append_ebb_arg e2 ty = .ok (d', v)) :
    v = .table d.extended_values.length ∧
    ({ d with extended_values := d.extended_values ++ [.Arg ty 0 e2] } : DataFlowGraph).attach_ebb_arg e2 (.table d.extended_values.length) = .ok d' := by
  rw [DataFlowGraph.append_ebb_arg] at h
  simp only [DataFlowGraph.make_value] at h
  rcases ha : ({ d with extended_values := d.extended_values ++ [.Arg ty 0 e2] } : DataFlowGraph).attach_ebb_arg e2 (.table d.extended_values.length) with e | d2
  · rw [ha] at h
    exact Except.noConfusion h
  · rw [ha] at h
    injection Except.ok.inj h with hd hv
    exact ⟨hv.symm, congrArg Except.ok hd⟩

/-- Inversion of a successful `detach_ebb_args`: the list is taken whole. -/
theorem detach_ebb_args_inv (d d' : DataFlowGraph) (e2 : Nat) (args : List Value)
    (h : d.detach_ebb_args e2 = .ok (d', args)) :
    d.ebbs[e2]? = some args ∧ d' = { d with ebbs := d.ebbs.set e2 [] } := by
  rcases h1 : d.ebbs[e2]? with _ | args0
  · rw [DataFlowGraph.detach_ebb_args, h1] at h
    exact Except.noConfusion h
  rw [DataFlowGraph.detach_ebb_args, h1] at h
  injection Except.ok.inj h with hd ha
  exact ⟨by rw [ha], hd.symm⟩

/-- Inversion of a successful `replace_ebb_arg`: a fresh argument slot is
appended and placed over the old argument's list position. -/
theorem replace_ebb_arg_inv (d d' : DataFlowGraph) (old_arg : Value) (nty : Ty)
    (v : Value) (h : d.replace_ebb_arg old_arg nty = .ok (d', v)) :
    ∃ (idx : Nat) (ty0 : Ty) (num ebb : Nat) (args : List Value),
      d.extended_values[idx]? = some (.Arg ty0 num ebb) ∧
      d.ebbs[ebb]? = some args ∧ num < args.length ∧
      v = .table d.extended_values.length ∧
      d' = { d with extended_values := d.extended_values ++ [.Arg nty num ebb], ebbs := d.ebbs.set ebb (args.set num (Value.table d.extended_values.length)) } := by
  rw [DataFlowGraph.replace_ebb_arg.eq_def] at h
  split at h
  · exact Except.noConfusion h
  · rename_i v0 idx
    split at h
    · exact Except.noConfusion h
    · rename_i ty0 num ebb h1
      simp only [DataFlowGraph.make_value] at h
      split at h
      · exact Except.noConfusion h
      · rename_i args h2
        split at h
        · rename_i hnum
          injection Except.ok.inj h with hd hv
          exact ⟨idx, ty0, num, ebb, args, h1, h2, hnum, hv.symm, hd.symm⟩
        · exact Except.noConfusion h
    · exact Except.noConfusion h

/-- Inversion of a successful `replace_copy`. -/
theorem replace_copy_inv (d d' : DataFlowGraph) (inst : Nat) (arg : Value)
    (h : d.replace_copy inst arg = .ok d') :
    ∃ (ty : Ty) (odata2 : InstructionData),
      d.insts[inst]? = some odata2 ∧ inst < d.results.length ∧
      d' = { d with insts := d.insts.set inst (.Unary .Copy ty arg), results := d.results.set inst [Value.direct inst] } := by
  rcases hvt : d.value_type arg with e | ty
  · rw [DataFlowGraph.replace_copy, hvt] at h
    exact Except.noConfusion h
  rcases hs : d.insts[inst]? with _ | odata2
  · rw [DataFlowGraph.replace_copy, hvt, hs] at h
    exact Except.noConfusion h
  rcases hm : ({ d with insts := d.insts.set inst (InstructionData.Unary Opcode.Copy ty arg) } : DataFlowGraph).make_inst_results inst ty with e | pr
  · rw [DataFlowGraph.replace_copy, hvt, hs] at h
    simp only [] at h
    rw [hm] at h
    exact Except.noConfusion h
  · have hlt : inst < d.results.length := make_inst_results_reslt { d with insts := d.insts.set inst (InstructionData.Unary Opcode.Copy ty arg) } inst ty pr hm
    have hilt : inst < d.insts.length := (List.getElem?_eq_some.mp hs).1
    have hrun := replace_copy_run d inst arg ty odata2 hvt hs hlt (callReturnTypes_notacall _ inst (InstructionData.Unary Opcode.Copy ty arg) (List.getElem?_set_self hilt) rfl)
    rw [hrun] at h
    exact ⟨ty, odata2, rfl, hlt, (Except.ok.inj h).symm⟩

/-- Inversion of a successful `redefine_first_value`. -/
theorem redefine_inv (d d' : DataFlowGraph) (orig new : Nat)
    (h : d.redefine_first_value orig = .ok (d', new)) :
    ∃ (odata : InstructionData) (r0 : Value) (rest : List Value),
      d.insts[orig]? = some odata ∧ d.results[orig]? = some (r0 :: rest) ∧
      new = d.insts.length ∧
      d' = { d with insts := (d.insts ++ [odata]).set orig (.Unary .Copy odata.first_type (.direct d.insts.length)), results := ((resizeLists (d.results.set orig []) (d.insts.length + 1)).set d.insts.length (Value.direct d.insts.length :: rest)).set orig [Value.direct orig] } := by
  rcases h1 : d.insts[orig]? with _ | odata
  · rw [DataFlowGraph.redefine_first_value, h1] at h
    exact Except.noConfusion h
  rcases h2 : d.results[orig]? with _ | rl
  · rw [DataFlowGraph.redefine_first_value, h1, h2] at h
    exact Except.noConfusion h
  rcases rl with _ | ⟨r0, rest⟩
  · have hreslt : orig < d.results.length := (List.getElem?_eq_some.mp h2).1
    rw [DataFlowGraph.redefine_first_value, h1, h2] at h
    simp only [] at h
    rw [detach_empty { d with results := d.results.set orig [] } orig (List.getElem?_set_self hreslt)] at h
    exact Except.noConfusion h
  · have hrun := redefine_run d orig odata r0 rest h1 h2
    rw [hrun] at h
    injection Except.ok.inj h with hd hn
    exact ⟨odata, r0, rest, rfl, rfl, hn.symm, hd.symm⟩

/-- Reading any position of a list after `set`, without bound side
conditions. -/
theorem getElem?_set_cases {α : Type} (l : List α) (i j : Nat) (a : α) :
    (l.set i a)[j]? = if i = j ∧ i < l.length then some a else l[j]? := by
  by_cases h : i = j ∧ i < l.length
  · obtain ⟨rfl, hlt⟩ := h
    rw [if_pos ⟨rfl, hlt⟩, List.getElem?_set_self hlt]
  · rw [if_neg h]
    by_cases hij : i = j
    · subst hij
      have hge : ¬ i < l.length := fun hc => h ⟨rfl, hc⟩
      rw [List.getElem?_eq_none (by rw [List.length_set]; omega),
        List.getElem?_eq_none (by omega)]
    · exact List.getElem?_set_ne hij

/-- Reading a resized result map: inside the new bound the entries are the
old ones (empty when past the old end), outside it nothing. -/
theorem resizeLists_getD (l : List (List Value)) (n i : Nat) :
    ((resizeLists l n)[i]?).getD [] = if i < n then (l[i]?).getD [] else [] := by
  by_cases h : i < n
  · rw [if_pos h, resizeLists]
    by_cases h2 : i < l.length
    · rw [List.getElem?_append_left (by rw [List.length_take]; omega)]
      rw [List.getElem?_take, if_pos h]
    · rw [List.getElem?_append_right (by rw [List.length_take]; omega)]
      rw [List.length_take, List.getElem?_replicate]
      rw [if_pos (by omega)]
      rw [List.getElem?_eq_none (by omega)]
      rfl
  · rw [if_neg h]
    rw [List.getElem?_eq_none (by rw [resizeLists_length]; omega)]
    rfl

/-- Every table value in a materialized result list is one of the freshly
created slots. -/
theorem mirResults_mem_table (inst E n m : Nat)
    (h : Value.table m ∈ mirResults inst E n) :
    ∃ j, j < n - 1 ∧ m = E + j := by
  obtain ⟨p, hp⟩ := List.mem_iff_getElem?.mp h
  have hplen : p < n := by
    have hb := (List.getElem?_eq_some.mp hp).1
    rw [mirResults_length] at hb
    exact hb
  rcases Nat.eq_zero_or_pos p with rfl | hpos
  · rw [mirResults_zero inst E n (by omega)] at hp
    exact Value.noConfusion (Option.some.inj hp)
  · rw [mirResults_getElem inst E n p (by omega) hplen] at hp
    injection Option.some.inj hp with hm
    exact ⟨n - 1 - p, by omega, hm.symm⟩

/-- The freshly created slot `E + j` sits at position `n - 1 - j` of the
materialized result list. -/
theorem mirResults_pos (inst E n j : Nat) (hj : j < n - 1) :
    (mirResults inst E n)[n - 1 - j]? = some (Value.table (E + j)) := by
  rw [mirResults_getElem inst E n (n - 1 - j) (by omega) (by omega)]
  have h2 : n - 1 - (n - 1 - j) = j := by omega
  rw [h2]

/-- No signatures are registered (true in every reachable state: no public
DFG operation adds one). -/
def SigEmpty (d : DataFlowGraph) : Prop := d.signatures = []

/-- The result map and the instruction map have the same length. -/
def Lockstep (d : DataFlowGraph) : Prop := d.results.length = d.insts.length

/-- Every `InstResult` slot names an existing instruction. -/
def SlotBound (d : DataFlowGraph) : Prop :=
  ∀ (k : Nat) (ty : Ty) (num i : Nat) (nx : Option Value),
    d.extended_values[k]? = some (.Inst ty num i nx) → i < d.insts.length

/-- The amended result-position invariant: an `InstResult` slot present in
its instruction's result list sits there at its recorded index. -/
def ResultConsistent (d : DataFlowGraph) : Prop :=
  ∀ (k : Nat) (ty : Ty) (num i : Nat) (nx : Option Value),
    d.extended_values[k]? = some (.Inst ty num i nx) →
    Value.table k ∈ d.inst_results i →
    (d.inst_results i)[num]? = some (Value.table k)

/-- The inductive invariant for claim C2. -/
def InvA (d : DataFlowGraph) : Prop :=
  SigEmpty d ∧ Lockstep d ∧ SlotBound d ∧ ResultConsistent d

/-- Reading any position after appending one element. -/
theorem getElem?_concat_cases {α : Type} (l : List α) (a : α) (k : Nat) :
    (l ++ [a])[k]? = if k = l.length then some a else l[k]? := by
  by_cases hk : k = l.length
  · subst hk
    rw [if_pos rfl]
    exact List.getElem?_concat_length l a
  · rw [if_neg hk]
    by_cases hlt : k < l.length
    · exact List.getElem?_append_left hlt
    · rw [List.getElem?_eq_none (by rw [List.length_append, List.length_singleton]; omega), List.getElem?_eq_none (by omega)]

/-- Invariant transfer along operations that keep the instruction and
result maps and every `InstResult` slot's type, number and owner. -/
theorem invA_of_ev_results (d d' : DataFlowGraph)
    (hres : d'.results = d.results)
    (hins : d'.insts = d.insts)
    (hsg : d'.signatures = d.signatures)
    (hev : ∀ (k : Nat) (ty : Ty) (num i : Nat) (nx : Option Value),
       d'.extended_values[k]? = some (.Inst ty num i nx) →
       ∃ nx0, d.extended_values[k]? = some (.Inst ty num i nx0))
    (hinv : InvA d) : InvA d' := by
  obtain ⟨hsig, hlock, hsb, hrc⟩ := hinv
  refine ⟨?_, ?_, ?_, ?_⟩
  · show d'.signatures = []
    rw [hsg, hsig]
  · show d'.results.length = d'.insts.length
    rw [hres, hins]
    exact hlock
  · intro k ty num i nx hslot
    obtain ⟨nx0, h0⟩ := hev k ty num i nx hslot
    show i < d'.insts.length
    rw [hins]
    exact hsb k ty num i nx0 h0
  · intro k ty num i nx hslot hmem
    obtain ⟨nx0, h0⟩ := hev k ty num i nx hslot
    have hir : d'.inst_results i = d.inst_results i := by
      rw [DataFlowGraph.inst_results, DataFlowGraph.inst_results, hres]
    rw [hir] at hmem ⊢
    exact hrc k ty num i nx0 h0 hmem

/-- `make_inst` preserves the C2 invariant. -/
theorem invA_make_inst (d : DataFlowGraph) (data : InstructionData)
    (hinv : InvA d) : InvA (d.make_inst data).1 := by
  obtain ⟨hsig, hlock, hsb, hrc⟩ := hinv
  have hev : (d.make_inst data).1.extended_values = d.extended_values := by
    rw [DataFlowGraph.make_inst]
  have h1 : (d.make_inst data).1.results.length = d.insts.length + 1 := by
    rw [DataFlowGraph.make_inst]
    exact resizeLists_length _ _
  have h2 : (d.make_inst data).1.insts.length = d.insts.length + 1 := by
    rw [DataFlowGraph.make_inst]
    show (d.insts ++ [data]).length = d.insts.length + 1
    rw [List.length_append, List.length_singleton]
  refine ⟨?_, ?_, ?_, ?_⟩
  · show (d.make_inst data).1.signatures = []
    rw [DataFlowGraph.make_inst]
    exact hsig
  · show (d.make_inst data).1.results.length = (d.make_inst data).1.insts.length
    rw [h1, h2]
  · intro k ty num i nx hslot
    rw [hev] at hslot
    show i < (d.make_inst data).1.insts.length
    rw [h2]
    have := hsb k ty num i nx hslot
    omega
  · intro k ty num i nx hslot hmem
    rw [hev] at hslot
    have hir : (d.make_inst data).1.inst_results i = ((resizeLists d.results (d.insts.length + 1))[i]?).getD [] := by
      rw [DataFlowGraph.inst_results, DataFlowGraph.make_inst]
    rw [hir] at hmem ⊢
    rw [resizeLists_getD] at hmem ⊢
    by_cases hi : i < d.insts.length + 1
    · rw [if_pos hi] at hmem ⊢
      exact hrc k ty num i nx hslot hmem
    · rw [if_neg hi] at hmem
      exact absurd hmem (List.not_mem_nil _)

/-- Setting a result list to one holding no table values preserves the C2
invariant. -/
theorem invA_set_results_notable (d : DataFlowGraph) (j : Nat) (l : List Value)
    (hl : ∀ m, Value.table m ∉ l) (hinv : InvA d) :
    InvA { d with results := d.results.set j l } := by
  obtain ⟨hsig, hlock, hsb, hrc⟩ := hinv
  refine ⟨hsig, ?_, hsb, ?_⟩
  · show (d.results.set j l).length = d.insts.length
    rw [List.length_set]
    exact hlock
  · intro k ty num i nx hslot hmem
    have hir : ({ d with results := d.results.set j l } : DataFlowGraph).inst_results i = ((d.results.set j l)[i]?).getD [] := rfl
    rw [hir] at hmem ⊢
    rw [getElem?_set_cases] at hmem ⊢
    by_cases hji : j = i ∧ j < d.results.length
    · rw [if_pos hji] at hmem
      simp only [Option.getD_some] at hmem
      exact absurd hmem (hl k)
    · rw [if_neg hji] at hmem ⊢
      exact hrc k ty num i nx hslot hmem

/-- Rewriting an instruction's payload and shrinking its result list to the
direct value preserves the C2 invariant (the `replace_copy` shape). -/
theorem invA_replace_shape (d : DataFlowGraph) (inst : Nat)
    (idata2 : InstructionData) (hinv : InvA d) :
    InvA { d with insts := d.insts.set inst idata2, results := d.results.set inst [Value.direct inst] } := by
  obtain ⟨hsig, hlock, hsb, hrc⟩ := hinv
  refine ⟨hsig, ?_, ?_, ?_⟩
  · show (d.results.set inst [Value.direct inst]).length = (d.insts.set inst idata2).length
    rw [List.length_set, List.length_set]
    exact hlock
  · intro k ty num i nx hslot
    show i < (d.insts.set inst idata2).length
    rw [List.length_set]
    exact hsb k ty num i nx hslot
  · intro k ty num i nx hslot hmem
    have hir : ({ d with insts := d.insts.set inst idata2, results := d.results.set inst [Value.direct inst] } : DataFlowGraph).inst_results i = ((d.results.set inst [Value.direct inst])[i]?).getD [] := rfl
    rw [hir] at hmem ⊢
    rw [getElem?_set_cases] at hmem ⊢
    by_cases hji : inst = i ∧ inst < d.results.length
    · rw [if_pos hji] at hmem
      simp only [Option.getD_some] at hmem
      rcases List.mem_singleton.mp hmem with h
      exact Value.noConfusion h
    · rw [if_neg hji] at hmem ⊢
      exact hrc k ty num i nx hslot hmem

/-- `make_inst_results` preserves the C2 invariant. -/
theorem invA_make_inst_results (d d' : DataFlowGraph) (inst : Nat) (ctrl : Ty)
    (n : Nat) (h : d.make_inst_results inst ctrl = .ok (d', n))
    (hinv : InvA d) : InvA d' := by
  obtain ⟨hsig, hlock, hsb, hrc⟩ := hinv
  obtain ⟨idata, h1, hlt, hn, hd⟩ := make_inst_results_inv d d' inst ctrl n hsig h
  have hlock2 : d.results.length = d.insts.length := hlock
  have hev : d'.extended_values = d.extended_values ++ mirSlots inst (resultTypes idata.opcode ctrl []).length d.extended_values.length (resultTypes idata.opcode ctrl []) := by
    rw [hd]
  have hres : d'.results = d.results.set inst (mirResults inst d.extended_values.length (resultTypes idata.opcode ctrl []).length) := by
    rw [hd]
  have hins : d'.insts = d.insts.set inst (idata.set_first_type ((resultTypes idata.opcode ctrl []).getD 0 0)) := by
    rw [hd]
  have hsg : d'.signatures = d.signatures := by
    rw [hd]
  have hTb : (resultTypes idata.opcode ctrl []).length ≤ 2 := by
    rw [resultTypes_length, List.length_nil]
    cases idata.opcode <;> decide
  refine ⟨?_, ?_, ?_, ?_⟩
  · show d'.signatures = []
    rw [hsg, hsig]
  · show d'.results.length = d'.insts.length
    rw [hres, hins, List.length_set, List.length_set]
    exact hlock
  · intro k ty2 num2 i2 nx2 hslot
    rw [hev] at hslot
    show i2 < d'.insts.length
    rw [hins, List.length_set]
    by_cases hk : k < d.extended_values.length
    · rw [List.getElem?_append_left hk] at hslot
      exact hsb k ty2 num2 i2 nx2 hslot
    · rw [List.getElem?_append_right (by omega)] at hslot
      have hjlt : k - d.extended_values.length < (resultTypes idata.opcode ctrl []).length - 1 := by
        have hb := (List.getElem?_eq_some.mp hslot).1
        rw [mirSlots_length] at hb
        exact hb
      rw [mirSlots_getElem inst (resultTypes idata.opcode ctrl []).length d.extended_values.length (resultTypes idata.opcode ctrl []) (k - d.extended_values.length) hjlt] at hslot
      injection Option.some.inj hslot with he1 he2 he3 he4
      rw [← he3]
      omega
  · intro k ty2 num2 i2 nx2 hslot hmem
    rw [hev] at hslot
    have hir : d'.inst_results i2 = ((d.results.set inst (mirResults inst d.extended_values.length (resultTypes idata.opcode ctrl []).length))[i2]?).getD [] := by
      rw [DataFlowGraph.inst_results, hres]
    rw [hir] at hmem ⊢
    by_cases hk : k < d.extended_values.length
    · rw [List.getElem?_append_left hk] at hslot
      rw [getElem?_set_cases] at hmem ⊢
      by_cases hii : inst = i2 ∧ inst < d.results.length
      · rw [if_pos hii] at hmem
        simp only [Option.getD_some] at hmem
        obtain ⟨j, hj, hkeq⟩ := mirResults_mem_table inst d.extended_values.length (resultTypes idata.opcode ctrl []).length k hmem
        exact absurd hkeq (by omega)
      · rw [if_neg hii] at hmem ⊢
        exact hrc k ty2 num2 i2 nx2 hslot hmem
    · rw [List.getElem?_append_right (by omega)] at hslot
      have hjlt : k - d.extended_values.length < (resultTypes idata.opcode ctrl []).length - 1 := by
        have hb := (List.getElem?_eq_some.mp hslot).1
        rw [mirSlots_length] at hb
        exact hb
      rw [mirSlots_getElem inst (resultTypes idata.opcode ctrl []).length d.extended_values.length (resultTypes idata.opcode ctrl []) (k - d.extended_values.length) hjlt] at hslot
      injection Option.some.inj hslot with he1 he2 he3 he4
      rw [← he3] at hmem ⊢
      rw [getElem?_set_cases] at hmem ⊢
      rw [if_pos ⟨rfl, hlt⟩] at hmem ⊢
      simp only [Option.getD_some] at hmem ⊢
      rw [← he2]
      have hmod : ((resultTypes idata.opcode ctrl []).length - 1 - (k - d.extended_values.length)) % 65536 = (resultTypes idata.opcode ctrl []).length - 1 - (k - d.extended_values.length) := Nat.mod_eq_of_lt (by omega)
      rw [hmod]
      obtain ⟨j, rfl⟩ : ∃ j, k = d.extended_values.length + j := ⟨k - d.extended_values.length, by omega⟩
      have hsimp : d.extended_values.length + j - d.extended_values.length = j := by omega
      rw [hsimp] at hjlt ⊢
      exact mirResults_pos inst d.extended_values.length (resultTypes idata.opcode ctrl []).length j hjlt

/-- `attach_secondary_result` preserves the C2 invariant.  The hypotheses
on the source state exempt the attached value's own slot, so the lemma also
covers the placeholder slot `append_secondary_result` creates. -/
theorem invA_attach (d d' : DataFlowGraph) (last res : Value)
    (h : d.attach_secondary_result last res = .ok d')
    (hsig : SigEmpty d) (hlock : Lockstep d)
    (hsb : ∀ (k : Nat) (ty : Ty) (num i : Nat) (nx : Option Value), res ≠ .table k →
       d.extended_values[k]? = some (.Inst ty num i nx) → i < d.insts.length)
    (hrc : ∀ (k : Nat) (ty : Ty) (num i : Nat) (nx : Option Value), res ≠ .table k →
       d.extended_values[k]? = some (.Inst ty num i nx) →
       Value.table k ∈ d.inst_results i →
       (d.inst_results i)[num]? = some (Value.table k)) :
    InvA d' := by
  obtain ⟨i, list, ridx, rty, rnum, rinst, rnx, ev1, hres0, h2, hlen, h3, hd, hcase⟩ := attach_inv d d' last res h
  subst hres0
  have hlock2 : d.results.length = d.insts.length := hlock
  have hilt : i < d.results.length := (List.getElem?_eq_some.mp h2).1
  have hridx : ridx < ev1.length := (List.getElem?_eq_some.mp h3).1
  have hev1 : ∀ (k : Nat) (ty : Ty) (num i2 : Nat) (nx : Option Value),
      ev1[k]? = some (.Inst ty num i2 nx) →
      ∃ nx0, d.extended_values[k]? = some (.Inst ty num i2 nx0) := by
    intro k ty num i2 nx hk
    rcases hcase with ⟨hlast, hev⟩ | ⟨idx, lty, lnum, hlast, h0, hev⟩
    · rw [hev] at hk
      exact ⟨nx, hk⟩
    · rw [hev] at hk
      rw [getElem?_set_cases] at hk
      by_cases hidx : idx = k ∧ idx < d.extended_values.length
      · rw [if_pos hidx] at hk
        injection Option.some.inj hk with g1 g2 g3 g4
        refine ⟨none, ?_⟩
        rw [← hidx.1, ← g1, ← g2, ← g3]
        exact h0
      · rw [if_neg hidx] at hk
        exact ⟨nx, hk⟩
  refine ⟨?_, ?_, ?_, ?_⟩
  · show d'.signatures = []
    rw [hd]
    exact hsig
  · show d'.results.length = d'.insts.length
    rw [hd]
    show (d.results.set i (list ++ [Value.table ridx])).length = d.insts.length
    rw [List.length_set]
    exact hlock2
  · intro k ty num i2 nx hslot
    have hslot2 : (ev1.set ridx (ValueData.Inst rty (list.length % 65536) i none))[k]? = some (.Inst ty num i2 nx) := by
      rw [hd] at hslot
      exact hslot
    rw [getElem?_set_cases] at hslot2
    show i2 < d'.insts.length
    rw [hd]
    show i2 < d.insts.length
    by_cases hcs : ridx = k ∧ ridx < ev1.length
    · rw [if_pos hcs] at hslot2
      injection Option.some.inj hslot2 with g1 g2 g3 g4
      omega
    · rw [if_neg hcs] at hslot2
      obtain ⟨nx0, h0⟩ := hev1 k ty num i2 nx hslot2
      have hkne : Value.table ridx ≠ Value.table k := by
        intro he
        injection he with he2
        exact hcs ⟨he2, hridx⟩
      exact hsb k ty num i2 nx0 hkne h0
  · intro k ty num i2 nx hslot hmem
    have hslot2 : (ev1.set ridx (ValueData.Inst rty (list.length % 65536) i none))[k]? = some (.Inst ty num i2 nx) := by
      rw [hd] at hslot
      exact hslot
    rw [getElem?_set_cases] at hslot2
    have hir : d'.inst_results i2 = ((d.results.set i (list ++ [Value.table ridx]))[i2]?).getD [] := by
      rw [DataFlowGraph.inst_results, hd]
    rw [hir] at hmem ⊢
    by_cases hcs : ridx = k ∧ ridx < ev1.length
    · rw [if_pos hcs] at hslot2
      injection Option.some.inj hslot2 with g1 g2 g3 g4
      rw [← hcs.1] at hmem ⊢
      rw [← g3] at hmem ⊢
      rw [getElem?_set_cases] at hmem ⊢
      rw [if_pos ⟨rfl, hilt⟩] at hmem ⊢
      simp only [Option.getD_some] at hmem ⊢
      rw [← g2]
      have hmod : list.length % 65536 = list.length := Nat.mod_eq_of_lt (by omega)
      rw [hmod]
      exact List.getElem?_concat_length list (Value.table ridx)
    · rw [if_neg hcs] at hslot2
      obtain ⟨nx0, h0⟩ := hev1 k ty num i2 nx hslot2
      have hkne2 : ridx ≠ k := fun he => hcs ⟨he, hridx⟩
      have hkne : Value.table ridx ≠ Value.table k := by
        intro he
        injection he with he2
        exact hkne2 he2
      rw [getElem?_set_cases] at hmem ⊢
      by_cases hii : i = i2 ∧ i < d.results.length
      · rw [if_pos hii] at hmem ⊢
        simp only [Option.getD_some] at hmem ⊢
        rcases List.mem_append.mp hmem with hm1 | hm2
        · have h2i : d.results[i2]? = some list := hii.1 ▸ h2
          have hirl : d.inst_results i2 = list := by
            rw [DataFlowGraph.inst_results, h2i]
            rfl
          have hpre := hrc k ty num i2 nx0 hkne h0 (by rw [hirl]; exact hm1)
          rw [hirl] at hpre
          have hnumlt : num < list.length := (List.getElem?_eq_some.mp hpre).1
          rw [List.getElem?_append_left hnumlt]
          exact hpre
        · rcases List.mem_singleton.mp hm2 with he
          injection he with he3
          exact absurd he3.symm hkne2
      · rw [if_neg hii] at hmem ⊢
        exact hrc k ty num i2 nx0 hkne h0 hmem

/-- `redefine_first_value` preserves the C2 invariant. -/
theorem invA_redefine (d d' : DataFlowGraph) (orig new : Nat)
    (h : d.redefine_first_value orig = .ok (d', new)) (hinv : InvA d) : InvA d' := by
  obtain ⟨hsig, hlock, hsb, hrc⟩ := hinv
  have hlock2 : d.results.length = d.insts.length := hlock
  obtain ⟨odata, r0, rest, h1, h2, hn, hd⟩ := redefine_inv d d' orig new h
  have horiglt : orig < d.insts.length := (List.getElem?_eq_some.mp h1).1
  have hressz : ((resizeLists (d.results.set orig []) (d.insts.length + 1)).set d.insts.length (Value.direct d.insts.length :: rest)).length = d.insts.length + 1 := by
    rw [List.length_set, resizeLists_length]
  refine ⟨?_, ?_, ?_, ?_⟩
  · show d'.signatures = []
    rw [hd]
    exact hsig
  · show d'.results.length = d'.insts.length
    rw [hd]
    show (((resizeLists (d.results.set orig []) (d.insts.length + 1)).set d.insts.length (Value.direct d.insts.length :: rest)).set orig [Value.direct orig]).length = ((d.insts ++ [odata]).set orig (InstructionData.Unary Opcode.Copy odata.first_type (Value.direct d.insts.length))).length
    rw [List.length_set, hressz, List.length_set, List.length_append, List.length_singleton]
  · intro k ty num i nx hslot
    have hslot2 : d.extended_values[k]? = some (.Inst ty num i nx) := by
      rw [hd] at hslot
      exact hslot
    show i < d'.insts.length
    rw [hd]
    show i < ((d.insts ++ [odata]).set orig (InstructionData.Unary Opcode.Copy odata.first_type (Value.direct d.insts.length))).length
    rw [List.length_set, List.length_append, List.length_singleton]
    have := hsb k ty num i nx hslot2
    omega
  · intro k ty num i nx hslot hmem
    have hslot2 : d.extended_values[k]? = some (.Inst ty num i nx) := by
      rw [hd] at hslot
      exact hslot
    have hiI : i < d.insts.length := hsb k ty num i nx hslot2
    have hir : d'.inst_results i = ((((resizeLists (d.results.set orig []) (d.insts.length + 1)).set d.insts.length (Value.direct d.insts.length :: rest)).set orig [Value.direct orig])[i]?).getD [] := by
      rw [DataFlowGraph.inst_results, hd]
    rw [hir] at hmem ⊢
    rw [getElem?_set_cases] at hmem ⊢
    by_cases ho : orig = i ∧ orig < ((resizeLists (d.results.set orig []) (d.insts.length + 1)).set d.insts.length (Value.direct d.insts.length :: rest)).length
    · rw [if_pos ho] at hmem
      simp only [Option.getD_some] at hmem
      rcases List.mem_singleton.mp hmem with he
      exact Value.noConfusion he
    · rw [if_neg ho] at hmem ⊢
      rw [getElem?_set_cases] at hmem ⊢
      by_cases hL : d.insts.length = i ∧ d.insts.length < (resizeLists (d.results.set orig []) (d.insts.length + 1)).length
      · exact absurd hL.1 (by omega)
      · rw [if_neg hL] at hmem ⊢
        rw [resizeLists_getD] at hmem ⊢
        rw [if_pos (by omega)] at hmem ⊢
        rw [getElem?_set_cases] at hmem ⊢
        have hoi : ¬(orig = i ∧ orig < d.results.length) := by
          intro hx
          exact ho ⟨hx.1, by rw [hressz]; omega⟩
        rw [if_neg hoi] at hmem ⊢
        exact hrc k ty num i nx hslot2 hmem

/-- Every public operation preserves the C2 invariant. -/
theorem step_invA {g : Bool} {d d' : DataFlowGraph} (hstep : Step g d d')
    (hinv : InvA d) : InvA d' := by
  obtain ⟨hsig, hlock, hsb, hrc⟩ := hinv
  cases hstep with
  | make_inst data =>
    exact invA_make_inst d data ⟨hsig, hlock, hsb, hrc⟩
  | make_inst_results d1 inst ctrl n h =>
    exact invA_make_inst_results d d' inst ctrl n h ⟨hsig, hlock, hsb, hrc⟩
  | detach_secondary_results d1 inst ov h =>
    rcases detach_inv d d' inst ov h with hdd | ⟨x, rest, nlist, hres, hnl, hd⟩
    · rw [hdd]
      exact ⟨hsig, hlock, hsb, hrc⟩
    · rw [hd]
      refine invA_set_results_notable d inst nlist ?_ ⟨hsig, hlock, hsb, hrc⟩
      intro m hm
      rcases hnl with rfl | rfl
      · rcases List.mem_singleton.mp hm with he
        exact Value.noConfusion he
      · exact List.not_mem_nil _ hm
  | attach_secondary_result d1 last res hg h =>
    exact invA_attach d d' last res h hsig hlock
      (fun k ty num i nx hne hs => hsb k ty num i nx hs)
      (fun k ty num i nx hne hs hm => hrc k ty num i nx hs hm)
  | append_secondary_result d1 last ty v h =>
    obtain ⟨hv, hat⟩ := append_secondary_inv d d' last ty v h
    refine invA_attach _ d' last (.table d.extended_values.length) hat hsig hlock ?_ ?_
    · intro k ty2 num i nx hne hs
      have hs2 : (d.extended_values ++ [ValueData.Inst ty 0 0 none])[k]? = some (.Inst ty2 num i nx) := hs
      rw [getElem?_concat_cases] at hs2
      by_cases hk : k = d.extended_values.length
      · exact absurd (by rw [hk]) hne
      · rw [if_neg hk] at hs2
        exact hsb k ty2 num i nx hs2
    · intro k ty2 num i nx hne hs hm
      have hs2 : (d.extended_values ++ [ValueData.Inst ty 0 0 none])[k]? = some (.Inst ty2 num i nx) := hs
      rw [getElem?_concat_cases] at hs2
      by_cases hk : k = d.extended_values.length
      · exact absurd (by rw [hk]) hne
      · rw [if_neg hk] at hs2
        exact hrc k ty2 num i nx hs2 hm
  | change_to_alias d1 dest src h =>
    obtain ⟨idx, ty, org, hd⟩ := change_to_alias_inv d d' dest src h
    refine invA_of_ev_results d d' (by rw [hd]) (by rw [hd]) (by rw [hd]) ?_ ⟨hsig, hlock, hsb, hrc⟩
    intro k ty2 num i nx hs
    have hs2 : (d.extended_values.set idx (ValueData.Alias ty org))[k]? = some (.Inst ty2 num i nx) := by
      rw [hd] at hs
      exact hs
    rw [getElem?_set_cases] at hs2
    by_cases hk : idx = k ∧ idx < d.extended_values.length
    · rw [if_pos hk] at hs2
      exact ValueData.noConfusion (Option.some.inj hs2)
    · rw [if_neg hk] at hs2
      exact ⟨nx, hs2⟩
  | make_value_alias d1 src v h =>
    obtain ⟨ty, hd⟩ := make_value_alias_inv d d' src v h
    refine invA_of_ev_results d d' (by rw [hd]) (by rw [hd]) (by rw [hd]) ?_ ⟨hsig, hlock, hsb, hrc⟩
    intro k ty2 num i nx hs
    have hs2 : (d.extended_values ++ [ValueData.Alias ty src])[k]? = some (.Inst ty2 num i nx) := by
      rw [hd] at hs
      exact hs
    rw [getElem?_concat_cases] at hs2
    by_cases hk : k = d.extended_values.length
    · rw [if_pos hk] at hs2
      exact ValueData.noConfusion (Option.some.inj hs2)
    · rw [if_neg hk] at hs2
      exact ⟨nx, hs2⟩
  | make_ebb =>
    refine invA_of_ev_results d d.make_ebb.1 (by rw [DataFlowGraph.make_ebb]) (by rw [DataFlowGraph.make_ebb]) (by rw [DataFlowGraph.make_ebb]) ?_ ⟨hsig, hlock, hsb, hrc⟩
    intro k ty2 num i nx hs
    exact ⟨nx, hs⟩
  | append_ebb_arg d1 ebb ty v h =>
    obtain ⟨hv, hat⟩ := append_ebb_arg_inv d d' ebb ty v h
    obtain ⟨args, idx, ty2, num2, hargs, hlen2, harg, hslot2, hd⟩ := attach_ebb_arg_inv _ d' ebb (.table d.extended_values.length) hat
    refine invA_of_ev_results d d' (by rw [hd]) (by rw [hd]) (by rw [hd]) ?_ ⟨hsig, hlock, hsb, hrc⟩
    intro k ty3 num i nx hs
    have hs2 : ((d.extended_values ++ [ValueData.Arg ty 0 ebb]).set idx (ValueData.Arg ty2 (args.length % 65536) ebb))[k]? = some (.Inst ty3 num i nx) := by
      rw [hd] at hs
      exact hs
    rw [getElem?_set_cases] at hs2
    by_cases hk : idx = k ∧ idx < (d.extended_values ++ [ValueData.Arg ty 0 ebb]).length
    · rw [if_pos hk] at hs2
      exact ValueData.noConfusion (Option.some.inj hs2)
    · rw [if_neg hk] at hs2
      rw [getElem?_concat_cases] at hs2
      by_cases hk2 : k = d.extended_values.length
      · rw [if_pos hk2] at hs2
        exact ValueData.noConfusion (Option.some.inj hs2)
      · rw [if_neg hk2] at hs2
        exact ⟨nx, hs2⟩
  | attach_ebb_arg d1 ebb arg hg h =>
    obtain ⟨args, idx, ty2, num2, hargs, hlen2, harg, hslot2, hd⟩ := attach_ebb_arg_inv d d' ebb arg h
    refine invA_of_ev_results d d' (by rw [hd]) (by rw [hd]) (by rw [hd]) ?_ ⟨hsig, hlock, hsb, hrc⟩
    intro k ty3 num i nx hs
    have hs2 : (d.extended_values.set idx (ValueData.Arg ty2 (args.length % 65536) ebb))[k]? = some (.Inst ty3 num i nx) := by
      rw [hd] at hs
      exact hs
    rw [getElem?_set_cases] at hs2
    by_cases hk : idx = k ∧ idx < d.extended_values.length
    · rw [if_pos hk] at hs2
      exact ValueData.noConfusion (Option.some.inj hs2)
    · rw [if_neg hk] at hs2
      exact ⟨nx, hs2⟩
  | detach_ebb_args d1 ebb args h =>
    obtain ⟨hargs, hd⟩ := detach_ebb_args_inv d d' ebb args h
    refine invA_of_ev_results d d' (by rw [hd]) (by rw [hd]) (by rw [hd]) ?_ ⟨hsig, hlock, hsb, hrc⟩
    intro k ty2 num i nx hs
    have hs2 : d.extended_values[k]? = some (.Inst ty2 num i nx) := by
      rw [hd] at hs
      exact hs
    exact ⟨nx, hs2⟩
  | replace_ebb_arg d1 old_arg ty v h =>
    obtain ⟨idx, ty0, num0, ebb, args, hslot0, hargs, hnum, hv, hd⟩ := replace_ebb_arg_inv d d' old_arg ty v h
    refine invA_of_ev_results d d' (by rw [hd]) (by rw [hd]) (by rw [hd]) ?_ ⟨hsig, hlock, hsb, hrc⟩
    intro k ty2 num i nx hs
    have hs2 : (d.extended_values ++ [ValueData.Arg ty num0 ebb])[k]? = some (.Inst ty2 num i nx) := by
      rw [hd] at hs
      exact hs
    rw [getElem?_concat_cases] at hs2
    by_cases hk : k = d.extended_values.length
    · rw [if_pos hk] at hs2
      exact ValueData.noConfusion (Option.some.inj hs2)
    · rw [if_neg hk] at hs2
      exact ⟨nx, hs2⟩
  | replace_copy d1 inst arg h =>
    obtain ⟨ty, odata2, hs0, hlt0, hd⟩ := replace_copy_inv d d' inst arg h
    rw [hd]
    exact invA_replace_shape d inst (.Unary .Copy ty arg) ⟨hsig, hlock, hsb, hrc⟩
  | redefine_first_value d1 orig new h =>
    exact invA_redefine d d' orig new h ⟨hsig, hlock, hsb, hrc⟩

/-- Every reachable state satisfies the C2 invariant. -/
theorem reachable_invA (g : Bool) (d : DataFlowGraph) (h : Reachable g d) :
    InvA d := by
  induction h with
  | base =>
    refine ⟨rfl, rfl, ?_, ?_⟩
    · intro k ty num i nx hs
      rw [show DataFlowGraph.new.extended_values = ([] : List ValueData) from rfl, List.getElem?_nil] at hs
      exact Option.noConfusion hs
    · intro k ty num i nx hs hm
      rw [show DataFlowGraph.new.extended_values = ([] : List ValueData) from rfl, List.getElem?_nil] at hs
      exact Option.noConfusion hs
  | step hr hstep ih =>
    exact step_invA hstep ih

/-- Claim C2 (amended): in every reachable state, an `InstResult` slot whose
table value is PRESENT in its instruction's result list sits there exactly
at its recorded `result_index`.  (Without the presence premise the claim is
false: detach operations leave stale slots behind.) -/
theorem C2_result_position : ∀ (d : DataFlowGraph), Reachable false d →
    ∀ (k : Nat) (ty : Ty) (num i : Nat) (nx : Option Value),
      d.extended_values[k]? = some (.Inst ty num i nx) →
      Value.table k ∈ d.inst_results i →
      (d.inst_results i)[num]? = some (Value.table k) := by
  intro d h
  exact (reachable_invA false d h).2.2.2

/-- The spec's claim C2 as stated: in every reachable state, EVERY
`InstResult` slot's value sits in its instruction's result list at the
recorded index. -/
def ClaimC2 : Prop :=
  ∀ (d : DataFlowGraph), Reachable false d →
    ∀ (k : Nat) (ty : Ty) (num i : Nat) (nx : Option Value),
      d.extended_values[k]? = some (.Inst ty num i nx) →
      (d.inst_results i)[num]? = some (Value.table k)

/-- Claim C2 as stated is false: materializing the two-result `iadd_cout`
and then detaching its secondaries yields a reachable state whose carry
slot still records `result_index = 1` of instruction 0, but the shortened
result list no longer holds it. -/
theorem C2_counterexample : ¬ ClaimC2 := by
  intro h
  have hreach : Reachable false ({ dW' with results := [[Value.direct 0]] } : DataFlowGraph) :=
    Reachable.step (Reachable.step (Reachable.step Reachable.base (Step.make_inst DataFlowGraph.new idataW)) (Step.make_inst_results dW dW' 0 3 2 (by rfl))) (Step.detach_secondary_results dW' _ 0 (some (Value.table 0)) (by rfl))
  have hc := h { dW' with results := [[Value.direct 0]] } hreach 0 1 1 0 none rfl
  exact absurd hc (by decide)

/-- Witness for claim C2: the freshly materialized `iadd_cout` is reachable
and its carry slot is consistent. -/
theorem C2_witness :
    (Reachable false dW' ∧ dW'.extended_values[0]? = some (.Inst 1 1 0 none) ∧
     Value.table 0 ∈ dW'.inst_results 0) ∧
    (dW'.inst_results 0)[1]? = some (Value.table 0) := by
  have hreach : Reachable false dW' :=
    Reachable.step (Reachable.step Reachable.base (Step.make_inst DataFlowGraph.new idataW)) (Step.make_inst_results dW dW' 0 3 2 (by rfl))
  exact ⟨⟨hreach, rfl, by decide⟩,
    C2_result_position dW' hreach 0 1 1 0 none rfl (by decide)⟩

/-- Witness for claim C10: detaching the carry of the materialized
`iadd_cout` dangles it. -/
theorem C10_witness :
    dW'.value_is_valid (.table 0) = true ∧
    (({ dW' with results := [[Value.direct 0]] } : DataFlowGraph).value_def
      (.table 0) = .error .dangling) := by
  constructor
  · decide
  · exact C10_detached_value_def dW' 0 (.Binary .IaddCout 3 (.direct 0) (.direct 0))
      [.table 0] _ (some (.table 0)) (.table 0) rfl rfl
      ⟨0, 1, rfl, rfl, trivial⟩ (by decide) (by decide)

/-- List-count equation for `cons` with a propositional `if`. -/
theorem count_cons_eq (a : Value) (l : List Value) (v : Value) :
    (a :: l).count v = l.count v + if a = v then 1 else 0 := by
  rw [List.count_cons]
  by_cases h : a = v
  · rw [if_pos h, if_pos (beq_iff_eq.mpr h)]
  · rw [if_neg h, if_neg (by simp [h])]

/-- Count of a singleton list with a propositional `if`. -/
theorem count_singleton_eq (a v : Value) :
    ([a] : List Value).count v = if a = v then 1 else 0 := by
  rw [count_cons_eq, List.count_nil]
  omega

/-- Flattened-count bookkeeping when one entry of a list of lists is
replaced. -/
theorem count_flatten_set (xs : List (List Value)) (i : Nat) (l : List Value)
    (v : Value) (h : i < xs.length) :
    ((xs.set i l).flatten).count v + ((xs[i]?).getD []).count v =
      (xs.flatten).count v + l.count v := by
  induction xs generalizing i with
  | nil => exact absurd h (by simp)
  | cons x xs ih =>
    cases i with
    | zero =>
      simp only [List.set_cons_zero, List.flatten_cons, List.count_append,
        List.getElem?_cons_zero, Option.getD_some]
      omega
    | succ i =>
      simp only [List.set_cons_succ, List.flatten_cons, List.count_append,
        List.getElem?_cons_succ]
      have := ih i (by rw [List.length_cons] at h; omega)
      omega

/-- Replacing a position with a different value never increases the count. -/
theorem count_set_le (l : List Value) (n : Nat) (a v : Value) (hne : v ≠ a) :
    (l.set n a).count v ≤ l.count v := by
  induction l generalizing n with
  | nil => rw [List.set_nil]
  | cons x xs ih =>
    cases n with
    | zero =>
      rw [List.set_cons_zero, count_cons_eq, count_cons_eq,
        if_neg (fun hc => hne hc.symm)]
      omega
    | succ n =>
      rw [List.set_cons_succ, count_cons_eq, count_cons_eq]
      have := ih n
      omega

/-- Replacing a position increases any count by at most one. -/
theorem count_set_le_succ (l : List Value) (n : Nat) (a v : Value) :
    (l.set n a).count v ≤ l.count v + 1 := by
  induction l generalizing n with
  | nil => rw [List.set_nil]; omega
  | cons x xs ih =>
    cases n with
    | zero =>
      rw [List.set_cons_zero, count_cons_eq, count_cons_eq]
      by_cases ha : a = v
      · rw [if_pos ha]
        omega
      · rw [if_neg ha]
        omega
    | succ n =>
      rw [List.set_cons_succ, count_cons_eq, count_cons_eq]
      have := ih n
      omega

/-- A block of empty lists flattens to nothing. -/
theorem flatten_replicate_nil (k : Nat) :
    (List.replicate k ([] : List Value)).flatten = [] := by
  induction k with
  | zero => rfl
  | succ k ih => rw [List.replicate_succ, List.flatten_cons, List.nil_append, ih]

/-- Padding a list of lists with empty lists does not change flattened
counts. -/
theorem count_flatten_pad (l : List (List Value)) (k : Nat) (v : Value) :
    ((l ++ List.replicate k ([] : List Value)).flatten).count v =
      (l.flatten).count v := by
  rw [List.flatten_append, flatten_replicate_nil, List.append_nil]

/-- `Vec::resize` pads with empty lists when the target is at least the
current length. -/
theorem resizeLists_of_le (l : List (List Value)) (n : Nat) (h : l.length ≤ n) :
    resizeLists l n = l ++ List.replicate (n - l.length) [] := by
  rw [resizeLists, List.take_of_length_le h]

/-- Positional membership in a flattened list of lists. -/
theorem mem_flatten_pos (xs : List (List Value)) (v : Value) :
    v ∈ xs.flatten ↔ ∃ (j : Nat) (l : List Value), xs[j]? = some l ∧ v ∈ l := by
  rw [List.mem_flatten]
  constructor
  · rintro ⟨l, hl, hv⟩
    obtain ⟨j, hj⟩ := List.mem_iff_getElem?.mp hl
    exact ⟨j, l, hj, hv⟩
  · rintro ⟨j, l, hj, hv⟩
    exact ⟨l, List.mem_iff_getElem?.mpr ⟨j, hj⟩, hv⟩

/-- The materialized result list has no duplicates: the direct head is
distinct from the fresh table values, which are pairwise distinct. -/
theorem mirResults_nodup (inst E n : Nat) : (mirResults inst E n).Nodup := by
  rw [mirResults]
  by_cases hn : n = 0
  · rw [if_pos hn]
    exact List.nodup_nil
  · rw [if_neg hn]
    refine List.nodup_cons.mpr ⟨?_, ?_⟩
    · intro hm
      rw [List.mem_reverse] at hm
      obtain ⟨j, hj, hv⟩ := List.mem_map.mp hm
      exact Value.noConfusion hv
    · rw [List.nodup_reverse]
      exact (List.nodup_range (n - 1)).map
        (fun a b hab => by have := Value.table.inj hab; omega)

/-- A direct value in a materialized result list is the head. -/
theorem mirResults_direct (inst E n p i0 : Nat)
    (hp : (mirResults inst E n)[p]? = some (Value.direct i0)) :
    i0 = inst ∧ p = 0 := by
  have hpl : p < n := by
    have hb := (List.getElem?_eq_some.mp hp).1
    rw [mirResults_length] at hb
    exact hb
  cases p with
  | zero =>
    rw [mirResults_zero inst E n (by omega)] at hp
    exact ⟨(Value.direct.inj (Option.some.inj hp)).symm, rfl⟩
  | succ p =>
    rw [mirResults_getElem inst E n (p + 1) (by omega) hpl] at hp
    exact Value.noConfusion (Option.some.inj hp)

/-- Every table value at or past the end of the extended value table occurs
in no list: freshly allocated indices are detached. -/
def ValsBound (d : DataFlowGraph) : Prop :=
  ∀ m : Nat, d.extended_values.length ≤ m → occCount d (Value.table m) = 0

/-- A direct value occurs, if at all, only at position 0 of its own
instruction's result list. -/
def DirectHomeRes (d : DataFlowGraph) : Prop :=
  ∀ (i j p : Nat) (list : List Value), d.results[j]? = some list →
    list[p]? = some (Value.direct i) → j = i ∧ p = 0

/-- No direct value sits in an EBB argument list. -/
def DirectNoEbb (d : DataFlowGraph) : Prop :=
  ∀ i : Nat, Value.direct i ∉ d.ebbs.flatten

/-- Every value occupies at most one position across all result lists and
EBB argument lists. -/
def Uniq (d : DataFlowGraph) : Prop := ∀ v : Value, occCount d v ≤ 1

/-- The inductive invariant for claim C8. -/
def InvB (d : DataFlowGraph) : Prop :=
  SigEmpty d ∧ Lockstep d ∧ ValsBound d ∧ DirectHomeRes d ∧ DirectNoEbb d ∧ Uniq d

/-- `occCount` transfer when neither list map changes. -/
theorem occ_same (d d' : DataFlowGraph) (v : Value)
    (hres : d'.results = d.results) (hebb : d'.ebbs = d.ebbs) :
    occCount d' v = occCount d v := by
  rw [occCount, occCount, hres, hebb]

/-- `occCount` bookkeeping when one result list is replaced. -/
theorem occ_set_results (d d' : DataFlowGraph) (j : Nat) (l : List Value)
    (v : Value) (hres : d'.results = d.results.set j l)
    (hebb : d'.ebbs = d.ebbs) (hj : j < d.results.length) :
    occCount d' v + ((d.results[j]?).getD []).count v =
      occCount d v + l.count v := by
  rw [occCount, occCount, hres, hebb]
  have := count_flatten_set d.results j l v hj
  omega

/-- `occCount` bookkeeping when one EBB argument list is replaced. -/
theorem occ_set_ebbs (d d' : DataFlowGraph) (e : Nat) (l : List Value)
    (v : Value) (hres : d'.results = d.results)
    (hebb : d'.ebbs = d.ebbs.set e l) (he : e < d.ebbs.length) :
    occCount d' v + ((d.ebbs[e]?).getD []).count v =
      occCount d v + l.count v := by
  rw [occCount, occCount, hres, hebb]
  have := count_flatten_set d.ebbs e l v he
  omega

/-- Under `DirectHomeRes`, all occurrences of a direct value in the result
map sit in the list at its own index. -/
theorem directHome_count (d : DataFlowGraph) (hdh : DirectHomeRes d) (i : Nat) :
    (d.results.flatten).count (Value.direct i) ≤
      ((d.results[i]?).getD []).count (Value.direct i) := by
  rcases hri : d.results[i]? with _ | list
  · have h0 : Value.direct i ∉ d.results.flatten := by
      intro hm
      obtain ⟨j, l, hj, hv⟩ := (mem_flatten_pos _ _).mp hm
      obtain ⟨p, hp⟩ := List.mem_iff_getElem?.mp hv
      obtain ⟨hji, hp0⟩ := hdh i j p l hj hp
      rw [hji, hri] at hj
      exact Option.noConfusion hj
    rw [List.count_eq_zero.mpr h0]
    exact Nat.zero_le _
  · have hilt : i < d.results.length := (List.getElem?_eq_some.mp hri).1
    have hcs := count_flatten_set d.results i [] (Value.direct i) hilt
    have h0 : Value.direct i ∉ (d.results.set i []).flatten := by
      intro hm
      obtain ⟨j, l, hj, hv⟩ := (mem_flatten_pos _ _).mp hm
      obtain ⟨p, hp⟩ := List.mem_iff_getElem?.mp hv
      rw [getElem?_set_cases] at hj
      by_cases hcase : i = j ∧ i < d.results.length
      · rw [if_pos hcase] at hj
        rw [← Option.some.inj hj] at hv
        exact List.not_mem_nil _ hv
      · rw [if_neg hcase] at hj
        obtain ⟨hji, hp0⟩ := hdh i j p l hj hp
        exact hcase ⟨hji.symm, hilt⟩
    have hz : ((d.results.set i []).flatten).count (Value.direct i) = 0 :=
      List.count_eq_zero.mpr h0
    rw [hri] at hcs
    simp only [Option.getD_some, List.count_nil] at hcs
    simp only [Option.getD_some]
    omega

/-- C8-invariant transfer along operations that change neither list map,
keep the instruction count and the signatures, and never shrink the
extended value table. -/
theorem invB_transfer (d d' : DataFlowGraph)
    (hres : d'.results = d.results) (hebb : d'.ebbs = d.ebbs)
    (hins : d'.insts.length = d.insts.length)
    (hsg : d'.signatures = d.signatures)
    (hevlen : d.extended_values.length ≤ d'.extended_values.length)
    (hinv : InvB d) : InvB d' := by
  obtain ⟨hsig, hlock, hvb, hdh, hne, hu⟩ := hinv
  refine ⟨?_, ?_, ?_, ?_, ?_, ?_⟩
  · show d'.signatures = []
    rw [hsg]
    exact hsig
  · show d'.results.length = d'.insts.length
    rw [hres, hins]
    exact hlock
  · intro m hm
    rw [occ_same d d' (Value.table m) hres hebb]
    exact hvb m (le_trans hevlen hm)
  · intro i j p list hj hp
    rw [hres] at hj
    exact hdh i j p list hj hp
  · intro i
    rw [hebb]
    exact hne i
  · intro v
    rw [occ_same d d' v hres hebb]
    exact hu v

/-- C8-invariant preservation when one result list is shrunk to its direct
head or to nothing: the `detach_secondary_results` and `replace_copy`
shapes. -/
theorem invB_set_shrink (d d' : DataFlowGraph) (j : Nat)
    (nlist oldlist : List Value)
    (hres : d'.results = d.results.set j nlist)
    (hebb : d'.ebbs = d.ebbs) (hev : d'.extended_values = d.extended_values)
    (hsg : d'.signatures = d.signatures)
    (hil : d'.insts.length = d.insts.length)
    (hrl : d.results[j]? = some oldlist)
    (hnl : nlist = [Value.direct j] ∨ nlist = [])
    (hinv : InvB d) : InvB d' := by
  obtain ⟨hsig, hlock, hvb, hdh, hne, hu⟩ := hinv
  have hjlt : j < d.results.length := (List.getElem?_eq_some.mp hrl).1
  have hocc : ∀ v, occCount d' v + oldlist.count v =
      occCount d v + nlist.count v := by
    intro v
    have h1 := occ_set_results d d' j nlist v hres hebb hjlt
    rw [hrl] at h1
    simpa using h1
  refine ⟨?_, ?_, ?_, ?_, ?_, ?_⟩
  · show d'.signatures = []
    rw [hsg]
    exact hsig
  · show d'.results.length = d'.insts.length
    rw [hres, List.length_set, hil]
    exact hlock
  · intro m hm
    have hm2 : d.extended_values.length ≤ m := by
      rw [← hev]
      exact hm
    have h1 := hocc (Value.table m)
    have h2 := hvb m hm2
    have h3 : nlist.count (Value.table m) = 0 := by
      rcases hnl with rfl | rfl
      · rw [count_singleton_eq, if_neg (fun hc => Value.noConfusion hc)]
      · rw [List.count_nil]
    omega
  · intro i j2 p list hj2 hp
    rw [hres, getElem?_set_cases] at hj2
    by_cases hcase : j = j2 ∧ j < d.results.length
    · rw [if_pos hcase] at hj2
      rw [← Option.some.inj hj2] at hp
      rcases hnl with rfl | rfl
      · rcases p with _ | p
        · rw [List.getElem?_cons_zero] at hp
          obtain ⟨rfl, -⟩ := hcase
          exact ⟨Value.direct.inj (Option.some.inj hp), rfl⟩
        · rw [List.getElem?_cons_succ, List.getElem?_nil] at hp
          exact Option.noConfusion hp
      · rw [List.getElem?_nil] at hp
        exact Option.noConfusion hp
    · rw [if_neg hcase] at hj2
      exact hdh i j2 p list hj2 hp
  · intro i
    rw [hebb]
    exact hne i
  · intro v
    have h1 := hocc v
    have h2 := hu v
    have h3 : nlist.count v ≤ 1 := by
      rcases hnl with rfl | rfl
      · rw [count_singleton_eq]
        split
        · omega
        · omega
      · rw [List.count_nil]
        omega
    by_cases hdir : v = Value.direct j
    · subst hdir
      have h4 := directHome_count d hdh j
      rw [hrl] at h4
      simp only [Option.getD_some] at h4
      have h5 : (d.ebbs.flatten).count (Value.direct j) = 0 :=
        List.count_eq_zero.mpr (hne j)
      have h6 : occCount d (Value.direct j) =
          (d.results.flatten).count (Value.direct j) +
            (d.ebbs.flatten).count (Value.direct j) := rfl
      omega
    · have h7 : nlist.count v = 0 := by
        rcases hnl with rfl | rfl
        · rw [count_singleton_eq, if_neg (fun hc => hdir hc.symm)]
        · rw [List.count_nil]
      omega

/-- `make_inst` preserves the C8 invariant: the result map is padded with an
empty list and the payload appended. -/
theorem invB_make_inst (d : DataFlowGraph) (data : InstructionData)
    (hinv : InvB d) : InvB (d.make_inst data).1 := by
  obtain ⟨hsig, hlock, hvb, hdh, hne, hu⟩ := hinv
  have hlock2 : d.results.length = d.insts.length := hlock
  have hres : (d.make_inst data).1.results =
      d.results ++ List.replicate (d.insts.length + 1 - d.results.length) [] := by
    show resizeLists d.results (d.insts.length + 1) = _
    exact resizeLists_of_le d.results (d.insts.length + 1) (by omega)
  have hocc : ∀ v, occCount (d.make_inst data).1 v = occCount d v := by
    intro v
    rw [occCount, occCount, hres, count_flatten_pad]
    rfl
  refine ⟨?_, ?_, ?_, ?_, ?_, ?_⟩
  · show d.signatures = []
    exact hsig
  · show (resizeLists d.results (d.insts.length + 1)).length =
      (d.insts ++ [data]).length
    rw [resizeLists_length, List.length_append, List.length_singleton]
  · intro m hm
    rw [hocc]
    exact hvb m hm
  · intro i j p list hj hp
    have hj2 : (d.results ++
        List.replicate (d.insts.length + 1 - d.results.length)
          ([] : List Value))[j]? = some list := by
      rw [← hres]
      exact hj
    by_cases hjl : j < d.results.length
    · rw [List.getElem?_append_left hjl] at hj2
      exact hdh i j p list hj2 hp
    · rw [List.getElem?_append_right (by omega)] at hj2
      rw [List.getElem?_replicate] at hj2
      by_cases hcl : j - d.results.length < d.insts.length + 1 - d.results.length
      · rw [if_pos hcl] at hj2
        rw [← Option.some.inj hj2] at hp
        rw [List.getElem?_nil] at hp
        exact Option.noConfusion hp
      · rw [if_neg hcl] at hj2
        exact Option.noConfusion hj2
  · intro i
    show Value.direct i ∉ d.ebbs.flatten
    exact hne i
  · intro v
    rw [hocc]
    exact hu v

/-- `make_ebb` preserves the C8 invariant: an empty argument list is
appended. -/
theorem invB_make_ebb (d : DataFlowGraph) (hinv : InvB d) :
    InvB d.make_ebb.1 := by
  obtain ⟨hsig, hlock, hvb, hdh, hne, hu⟩ := hinv
  have hocc : ∀ v, occCount d.make_ebb.1 v = occCount d v := by
    intro v
    rw [occCount, occCount]
    have h1 : d.make_ebb.1.ebbs = d.ebbs ++ [[]] := rfl
    rw [h1, List.flatten_append]
    have h2 : ([[]] : List (List Value)).flatten = [] := rfl
    rw [h2, List.append_nil]
    rfl
  refine ⟨hsig, hlock, ?_, ?_, ?_, ?_⟩
  · intro m hm
    rw [hocc]
    exact hvb m hm
  · intro i j p list hj hp
    exact hdh i j p list hj hp
  · intro i hm
    have hm2 : Value.direct i ∈ (d.ebbs ++ [[]]).flatten := hm
    rw [List.flatten_append] at hm2
    rcases List.mem_append.mp hm2 with h1 | h2
    · exact hne i h1
    · have h3 : ([[]] : List (List Value)).flatten = [] := rfl
      rw [h3] at h2
      exact List.not_mem_nil _ h2
  · intro v
    rw [hocc]
    exact hu v

/-- `attach_secondary_result` on a detached value preserves the C8
invariant. -/
theorem invB_attach (d d' : DataFlowGraph) (last res : Value)
    (h : d.attach_secondary_result last res = .ok d')
    (hocc0 : occCount d res = 0) (hinv : InvB d) : InvB d' := by
  obtain ⟨hsig, hlock, hvb, hdh, hne, hu⟩ := hinv
  obtain ⟨i, list, ridx, rty, rnum, rinst, rnx, ev1, hresv, hri, hlen, hs1, hd, hcase⟩ :=
    attach_inv d d' last res h
  have hilt : i < d.results.length := (List.getElem?_eq_some.mp hri).1
  have hridx : ridx < ev1.length := (List.getElem?_eq_some.mp hs1).1
  have hev1len : ev1.length = d.extended_values.length := by
    rcases hcase with ⟨h1, rfl⟩ | ⟨idx, lty, lnum, h1, h2, rfl⟩
    · rfl
    · rw [List.length_set]
  have hevq : d'.extended_values =
      ev1.set ridx (ValueData.Inst rty (list.length % 65536) i none) := by
    rw [hd]
  have hevlen : d'.extended_values.length = d.extended_values.length := by
    rw [hevq, List.length_set, hev1len]
  have hresq : d'.results = d.results.set i (list ++ [res]) := by
    rw [hd]
  have hebbq : d'.ebbs = d.ebbs := by
    rw [hd]
  have hinsq : d'.insts = d.insts := by
    rw [hd]
  have hsgq : d'.signatures = d.signatures := by
    rw [hd]
  have hoccv : ∀ v, occCount d' v + list.count v =
      occCount d v + (list ++ [res]).count v := by
    intro v
    have h1 := occ_set_results d d' i (list ++ [res]) v hresq hebbq hilt
    rw [hri] at h1
    simpa using h1
  have hoccv2 : ∀ v, occCount d' v =
      occCount d v + (if res = v then 1 else 0) := by
    intro v
    have h1 := hoccv v
    rw [List.count_append, count_singleton_eq] at h1
    omega
  refine ⟨?_, ?_, ?_, ?_, ?_, ?_⟩
  · show d'.signatures = []
    rw [hsgq]
    exact hsig
  · show d'.results.length = d'.insts.length
    rw [hresq, List.length_set, hinsq]
    exact hlock
  · intro m hm
    rw [hoccv2]
    have hm2 : d.extended_values.length ≤ m := by
      rw [← hevlen]
      exact hm
    have hne2 : res ≠ Value.table m := by
      rw [hresv]
      intro hc
      have := Value.table.inj hc
      omega
    rw [if_neg (fun hc => hne2 hc), Nat.add_zero]
    exact hvb m hm2
  · intro i0 j p lst hj hp
    rw [hresq, getElem?_set_cases] at hj
    by_cases hcs : i = j ∧ i < d.results.length
    · rw [if_pos hcs] at hj
      rw [← Option.some.inj hj] at hp
      rw [getElem?_concat_cases] at hp
      by_cases hpl : p = list.length
      · rw [if_pos hpl] at hp
        rw [hresv] at hp
        exact Value.noConfusion (Option.some.inj hp)
      · rw [if_neg hpl] at hp
        obtain ⟨h1, h2⟩ := hdh i0 i p list hri hp
        exact ⟨hcs.1 ▸ h1, h2⟩
    · rw [if_neg hcs] at hj
      exact hdh i0 j p lst hj hp
  · intro i0
    rw [hebbq]
    exact hne i0
  · intro v
    rw [hoccv2]
    by_cases hrv : res = v
    · rw [if_pos hrv, ← hrv, hocc0]
    · rw [if_neg hrv, Nat.add_zero]
      exact hu v

/-- `attach_ebb_arg` on a detached value preserves the C8 invariant. -/
theorem invB_attach_ebb (d d' : DataFlowGraph) (e2 : Nat) (arg : Value)
    (h : d.attach_ebb_arg e2 arg = .ok d')
    (hocc0 : occCount d arg = 0) (hinv : InvB d) : InvB d' := by
  obtain ⟨hsig, hlock, hvb, hdh, hne, hu⟩ := hinv
  obtain ⟨args, idx, ty, num, hargs, hlen, harg, hslot, hd⟩ :=
    attach_ebb_arg_inv d d' e2 arg h
  have helt : e2 < d.ebbs.length := (List.getElem?_eq_some.mp hargs).1
  have hidx : idx < d.extended_values.length := (List.getElem?_eq_some.mp hslot).1
  have hresq : d'.results = d.results := by
    rw [hd]
  have hebbq : d'.ebbs = d.ebbs.set e2 (args ++ [arg]) := by
    rw [hd]
  have hinsq : d'.insts = d.insts := by
    rw [hd]
  have hsgq : d'.signatures = d.signatures := by
    rw [hd]
  have hevq : d'.extended_values =
      d.extended_values.set idx (ValueData.Arg ty (args.length % 65536) e2) := by
    rw [hd]
  have hoccv2 : ∀ v, occCount d' v =
      occCount d v + (if arg = v then 1 else 0) := by
    intro v
    have h1 := occ_set_ebbs d d' e2 (args ++ [arg]) v hresq hebbq helt
    rw [hargs] at h1
    rw [List.count_append, count_singleton_eq] at h1
    simp only [Option.getD_some] at h1
    omega
  refine ⟨?_, ?_, ?_, ?_, ?_, ?_⟩
  · show d'.signatures = []
    rw [hsgq]
    exact hsig
  · show d'.results.length = d'.insts.length
    rw [hresq, hinsq]
    exact hlock
  · intro m hm
    have hm2 : d.extended_values.length ≤ m := by
      rw [hevq, List.length_set] at hm
      exact hm
    rw [hoccv2]
    have hne2 : arg ≠ Value.table m := by
      rw [harg]
      intro hc
      have := Value.table.inj hc
      omega
    rw [if_neg (fun hc => hne2 hc), Nat.add_zero]
    exact hvb m hm2
  · intro i0 j p lst hj hp
    rw [hresq] at hj
    exact hdh i0 j p lst hj hp
  · intro i0 hm
    rw [hebbq] at hm
    obtain ⟨j, l, hj, hv⟩ := (mem_flatten_pos _ _).mp hm
    rw [getElem?_set_cases] at hj
    by_cases hcs : e2 = j ∧ e2 < d.ebbs.length
    · rw [if_pos hcs] at hj
      rw [← Option.some.inj hj] at hv
      rcases List.mem_append.mp hv with h1 | h2
      · exact hne i0 ((mem_flatten_pos _ _).mpr ⟨e2, args, hargs, h1⟩)
      · rw [harg] at h2
        exact Value.noConfusion (List.mem_singleton.mp h2)
    · rw [if_neg hcs] at hj
      exact hne i0 ((mem_flatten_pos _ _).mpr ⟨j, l, hj, hv⟩)
  · intro v
    rw [hoccv2]
    by_cases hrv : arg = v
    · rw [if_pos hrv, ← hrv, hocc0]
    · rw [if_neg hrv, Nat.add_zero]
      exact hu v

/-- `detach_ebb_args` preserves the C8 invariant: the argument list is
emptied. -/
theorem invB_detach_ebb (d d' : DataFlowGraph) (e2 : Nat) (args : List Value)
    (h : d.detach_ebb_args e2 = .ok (d', args)) (hinv : InvB d) : InvB d' := by
  obtain ⟨hsig, hlock, hvb, hdh, hne, hu⟩ := hinv
  obtain ⟨hargs, hd⟩ := detach_ebb_args_inv d d' e2 args h
  have helt : e2 < d.ebbs.length := (List.getElem?_eq_some.mp hargs).1
  have hresq : d'.results = d.results := by
    rw [hd]
  have hebbq : d'.ebbs = d.ebbs.set e2 [] := by
    rw [hd]
  have hinsq : d'.insts = d.insts := by
    rw [hd]
  have hsgq : d'.signatures = d.signatures := by
    rw [hd]
  have hevq : d'.extended_values = d.extended_values := by
    rw [hd]
  have hoccv : ∀ v, occCount d' v + args.count v = occCount d v := by
    intro v
    have h1 := occ_set_ebbs d d' e2 [] v hresq hebbq helt
    rw [hargs] at h1
    simp only [Option.getD_some, List.count_nil, Nat.add_zero] at h1
    exact h1
  refine ⟨?_, ?_, ?_, ?_, ?_, ?_⟩
  · show d'.signatures = []
    rw [hsgq]
    exact hsig
  · show d'.results.length = d'.insts.length
    rw [hresq, hinsq]
    exact hlock
  · intro m hm
    have hm2 : d.extended_values.length ≤ m := by
      rw [← hevq]
      exact hm
    have h1 := hoccv (Value.table m)
    have h2 := hvb m hm2
    omega
  · intro i0 j p lst hj hp
    rw [hresq] at hj
    exact hdh i0 j p lst hj hp
  · intro i0 hm
    rw [hebbq] at hm
    obtain ⟨j, l, hj, hv⟩ := (mem_flatten_pos _ _).mp hm
    rw [getElem?_set_cases] at hj
    by_cases hcs : e2 = j ∧ e2 < d.ebbs.length
    · rw [if_pos hcs] at hj
      rw [← Option.some.inj hj] at hv
      exact List.not_mem_nil _ hv
    · rw [if_neg hcs] at hj
      exact hne i0 ((mem_flatten_pos _ _).mpr ⟨j, l, hj, hv⟩)
  · intro v
    have h1 := hoccv v
    have h2 := hu v
    omega

/-- `replace_ebb_arg` preserves the C8 invariant: one argument position is
overwritten with a freshly allocated (hence detached) table value. -/
theorem invB_replace_ebb (d d' : DataFlowGraph) (old_arg : Value) (nty : Ty)
    (v0 : Value) (h : d.replace_ebb_arg old_arg nty = .ok (d', v0))
    (hinv : InvB d) : InvB d' := by
  obtain ⟨hsig, hlock, hvb, hdh, hne, hu⟩ := hinv
  obtain ⟨idx, ty0, num, ebb, args, hslot, hargs, hnum, hv0, hd⟩ :=
    replace_ebb_arg_inv d d' old_arg nty v0 h
  have helt : ebb < d.ebbs.length := (List.getElem?_eq_some.mp hargs).1
  have hresq : d'.results = d.results := by
    rw [hd]
  have hebbq : d'.ebbs =
      d.ebbs.set ebb (args.set num (Value.table d.extended_values.length)) := by
    rw [hd]
  have hinsq : d'.insts = d.insts := by
    rw [hd]
  have hsgq : d'.signatures = d.signatures := by
    rw [hd]
  have hevq : d'.extended_values =
      d.extended_values ++ [ValueData.Arg nty num ebb] := by
    rw [hd]
  have hoccv : ∀ v, occCount d' v + args.count v = occCount d v +
      (args.set num (Value.table d.extended_values.length)).count v := by
    intro v
    have h1 := occ_set_ebbs d d' ebb
      (args.set num (Value.table d.extended_values.length)) v hresq hebbq helt
    rw [hargs] at h1
    simpa using h1
  refine ⟨?_, ?_, ?_, ?_, ?_, ?_⟩
  · show d'.signatures = []
    rw [hsgq]
    exact hsig
  · show d'.results.length = d'.insts.length
    rw [hresq, hinsq]
    exact hlock
  · intro m hm
    have hm2 : d.extended_values.length + 1 ≤ m := by
      rw [hevq, List.length_append, List.length_singleton] at hm
      exact hm
    have h1 := hoccv (Value.table m)
    have h2 := hvb m (by omega)
    have h3 : (args.set num (Value.table d.extended_values.length)).count
        (Value.table m) ≤ args.count (Value.table m) :=
      count_set_le args num _ _ (by intro hc; have := Value.table.inj hc; omega)
    omega
  · intro i0 j p lst hj hp
    rw [hresq] at hj
    exact hdh i0 j p lst hj hp
  · intro i0 hm
    rw [hebbq] at hm
    obtain ⟨j, l, hj, hv⟩ := (mem_flatten_pos _ _).mp hm
    rw [getElem?_set_cases] at hj
    by_cases hcs : ebb = j ∧ ebb < d.ebbs.length
    · rw [if_pos hcs] at hj
      rw [← Option.some.inj hj] at hv
      rcases List.mem_or_eq_of_mem_set hv with h1 | h2
      · exact hne i0 ((mem_flatten_pos _ _).mpr ⟨ebb, args, hargs, h1⟩)
      · exact Value.noConfusion h2
    · rw [if_neg hcs] at hj
      exact hne i0 ((mem_flatten_pos _ _).mpr ⟨j, l, hj, hv⟩)
  · intro v
    have h1 := hoccv v
    by_cases hrv : v = Value.table d.extended_values.length
    · subst hrv
      have h2 := hvb d.extended_values.length (Nat.le_refl _)
      have h3 := count_set_le_succ args num
        (Value.table d.extended_values.length)
        (Value.table d.extended_values.length)
      omega
    · have h2 := hu v
      have h3 : (args.set num (Value.table d.extended_values.length)).count v ≤
          args.count v :=
        count_set_le args num _ v (fun hc => hrv hc)
      omega

/-- `make_inst_results` preserves the C8 invariant: the result list is
replaced by the materialized list of the direct value and fresh tables. -/
theorem invB_make_inst_results (d d' : DataFlowGraph) (inst : Nat) (ctrl : Ty)
    (n : Nat) (h : d.make_inst_results inst ctrl = .ok (d', n))
    (hinv : InvB d) : InvB d' := by
  obtain ⟨hsig, hlock, hvb, hdh, hne, hu⟩ := hinv
  obtain ⟨idata, hid, hlt, hn, hd⟩ := make_inst_results_inv d d' inst ctrl n hsig h
  obtain ⟨oldlist, hrl⟩ : ∃ l, d.results[inst]? = some l :=
    ⟨d.results[inst], List.getElem?_eq_getElem hlt⟩
  have hresq : d'.results = d.results.set inst
      (mirResults inst d.extended_values.length
        (resultTypes idata.opcode ctrl []).length) := by
    rw [hd]
  have hebbq : d'.ebbs = d.ebbs := by
    rw [hd]
  have hinsq2 : d'.insts = d.insts.set inst
      (idata.set_first_type ((resultTypes idata.opcode ctrl []).getD 0 0)) := by
    rw [hd]
  have hsgq : d'.signatures = d.signatures := by
    rw [hd]
  have hevq : d'.extended_values = d.extended_values ++
      mirSlots inst (resultTypes idata.opcode ctrl []).length
        d.extended_values.length (resultTypes idata.opcode ctrl []) := by
    rw [hd]
  have hoccv : ∀ v, occCount d' v + oldlist.count v = occCount d v +
      (mirResults inst d.extended_values.length
        (resultTypes idata.opcode ctrl []).length).count v := by
    intro v
    have h1 := occ_set_results d d' inst
      (mirResults inst d.extended_values.length
        (resultTypes idata.opcode ctrl []).length) v hresq hebbq hlt
    rw [hrl] at h1
    simpa using h1
  refine ⟨?_, ?_, ?_, ?_, ?_, ?_⟩
  · show d'.signatures = []
    rw [hsgq]
    exact hsig
  · show d'.results.length = d'.insts.length
    rw [hresq, List.length_set, hinsq2, List.length_set]
    exact hlock
  · intro m hm
    have hm2 : d.extended_values.length +
        ((resultTypes idata.opcode ctrl []).length - 1) ≤ m := by
      rw [hevq, List.length_append, mirSlots_length] at hm
      exact hm
    have h1 := hoccv (Value.table m)
    have h2 := hvb m (by omega)
    have h3 : (mirResults inst d.extended_values.length
        (resultTypes idata.opcode ctrl []).length).count (Value.table m) = 0 := by
      rw [List.count_eq_zero]
      intro hmem
      obtain ⟨j, hj, hje⟩ := mirResults_mem_table _ _ _ _ hmem
      omega
    omega
  · intro i0 j p lst hj hp
    rw [hresq, getElem?_set_cases] at hj
    by_cases hcs : inst = j ∧ inst < d.results.length
    · rw [if_pos hcs] at hj
      rw [← Option.some.inj hj] at hp
      obtain ⟨h1, h2⟩ := mirResults_direct inst d.extended_values.length
        (resultTypes idata.opcode ctrl []).length p i0 hp
      exact ⟨hcs.1 ▸ h1.symm, h2⟩
    · rw [if_neg hcs] at hj
      exact hdh i0 j p lst hj hp
  · intro i0
    rw [hebbq]
    exact hne i0
  · intro v
    have h1 := hoccv v
    have hnd : (mirResults inst d.extended_values.length
        (resultTypes idata.opcode ctrl []).length).count v ≤ 1 :=
      List.nodup_iff_count_le_one.mp (mirResults_nodup _ _ _) v
    by_cases hz : (mirResults inst d.extended_values.length
        (resultTypes idata.opcode ctrl []).length).count v = 0
    · have h2 := hu v
      omega
    · have hmem : v ∈ mirResults inst d.extended_values.length
          (resultTypes idata.opcode ctrl []).length :=
        List.count_pos_iff.mp (by omega)
      rcases v with i0 | m
      · obtain ⟨p, hp⟩ := List.mem_iff_getElem?.mp hmem
        obtain ⟨h2, h3⟩ := mirResults_direct _ _ _ p i0 hp
        subst h2
        have h4 := directHome_count d hdh i0
        rw [hrl] at h4
        simp only [Option.getD_some] at h4
        have h5 : (d.ebbs.flatten).count (Value.direct i0) = 0 :=
          List.count_eq_zero.mpr (hne i0)
        have h6 : occCount d (Value.direct i0) =
            (d.results.flatten).count (Value.direct i0) +
              (d.ebbs.flatten).count (Value.direct i0) := rfl
        omega
      · obtain ⟨j, hj, hje⟩ := mirResults_mem_table _ _ _ _ hmem
        subst hje
        have h2 := hvb (d.extended_values.length + j) (Nat.le_add_right _ _)
        omega

/-- `redefine_first_value` preserves the C8 invariant: the original list
(minus its head) moves to the fresh instruction behind a fresh direct head
and the original keeps a single direct value. -/
theorem invB_redefine (d d' : DataFlowGraph) (orig new : Nat)
    (h : d.redefine_first_value orig = .ok (d', new))
    (hinv : InvB d) : InvB d' := by
  obtain ⟨hsig, hlock, hvb, hdh, hne, hu⟩ := hinv
  have hlock2 : d.results.length = d.insts.length := hlock
  obtain ⟨odata, r0, rest, hio, hro, hnew, hd⟩ := redefine_inv d d' orig new h
  have horig : orig < d.results.length := (List.getElem?_eq_some.mp hro).1
  have horigL : orig < d.insts.length := by omega
  have hresq : d'.results = ((resizeLists (d.results.set orig [])
      (d.insts.length + 1)).set d.insts.length
        (Value.direct d.insts.length :: rest)).set orig [Value.direct orig] := by
    rw [hd]
  have hebbq : d'.ebbs = d.ebbs := by
    rw [hd]
  have hinsq2 : d'.insts = (d.insts ++ [odata]).set orig
      (InstructionData.Unary Opcode.Copy odata.first_type
        (Value.direct d.insts.length)) := by
    rw [hd]
  have hsgq : d'.signatures = d.signatures := by
    rw [hd]
  have hevq : d'.extended_values = d.extended_values := by
    rw [hd]
  have hAlen : (d.results.set orig []).length = d.insts.length := by
    rw [List.length_set]
    exact hlock
  have hB2 : resizeLists (d.results.set orig []) (d.insts.length + 1) =
      (d.results.set orig []) ++ [[]] := by
    have hB := resizeLists_of_le (d.results.set orig []) (d.insts.length + 1)
      (by rw [hAlen]; omega)
    have hk1 : d.insts.length + 1 - (d.results.set orig []).length = 1 := by
      rw [hAlen]
      omega
    rw [hB, hk1, List.replicate_one]
  have hresq2 : d'.results = (((d.results.set orig []) ++ [[]]).set
      d.insts.length (Value.direct d.insts.length :: rest)).set orig
        [Value.direct orig] := by
    rw [hresq, hB2]
  have hBlen : ((d.results.set orig []) ++ [[]]).length = d.insts.length + 1 := by
    rw [List.length_append, List.length_singleton, hAlen]
  have hBL : ((d.results.set orig []) ++ [[]])[d.insts.length]? =
      some ([] : List Value) := by
    rw [List.getElem?_append_right (by rw [hAlen]), hAlen, Nat.sub_self]
    exact List.getElem?_cons_zero
  have hCor : (((d.results.set orig []) ++ [[]]).set d.insts.length
      (Value.direct d.insts.length :: rest))[orig]? = some ([] : List Value) := by
    rw [List.getElem?_set_ne (by omega)]
    rw [List.getElem?_append_left (by rw [List.length_set]; omega)]
    exact List.getElem?_set_self horig
  have hMv : ∀ v, occCount d' v + (r0 :: rest).count v = occCount d v +
      (Value.direct d.insts.length :: rest).count v +
      ([Value.direct orig] : List Value).count v := by
    intro v
    have hA := count_flatten_set d.results orig [] v horig
    rw [hro] at hA
    simp only [Option.getD_some, List.count_nil] at hA
    have hBc : (((d.results.set orig []) ++ [[]]).flatten).count v =
        ((d.results.set orig []).flatten).count v := by
      rw [List.flatten_append, List.count_append]
      have h2 : (([[]] : List (List Value)).flatten).count v = 0 := rfl
      omega
    have hC := count_flatten_set ((d.results.set orig []) ++ [[]])
      d.insts.length (Value.direct d.insts.length :: rest) v
        (by rw [hBlen]; omega)
    rw [hBL] at hC
    simp only [Option.getD_some, List.count_nil] at hC
    have hD := count_flatten_set (((d.results.set orig []) ++ [[]]).set
      d.insts.length (Value.direct d.insts.length :: rest)) orig
        [Value.direct orig] v (by rw [List.length_set, hBlen]; omega)
    rw [hCor] at hD
    simp only [Option.getD_some, List.count_nil] at hD
    have hod2 : occCount d' v = ((((d.results.set orig []) ++ [[]]).set
        d.insts.length (Value.direct d.insts.length :: rest)).set orig
          [Value.direct orig]).flatten.count v + (d.ebbs.flatten).count v := by
      rw [occCount, hresq2, hebbq]
    have hod : occCount d v = (d.results.flatten).count v +
        (d.ebbs.flatten).count v := rfl
    omega
  have hrestnd : ∀ (q i1 : Nat), rest[q]? = some (Value.direct i1) → False := by
    intro q i1 hq
    have h2 : (r0 :: rest)[q + 1]? = some (Value.direct i1) := by
      rw [List.getElem?_cons_succ]
      exact hq
    obtain ⟨h3, h4⟩ := hdh i1 orig (q + 1) (r0 :: rest) hro h2
    omega
  have hrest0 : ∀ i1, rest.count (Value.direct i1) = 0 := by
    intro i1
    rw [List.count_eq_zero]
    intro hmem
    obtain ⟨q, hq⟩ := List.mem_iff_getElem?.mp hmem
    exact hrestnd q i1 hq
  refine ⟨?_, ?_, ?_, ?_, ?_, ?_⟩
  · show d'.signatures = []
    rw [hsgq]
    exact hsig
  · show d'.results.length = d'.insts.length
    rw [hresq2, List.length_set, List.length_set, hBlen, hinsq2,
      List.length_set, List.length_append, List.length_singleton]
  · intro m hm
    have hm2 : d.extended_values.length ≤ m := by
      rw [← hevq]
      exact hm
    have h1 := hMv (Value.table m)
    have hr0 := count_cons_eq r0 rest (Value.table m)
    have hdl : (Value.direct d.insts.length :: rest).count (Value.table m) =
        rest.count (Value.table m) := by
      rw [count_cons_eq, if_neg (fun hc => Value.noConfusion hc), Nat.add_zero]
    have hso : ([Value.direct orig] : List Value).count (Value.table m) = 0 := by
      rw [count_singleton_eq, if_neg (fun hc => Value.noConfusion hc)]
    rw [hr0, hdl, hso] at h1
    have h2 := hvb m hm2
    omega
  · intro i0 j p lst hj hp
    rw [hresq2, getElem?_set_cases] at hj
    by_cases hc1 : orig = j ∧ orig < (((d.results.set orig []) ++ [[]]).set
        d.insts.length (Value.direct d.insts.length :: rest)).length
    · rw [if_pos hc1] at hj
      rw [← Option.some.inj hj] at hp
      rcases p with _ | p
      · rw [List.getElem?_cons_zero] at hp
        obtain ⟨rfl, -⟩ := hc1
        exact ⟨Value.direct.inj (Option.some.inj hp), rfl⟩
      · rw [List.getElem?_cons_succ, List.getElem?_nil] at hp
        exact Option.noConfusion hp
    · rw [if_neg hc1, getElem?_set_cases] at hj
      by_cases hc2 : d.insts.length = j ∧ d.insts.length <
          ((d.results.set orig []) ++ [[]]).length
      · rw [if_pos hc2] at hj
        rw [← Option.some.inj hj] at hp
        rcases p with _ | p
        · rw [List.getElem?_cons_zero] at hp
          obtain ⟨rfl, -⟩ := hc2
          exact ⟨Value.direct.inj (Option.some.inj hp), rfl⟩
        · rw [List.getElem?_cons_succ] at hp
          exact absurd hp (fun hc => hrestnd p i0 hc)
      · rw [if_neg hc2] at hj
        by_cases hjl : j < (d.results.set orig []).length
        · rw [List.getElem?_append_left hjl] at hj
          rw [getElem?_set_cases] at hj
          by_cases hc3 : orig = j ∧ orig < d.results.length
          · rw [if_pos hc3] at hj
            rw [← Option.some.inj hj] at hp
            rw [List.getElem?_nil] at hp
            exact Option.noConfusion hp
          · rw [if_neg hc3] at hj
            exact hdh i0 j p lst hj hp
        · rw [List.getElem?_append_right (by omega)] at hj
          rcases hq : j - (d.results.set orig []).length with _ | q
          · rw [hq, List.getElem?_cons_zero] at hj
            rw [← Option.some.inj hj] at hp
            rw [List.getElem?_nil] at hp
            exact Option.noConfusion hp
          · rw [hq, List.getElem?_cons_succ, List.getElem?_nil] at hj
            exact Option.noConfusion hj
  · intro i0
    rw [hebbq]
    exact hne i0
  · intro v
    have h1 := hMv v
    rcases v with i0 | m
    · have hr0c := count_cons_eq r0 rest (Value.direct i0)
      have hdlc := count_cons_eq (Value.direct d.insts.length) rest
        (Value.direct i0)
      have hsoc := count_singleton_eq (Value.direct orig) (Value.direct i0)
      rw [hrest0 i0] at hr0c hdlc
      by_cases hL : i0 = d.insts.length
      · rw [if_pos (congrArg Value.direct hL.symm)] at hdlc
        have hso2 : ([Value.direct orig] : List Value).count
            (Value.direct i0) = 0 := by
          rw [hsoc, if_neg (fun hc => by have h9 := Value.direct.inj hc; omega)]
        have hcR0 : (d.results.flatten).count (Value.direct i0) = 0 := by
          have h4 := directHome_count d hdh i0
          rw [List.getElem?_eq_none (by omega)] at h4
          simp only [Option.getD_none, List.count_nil] at h4
          omega
        have hebb0 : (d.ebbs.flatten).count (Value.direct i0) = 0 :=
          List.count_eq_zero.mpr (hne i0)
        have hod : occCount d (Value.direct i0) =
            (d.results.flatten).count (Value.direct i0) +
              (d.ebbs.flatten).count (Value.direct i0) := rfl
        rw [hr0c, hdlc, hso2] at h1
        omega
      · by_cases ho : i0 = orig
        · have hdl2 : (Value.direct d.insts.length :: rest).count
              (Value.direct i0) = 0 := by
            rw [hdlc, if_neg (fun hc => hL (Value.direct.inj hc).symm)]
          have hso2 : ([Value.direct orig] : List Value).count
              (Value.direct i0) = 1 := by
            rw [hsoc, if_pos (congrArg Value.direct ho.symm)]
          have hro2 : d.results[i0]? = some (r0 :: rest) := by
            rw [ho]
            exact hro
          have h4 := directHome_count d hdh i0
          rw [hro2] at h4
          simp only [Option.getD_some] at h4
          rw [hr0c] at h4
          have hebb0 : (d.ebbs.flatten).count (Value.direct i0) = 0 :=
            List.count_eq_zero.mpr (hne i0)
          have hod : occCount d (Value.direct i0) =
              (d.results.flatten).count (Value.direct i0) +
                (d.ebbs.flatten).count (Value.direct i0) := rfl
          rw [hdl2, hso2, hr0c] at h1
          omega
        · have hdl2 : (Value.direct d.insts.length :: rest).count
              (Value.direct i0) = 0 := by
            rw [hdlc, if_neg (fun hc => hL (Value.direct.inj hc).symm)]
          have hso2 : ([Value.direct orig] : List Value).count
              (Value.direct i0) = 0 := by
            rw [hsoc, if_neg (fun hc => ho (Value.direct.inj hc).symm)]
          have h2 := hu (Value.direct i0)
          rw [hr0c, hdl2, hso2] at h1
          omega
    · have hr0c := count_cons_eq r0 rest (Value.table m)
      have hdlc : (Value.direct d.insts.length :: rest).count
          (Value.table m) = rest.count (Value.table m) := by
        rw [count_cons_eq, if_neg (fun hc => Value.noConfusion hc), Nat.add_zero]
      have hsoc : ([Value.direct orig] : List Value).count (Value.table m) = 0 := by
        rw [count_singleton_eq, if_neg (fun hc => Value.noConfusion hc)]
      have h2 := hu (Value.table m)
      rw [hr0c, hdlc, hsoc] at h1
      omega

/-- Every public operation, with the reattach operations applied only to
detached values, preserves the C8 invariant. -/
theorem step_invB {d d' : DataFlowGraph} (hstep : Step true d d')
    (hinv : InvB d) : InvB d' := by
  cases hstep with
  | make_inst data =>
    exact invB_make_inst d data hinv
  | make_inst_results d1 inst ctrl n h =>
    exact invB_make_inst_results d d' inst ctrl n h hinv
  | detach_secondary_results d1 inst ov h =>
    rcases detach_inv d d' inst ov h with hdd | ⟨x, rest, nlist, hres, hnl, hd⟩
    · rw [hdd]
      exact hinv
    · exact invB_set_shrink d d' inst nlist (x :: rest) (by rw [hd]) (by rw [hd])
        (by rw [hd]) (by rw [hd]) (by rw [hd]) hres hnl hinv
  | attach_secondary_result d1 last res hg h =>
    exact invB_attach d d' last res h (hg rfl) hinv
  | append_secondary_result d1 last ty v h =>
    obtain ⟨hv, hat⟩ := append_secondary_inv d d' last ty v h
    refine invB_attach _ d' last (.table d.extended_values.length) hat ?_ ?_
    · show occCount { d with extended_values :=
        d.extended_values ++ [ValueData.Inst ty 0 0 none] }
          (Value.table d.extended_values.length) = 0
      rw [occ_same d { d with extended_values :=
        d.extended_values ++ [ValueData.Inst ty 0 0 none] }
          (Value.table d.extended_values.length) rfl rfl]
      exact hinv.2.2.1 d.extended_values.length (Nat.le_refl _)
    · refine invB_transfer d _ rfl rfl rfl rfl ?_ hinv
      show d.extended_values.length ≤
        (d.extended_values ++ [ValueData.Inst ty 0 0 none]).length
      rw [List.length_append, List.length_singleton]
      omega
  | change_to_alias d1 dest src h =>
    obtain ⟨idx, ty, org, hd⟩ := change_to_alias_inv d d' dest src h
    have hev2 : d'.extended_values =
        d.extended_values.set idx (ValueData.Alias ty org) := by
      rw [hd]
    exact invB_transfer d d' (by rw [hd]) (by rw [hd]) (by rw [hd]) (by rw [hd])
      (by rw [hev2, List.length_set]) hinv
  | make_value_alias d1 src v h =>
    obtain ⟨ty, hd⟩ := make_value_alias_inv d d' src v h
    have hev2 : d'.extended_values =
        d.extended_values ++ [ValueData.Alias ty src] := by
      rw [hd]
    exact invB_transfer d d' (by rw [hd]) (by rw [hd]) (by rw [hd]) (by rw [hd])
      (by rw [hev2, List.length_append, List.length_singleton]; omega) hinv
  | make_ebb =>
    exact invB_make_ebb d hinv
  | append_ebb_arg d1 ebb ty v h =>
    obtain ⟨hv, hat⟩ := append_ebb_arg_inv d d' ebb ty v h
    refine invB_attach_ebb _ d' ebb (.table d.extended_values.length) hat ?_ ?_
    · show occCount { d with extended_values :=
        d.extended_values ++ [ValueData.Arg ty 0 ebb] }
          (Value.table d.extended_values.length) = 0
      rw [occ_same d { d with extended_values :=
        d.extended_values ++ [ValueData.Arg ty 0 ebb] }
          (Value.table d.extended_values.length) rfl rfl]
      exact hinv.2.2.1 d.extended_values.length (Nat.le_refl _)
    · refine invB_transfer d _ rfl rfl rfl rfl ?_ hinv
      show d.extended_values.length ≤
        (d.extended_values ++ [ValueData.Arg ty 0 ebb]).length
      rw [List.length_append, List.length_singleton]
      omega
  | attach_ebb_arg d1 ebb arg hg h =>
    exact invB_attach_ebb d d' ebb arg h (hg rfl) hinv
  | detach_ebb_args d1 ebb args h =>
    exact invB_detach_ebb d d' ebb args h hinv
  | replace_ebb_arg d1 old_arg ty v h =>
    exact invB_replace_ebb d d' old_arg ty v h hinv
  | replace_copy d1 inst arg h =>
    obtain ⟨ty, odata2, hs0, hlt0, hd⟩ := replace_copy_inv d d' inst arg h
    obtain ⟨oldlist, hrl⟩ : ∃ l, d.results[inst]? = some l :=
      ⟨d.results[inst], List.getElem?_eq_getElem hlt0⟩
    have hin2 : d'.insts = d.insts.set inst
        (InstructionData.Unary Opcode.Copy ty arg) := by
      rw [hd]
    exact invB_set_shrink d d' inst [Value.direct inst] oldlist (by rw [hd])
      (by rw [hd]) (by rw [hd]) (by rw [hd]) (by rw [hin2, List.length_set])
      hrl (Or.inl rfl) hinv
  | redefine_first_value d1 orig new h =>
    exact invB_redefine d d' orig new h hinv

/-- Every state reachable under the documented attach precondition satisfies
the C8 invariant. -/
theorem reachable_invB (d : DataFlowGraph) (h : Reachable true d) : InvB d := by
  induction h with
  | base =>
    refine ⟨rfl, rfl, ?_, ?_, ?_, ?_⟩
    · intro m hm
      rfl
    · intro i j p list hj hp
      rw [show DataFlowGraph.new.results = ([] : List (List Value)) from rfl,
        List.getElem?_nil] at hj
      exact Option.noConfusion hj
    · intro i hm
      exact List.not_mem_nil _ hm
    · intro v
      have h0 : occCount DataFlowGraph.new v = 0 := rfl
      omega
  | step hr hstep ih =>
    exact step_invB hstep ih

/-- Claim C8 (amended): when the reattach operations are applied only to
detached values — their documented precondition — every reachable state
keeps each attached value (a value present in some result list or some EBB
argument list) at exactly one position of exactly one list.  Without that
precondition the claim fails, since `attach_secondary_result` accepts
already-attached values. -/
theorem C8_attach_unique : ∀ (d : DataFlowGraph), Reachable true d →
    ∀ v : Value, v ∈ d.results.flatten ∨ v ∈ d.ebbs.flatten →
      occCount d v = 1 := by
  intro d h v hv
  have hu := (reachable_invB d h).2.2.2.2.2 v
  have hocc : occCount d v = (d.results.flatten).count v +
      (d.ebbs.flatten).count v := rfl
  rcases hv with hm | hm
  · have h1 := List.count_pos_iff.mpr hm
    omega
  · have h1 := List.count_pos_iff.mpr hm
    omega

/-- The spec's claim C8 as stated: over all states reachable by the public
operations, with no precondition on the values handed to the attach
operations. -/
def ClaimC8 : Prop :=
  ∀ (d : DataFlowGraph), Reachable false d →
    ∀ v : Value, v ∈ d.results.flatten ∨ v ∈ d.ebbs.flatten →
      occCount d v = 1

/-- The state obtained by attaching the already-attached carry of the
materialized `iadd_cout` a second time: the carry occupies two positions of
the same result list. -/
def dDbl : DataFlowGraph :=
  ⟨[.Binary .IaddCout 3 (.direct 0) (.direct 0)],
   [[.direct 0, .table 0, .table 0]], [], [.Inst 1 2 0 none], [], []⟩

/-- Claim C8 as stated is false: `attach_secondary_result` succeeds on the
attached carry of the materialized `iadd_cout` (the carry slot's `next` is
empty, so the last-result assertion passes), after which the carry sits at
two positions of instruction 0's result list in a reachable state. -/
theorem C8_counterexample : ¬ ClaimC8 := by
  intro h
  have hreach : Reachable false dDbl :=
    Reachable.step (Reachable.step (Reachable.step Reachable.base
      (Step.make_inst DataFlowGraph.new idataW))
      (Step.make_inst_results dW dW' 0 3 2 (by rfl)))
      (Step.attach_secondary_result dW' dDbl (.table 0) (.table 0)
        (fun hc => Bool.noConfusion hc) (by rfl))
  have hc := h dDbl hreach (Value.table 0) (Or.inl (by decide))
  exact absurd hc (by decide)

/-- Witness for claim C8: the freshly materialized `iadd_cout` is reachable
under the precondition discipline, its carry is attached, and the carry
occupies exactly one position. -/
theorem C8_witness :
    (Reachable true dW' ∧ (Value.table 0 ∈ dW'.results.flatten ∨
      Value.table 0 ∈ dW'.ebbs.flatten)) ∧
    occCount dW' (Value.table 0) = 1 := by
  have hreach : Reachable true dW' :=
    Reachable.step (Reachable.step Reachable.base
      (Step.make_inst DataFlowGraph.new idataW))
      (Step.make_inst_results dW dW' 0 3 2 (by rfl))
  exact ⟨⟨hreach, Or.inl (by decide)⟩,
    C8_attach_unique dW' hreach (Value.table 0) (Or.inl (by decide))⟩

end Cret
